import Mathlib

/-! Go on Airplanes: route resolution and template store.

A shallow embedding of the routing core of the repository (`core/router.go`,
`core/marley.go`, `core/middleware.go`) together with the properties proved of it.

Go strings are modelled as lists of characters (`Str`).  All characters the
code inspects (`/`, `[`, `]`, `.`) are ASCII, so cutting at them is the same on
the byte and on the character level.
-/

namespace GoOnAirplanes

/-! ## Strings -/

/-- A Go string. -/
abbrev Str := List Char

/-- Go `strings.HasPrefix(s, p)`. -/
def hasPrefix : Str → Str → Bool
  | _, [] => true
  | [], _ :: _ => false
  | c :: s, d :: p => c == d && hasPrefix s p

/-- Go `strings.HasSuffix(s, p)`. -/
def hasSuffix (s p : Str) : Bool :=
  hasPrefix s.reverse p.reverse

/-- Go `strings.TrimPrefix(s, p)`. -/
def trimPrefix (s p : Str) : Str :=
  if hasPrefix s p then s.drop p.length else s

/-- Go `strings.TrimSuffix(s, p)`. -/
def trimSuffix (s p : Str) : Str :=
  if hasSuffix s p then s.take (s.length - p.length) else s

/-- Go `strings.Contains(s, string(c))` for a one-character needle. -/
def containsChar (s : Str) (c : Char) : Bool :=
  s.any (· == c)

/-- The platform the program is built for; it fixes `filepath.Separator`. -/
inductive Platform where
  | unix
  | windows
  deriving DecidableEq, Repr

/-- Go `filepath.Separator`. -/
def Platform.separator : Platform → Char
  | .unix => '/'
  | .windows => '\\'

/-- Go `filepath.ToSlash(path)`: the identity when the separator is `/`, and
otherwise `strings.ReplaceAll(path, string(Separator), "/")`. -/
def toSlash (os : Platform) (path : Str) : Str :=
  if os.separator == '/' then path
  else path.map (fun c => if c == os.separator then '/' else c)

/-! ## `core/router.go`: path normalisation -/

/-- Source: `normalizePath` in `core/router.go`. -/
def normalizePath (path : Str) : Str :=
  if path == [] then ['/']
  else if path != ['/'] && hasSuffix path ['/'] then path.take (path.length - 1)
  else path

/-! ## `core/marley.go`: route path of a page file -/

/-- The step `if !strings.HasSuffix(basePath, "/") { basePath += "/" }` of
`getRoutePathFromFile`. -/
def withTrailingSlash (basePath : Str) : Str :=
  if !hasSuffix basePath ['/'] then basePath ++ ['/'] else basePath

/-- Source: `getRoutePathFromFile` in `core/marley.go`, from the statement
`relativePath = strings.TrimSuffix(relativePath, ".html")` to the end. -/
def routeOfRelative (relativePath : Str) : Str :=
  let relativePath := trimSuffix relativePath ".html".toList
  if relativePath == "index".toList then ['/']
  else
    if hasSuffix relativePath "/index".toList then
      let relativePath := trimSuffix relativePath "/index".toList
      if relativePath == [] then ['/']
      else if relativePath != ['/'] && !hasPrefix relativePath ['/'] then '/' :: relativePath
      else relativePath
    else if relativePath != ['/'] && !hasPrefix relativePath ['/'] then '/' :: relativePath
    else relativePath

/-- Source: `getRoutePathFromFile` in `core/marley.go`; `os` fixes the path
separator used by `filepath.ToSlash`.  The second half of the body is
`routeOfRelative`. -/
def getRoutePathFromFile (os : Platform) (fullPath basePath : Str) : Str :=
  let fullPath := toSlash os fullPath
  let basePath := withTrailingSlash (toSlash os basePath)
  let relativePath := if hasPrefix fullPath basePath then trimPrefix fullPath basePath else fullPath
  routeOfRelative relativePath

/-- The path text `/s1/s2/.../sn` below a root, for directory names `s1..sn`. -/
def dirPath : List Str → Str
  | [] => []
  | s :: rest => '/' :: s ++ dirPath rest

/-- The string begins with exactly one `/`. -/
def SingleLeadingSlash (r : Str) : Prop :=
  ∃ t, r = '/' :: t ∧ t.head? ≠ some '/'

/-! ## `core/middleware.go`: middleware chains -/

/-- Source: `MiddlewareChain`; `H` is the handler type (`http.Handler`) and a
middleware (`MiddlewareFunc`) is a function from handlers to handlers. -/
structure MiddlewareChain (H : Type) where
  middlewares : List (H → H)

/-- Source: `NewMiddlewareChain`. -/
def NewMiddlewareChain (H : Type) : MiddlewareChain H :=
  ⟨[]⟩

/-- Source: `MiddlewareChain.Use`. -/
def MiddlewareChain.Use {H : Type} (mc : MiddlewareChain H) (middleware : H → H) :
    MiddlewareChain H :=
  ⟨mc.middlewares ++ [middleware]⟩

/-- The loop of `MiddlewareChain.Then`: `k` is `i + 1` for the loop index `i`,
so the loop runs while `k > 0` and applies `middlewares[k-1]`. -/
def MiddlewareChain.thenLoop {H : Type} (ms : List (H → H)) : Nat → H → H
  | 0, handler => handler
  | k + 1, handler =>
    match ms.get? k with
    | some m => MiddlewareChain.thenLoop ms k (m handler)
    | none => MiddlewareChain.thenLoop ms k handler

/-- Source: `MiddlewareChain.Then`. -/
def MiddlewareChain.Then {H : Type} (mc : MiddlewareChain H) (handler : H) : H :=
  MiddlewareChain.thenLoop mc.middlewares mc.middlewares.length handler

/-! ## Go `regexp`: the part of the RE2 syntax and semantics the router relies on

`regexp.MustCompile` parses a pattern with the Perl flag set, and the matching
functions return the leftmost match, choosing among the matches that start
there the one a backtracking search finds first.  The model covers literals,
`.`, `^`, `$`, capture groups, bracket classes of plain characters and the
greedy operators `*`, `+`, `?` applied to a single-character expression; a
pattern that uses anything else yields `Fault.unmodelled`. -/

/-- An expression that matches exactly one character. -/
inductive CharSet where
  /-- A literal character. -/
  | lit (c : Char)
  /-- The dot: any character but the newline. -/
  | anyNotNL
  /-- A bracket class, `[...]` or (negated) `[^...]`. -/
  | cls (negated : Bool) (members : List Char)
  deriving DecidableEq, Repr

/-- Whether the single-character expression matches `x`. -/
def CharSet.accepts : CharSet → Char → Bool
  | .lit c, x => x == c
  | .anyNotNL, x => x != '\n'
  | .cls negated members, x => if negated then !members.contains x else members.contains x

/-- The greedy repetition operators. -/
inductive RepKind where
  | star
  | plus
  | quest
  deriving DecidableEq, Repr

/-- Parsed regular expressions (Go `syntax.Regexp`). -/
inductive Regex where
  /-- The empty match. -/
  | empty
  | chr (cs : CharSet)
  | rep (kind : RepKind) (cs : CharSet)
  /-- The anchor `^` (without the multi-line flag: start of text). -/
  | beginText
  /-- The anchor `$` (without the multi-line flag: end of text). -/
  | endText
  /-- The capture group number `index`. -/
  | cap (index : Nat) (body : Regex)
  | cat (a b : Regex)
  deriving DecidableEq, Repr

/-- Concatenation of a sequence of expressions. -/
def Regex.seq : List Regex → Regex
  | [] => .empty
  | r :: rs => .cat r (Regex.seq rs)

/-- One way an expression matches at a position: the text consumed, the
capture groups set on the way, and the input left. -/
structure Attempt where
  matched : Str
  caps : List (Nat × Str)
  rest : Str
  deriving DecidableEq, Repr

/-- The ways of cutting `s` after a run of characters accepted by `p`, longest
run first: the order in which a greedy repetition tries them. -/
def greedySplits (p : Char → Bool) : Str → List (Str × Str)
  | [] => [([], [])]
  | c :: cs =>
    if p c then (greedySplits p cs).map (fun mr => (c :: mr.1, mr.2)) ++ [([], c :: cs)]
    else [([], c :: cs)]

/-- All matches of an expression at the current position, in the order a
backtracking search finds them.  `atStart` tells whether the position is the
start of the text. -/
def Regex.run : Regex → Bool → Str → List Attempt
  | .empty, _, s => [⟨[], [], s⟩]
  | .chr cs, _, s =>
    match s with
    | c :: t => if cs.accepts c then [⟨[c], [], t⟩] else []
    | [] => []
  | .rep .star cs, _, s => (greedySplits cs.accepts s).map (fun mr => ⟨mr.1, [], mr.2⟩)
  | .rep .plus cs, _, s =>
    ((greedySplits cs.accepts s).filter (fun mr => !mr.1.isEmpty)).map
      (fun mr => ⟨mr.1, [], mr.2⟩)
  | .rep .quest cs, _, s =>
    match s with
    | c :: t => if cs.accepts c then [⟨[c], [], t⟩, ⟨[], [], s⟩] else [⟨[], [], s⟩]
    | [] => [⟨[], [], []⟩]
  | .beginText, atStart, s => if atStart then [⟨[], [], s⟩] else []
  | .endText, _, s => if s.isEmpty then [⟨[], [], s⟩] else []
  | .cap index body, atStart, s =>
    (Regex.run body atStart s).map (fun a => ⟨a.matched, (index, a.matched) :: a.caps, a.rest⟩)
  | .cat a b, atStart, s =>
    (Regex.run a atStart s).flatMap (fun x =>
      (Regex.run b (atStart && x.matched.isEmpty) x.rest).map (fun y =>
        ⟨x.matched ++ y.matched, x.caps ++ y.caps, y.rest⟩))

/-- A compiled expression (Go `*regexp.Regexp`) with its number of capture
groups (`NumSubexp`). -/
structure Regexp where
  expr : Regex
  numSubexp : Nat
  deriving DecidableEq, Repr

/-- The match preferred at the current position, if there is one. -/
def Regexp.matchHere (re : Regexp) (atStart : Bool) (s : Str) : Option Attempt :=
  (re.expr.run atStart s).head?

/-- The leftmost match in `s`, with the text that precedes it. -/
def Regexp.search (re : Regexp) : Bool → Str → Option (Str × Attempt)
  | atStart, [] => (re.matchHere atStart []).map (fun a => ([], a))
  | atStart, c :: t =>
    match re.matchHere atStart (c :: t) with
    | some a => some ([], a)
    | none => (Regexp.search re false t).map (fun pa => (c :: pa.1, pa.2))

/-- The slice a `Submatch` function returns for a match: the whole match, then
the text of each group (empty for a group that took no part). -/
def Attempt.submatches (numSubexp : Nat) (a : Attempt) : List Str :=
  a.matched :: (List.range numSubexp).map (fun i => (a.caps.lookup (i + 1)).getD [])

/-- Go `Regexp.MatchString`. -/
def Regexp.MatchString (re : Regexp) (s : Str) : Bool :=
  (re.search true s).isSome

/-- Go `Regexp.FindStringSubmatch`; the `nil` result is the empty list. -/
def Regexp.FindStringSubmatch (re : Regexp) (s : Str) : List Str :=
  match re.search true s with
  | some pa => pa.2.submatches re.numSubexp
  | none => []

/-- A stretch of the scanned text: a character outside every match, or a match. -/
inductive Piece where
  | text (c : Char)
  | hit (a : Attempt)
  deriving DecidableEq, Repr

/-- The successive non-overlapping matches in a text and the characters between
them, as the `FindAll` and `ReplaceAll` functions enumerate them.  `skip`
counts the characters still covered by the last match; `afterMatch` tells that
the last match ended at this very position, where an empty match is ignored. -/
def Regexp.scan (re : Regexp) : Bool → Nat → Bool → Str → List Piece
  | _, _ + 1, _, [] => []
  | _, k + 1, _, _ :: t => Regexp.scan re false k true t
  | atStart, 0, afterMatch, [] =>
    match re.matchHere atStart [] with
    | some a => if afterMatch then [] else [.hit a]
    | none => []
  | atStart, 0, afterMatch, c :: t =>
    match re.matchHere atStart (c :: t) with
    | none => .text c :: Regexp.scan re false 0 false t
    | some a =>
      if a.matched.isEmpty then
        (if afterMatch then [.text c] else [.hit a, .text c]) ++ Regexp.scan re false 0 false t
      else .hit a :: Regexp.scan re false (a.matched.length - 1) true t

/-- Go `Regexp.FindAllStringSubmatch(s, -1)`. -/
def Regexp.FindAllStringSubmatch (re : Regexp) (s : Str) : List (List Str) :=
  (re.scan true 0 false s).filterMap (fun p =>
    match p with
    | .hit a => some (a.submatches re.numSubexp)
    | .text _ => none)

/-- Go `Regexp.ReplaceAllString(src, repl)` for a replacement text without `$`,
which is inserted as it is (the program's only replacement is `([^/]+)`). -/
def Regexp.ReplaceAllString (re : Regexp) (src repl : Str) : Str :=
  (re.scan true 0 false src).flatMap (fun p =>
    match p with
    | .hit _ => repl
    | .text c => [c])

deriving instance DecidableEq for Except

/-- Why a pattern yields no compiled expression. -/
inductive Fault where
  /-- The pattern is not a regular expression: `regexp.Compile` returns an
  error and `regexp.MustCompile` panics. -/
  | malformed
  /-- The pattern uses syntax outside the modelled fragment. -/
  | unmodelled
  deriving DecidableEq, Repr

/-- An entry of the parser's stack. -/
inductive Item where
  | node (r : Regex)
  /-- The pseudo-operator pushed by `(`, with the number of its group. -/
  | lparen (index : Nat)
  deriving DecidableEq, Repr

/-- Where the parser stands inside the pattern. -/
inductive Mode where
  | top
  /-- After a backslash. -/
  | escape
  /-- After the `[` that opens a class. -/
  | classStart
  /-- Inside a class; `first` tells that no member has been read yet. -/
  | classBody (negated : Bool) (members : List Char) (first : Bool)
  /-- After a backslash inside a class. -/
  | classEscape (negated : Bool) (members : List Char)
  deriving DecidableEq, Repr

/-- The state of the parser: its stack (top first), the number of groups opened
so far, and the mode. -/
structure PState where
  stack : List Item
  numCap : Nat
  mode : Mode
  deriving DecidableEq, Repr

/-- A backslash followed by an ASCII character that is neither a letter nor a
digit stands for that character. -/
def isEscapablePunct (c : Char) : Bool :=
  c.toNat < 128 && !c.isAlphanum

/-- The expressions above the innermost open parenthesis, in pattern order,
with that parenthesis and the stack below it. -/
def popToParen : List Item → List Regex → Option (List Regex × Nat × List Item)
  | [], _ => none
  | .lparen index :: below, acc => some (acc, index, below)
  | .node r :: below, acc => popToParen below (r :: acc)

/-- Application of a repetition operator to the top of the stack. -/
def applyRep (kind : RepKind) (st : PState) : Except Fault PState :=
  match st.stack with
  | .node (.chr cs) :: below => .ok { st with stack := .node (.rep kind cs) :: below }
  | .node _ :: _ => .error .unmodelled
  | .lparen _ :: _ => if kind = .quest then .error .unmodelled else .error .malformed
  | [] => .error .malformed

/-- One step of the parser (the loop of Go's `syntax.Parse`). -/
def parseStep (st : PState) (c : Char) : Except Fault PState :=
  match st.mode with
  | .top =>
    if c = '(' then
      .ok { st with stack := .lparen (st.numCap + 1) :: st.stack, numCap := st.numCap + 1 }
    else if c = ')' then
      match popToParen st.stack [] with
      | some (body, index, below) =>
        .ok { st with stack := .node (.cap index (Regex.seq body)) :: below }
      | none => .error .malformed
    else if c = '^' then .ok { st with stack := .node .beginText :: st.stack }
    else if c = '$' then .ok { st with stack := .node .endText :: st.stack }
    else if c = '.' then .ok { st with stack := .node (.chr .anyNotNL) :: st.stack }
    else if c = '[' then .ok { st with mode := .classStart }
    else if c = '*' then applyRep .star st
    else if c = '+' then applyRep .plus st
    else if c = '?' then applyRep .quest st
    else if c = '|' then .error .unmodelled
    else if c = '{' then .error .unmodelled
    else if c = '\\' then .ok { st with mode := .escape }
    else .ok { st with stack := .node (.chr (.lit c)) :: st.stack }
  | .escape =>
    if isEscapablePunct c then
      .ok { st with stack := .node (.chr (.lit c)) :: st.stack, mode := .top }
    else .error .unmodelled
  | .classStart =>
    if c = '^' then .ok { st with mode := .classBody true [] true }
    else if c = ']' ∨ c = '-' ∨ c = '[' then .error .unmodelled
    else if c = '\\' then .ok { st with mode := .classEscape false [] }
    else .ok { st with mode := .classBody false [c] false }
  | .classBody negated members first =>
    if c = ']' then
      if first then .error .unmodelled
      else .ok { st with stack := .node (.chr (.cls negated members)) :: st.stack, mode := .top }
    else if c = '-' ∨ c = '[' then .error .unmodelled
    else if c = '\\' then .ok { st with mode := .classEscape negated members }
    else .ok { st with mode := .classBody negated (members ++ [c]) false }
  | .classEscape negated members =>
    if isEscapablePunct c then
      .ok { st with mode := .classBody negated (members ++ [c]) false }
    else .error .unmodelled

/-- The parser run over the characters of a pattern. -/
def parseSteps : PState → Str → Except Fault PState
  | st, [] => .ok st
  | st, c :: t =>
    match parseStep st c with
    | .ok st' => parseSteps st' t
    | .error e => .error e

/-- The expressions of a stack without open parenthesis, in pattern order. -/
def stackNodes : List Item → List Regex → Option (List Regex)
  | [], acc => some acc
  | .node r :: below, acc => stackNodes below (r :: acc)
  | .lparen _ :: _, _ => none

/-- The end of the parse: nothing may be left open. -/
def parseFinish (st : PState) : Except Fault Regexp :=
  match st.mode with
  | .top =>
    match stackNodes st.stack [] with
    | some nodes => .ok ⟨Regex.seq nodes, st.numCap⟩
    | none => .error .malformed
  | _ => .error .malformed

/-- Go `regexp.Compile`. -/
def Compile (pattern : Str) : Except Fault Regexp :=
  match parseSteps ⟨[], 0, .top⟩ pattern with
  | .ok st => parseFinish st
  | .error e => .error e

/-! ## `core/router.go`: the path pattern engine -/

/-- Source: `paramRegex` in `core/router.go`, the compiled form of the pattern
`\[([^/\]]+)\]`. -/
def paramRegex : Regexp :=
  ⟨.cat (.chr (.lit '[')) (.cat (.cap 1 (.cat (.rep .plus (.cls true ['/', ']'])) .empty))
    (.cat (.chr (.lit ']')) .empty)), 1⟩

/-- The characters a parameter name is made of: the class `[^/\]]` of `paramRegex`. -/
def nameChar (c : Char) : Bool :=
  (CharSet.cls true ['/', ']']).accepts c

/-- A parameter name: a non-empty text without `/` and `]`. -/
def IsParamName (n : Str) : Prop :=
  n ≠ [] ∧ '/' ∉ n ∧ ']' ∉ n

/-- The text begins with a token `[name]`. -/
def StartsWithToken (s : Str) : Prop :=
  ∃ n rest, IsParamName n ∧ s = '[' :: n ++ ']' :: rest

/-- `Tokens s names`: reading `s` from the left and taking every `[name]` token
where it begins, the next one being looked for behind it, the names met are
`names`, in this order. -/
inductive Tokens : Str → List Str → Prop where
  | done : Tokens [] []
  | skip (c : Char) (s : Str) (names : List Str) :
      ¬ StartsWithToken (c :: s) → Tokens s names → Tokens (c :: s) names
  | token (n rest : Str) (names : List Str) :
      IsParamName n → Tokens rest names → Tokens ('[' :: n ++ ']' :: rest) (n :: names)

/-- A Go map with string keys, as the list of its entries (each key at most
once when built by `set`). -/
abbrev StrMap (α : Type) := List (Str × α)

/-- The assignment `m[key] = value`. -/
def StrMap.set {α : Type} (m : StrMap α) (key : Str) (value : α) : StrMap α :=
  (key, value) :: m.filter (fun e => e.1 != key)

/-- The lookup `m[key]` with its presence flag. -/
def StrMap.get {α : Type} (m : StrMap α) (key : Str) : Option α :=
  m.lookup key

/-- A Go `map[string]string`. -/
abbrev ParamMap := StrMap Str

/-- Source: the pattern `"^" + paramRegex.ReplaceAllString(path, "([^/]+)") + "$"`
compiled in `Router.AddRoute`, `Router.InitRoutes` and `extractParamsFromRequest`. -/
def compileMatcher (path : Str) : Except Fault Regexp :=
  Compile ("^".toList ++ paramRegex.ReplaceAllString path "([^/]+)".toList ++ "$".toList)

/-- The loop of `Router.extractParamNames` over the matches. -/
def extractParamNamesLoop : List (List Str) → List Str → List Str
  | [], paramNames => paramNames
  | m :: rest, paramNames =>
    extractParamNamesLoop rest (if m.length > 1 then paramNames ++ [m.getD 1 []] else paramNames)

/-- Source: `Router.extractParamNames` in `core/router.go`. -/
def extractParamNames (routePath : Str) : List Str :=
  extractParamNamesLoop (paramRegex.FindAllStringSubmatch routePath) []

/-- The loop of `extractParamsFromRequest` over the parameter matches, `i`
being the index of the first of them. -/
def bindParamsLoop (matched : List Str) : Nat → List (List Str) → ParamMap → ParamMap
  | _, [], params => params
  | i, m :: rest, params =>
    bindParamsLoop matched (i + 1) rest
      (if i + 1 < matched.length ∧ m.length > 1
        then params.set (m.getD 1 []) (matched.getD (i + 1) [])
        else params)

/-- Source: `extractParamsFromRequest` in `core/router.go`.  An error stands for
the panic of `regexp.MustCompile` (or for a pattern outside the model). -/
def extractParamsFromRequest (requestPath routePath : Str) : Except Fault ParamMap :=
  let params : ParamMap := []
  let requestPath := normalizePath requestPath
  if !containsChar routePath '[' then .ok params
  else
    match compileMatcher routePath with
    | .error e => .error e
    | .ok pattern =>
      let matched := pattern.FindStringSubmatch requestPath
      if matched.length ≤ 1 then .ok params
      else .ok (bindParamsLoop matched 0 (paramRegex.FindAllStringSubmatch routePath) params)

/-! ## `core/marley.go`: the template store -/

/-- A Go error, as far as the loader tells errors apart: its text and whether
`os.IsNotExist` holds of it. -/
structure GoError where
  msg : Str
  notExist : Bool
  deriving DecidableEq, Repr

/-- Go `fmt.Errorf(prefix + ": %w", err)`; `os.IsNotExist` does not look through
this wrapping. -/
def GoError.wrap (pre : Str) (err : GoError) : GoError :=
  ⟨pre ++ ": ".toList ++ err.msg, false⟩

/-- Source: the fields of `Config` (`core/config.go`) the loader reads. -/
structure Config where
  AppDir : Str
  LayoutPath : Str
  ComponentDir : Str
  TemplateCache : Bool
  deriving DecidableEq, Repr

/-- Source: `AppConfig` in `core/config.go`. -/
def AppConfig : Config :=
  { AppDir := "app".toList
    LayoutPath := "app/layout.html".toList
    ComponentDir := "app/components".toList
    TemplateCache := true }

/-- One call of the function given to `filepath.Walk`: the path visited, whether
it is a directory, and the error the walk reports for it. -/
structure WalkEntry where
  path : Str
  isDir : Bool
  err : Option GoError
  deriving DecidableEq, Repr

/-- The file system as the loader meets it: the entries `filepath.Walk(root, _)`
visits, in order, and the result of `os.ReadFile`. -/
structure FileSystem where
  walk : Str → List WalkEntry
  readFile : Str → Except GoError Str

/-- Go `os.IsPathSeparator`. -/
def Platform.isPathSeparator (os : Platform) (c : Char) : Bool :=
  c == '/' || c == os.separator

/-- The loop of `filepath.Ext` over the path read from its end. -/
def extLoop (os : Platform) : Str → Str → Str
  | [], _ => []
  | c :: before, acc =>
    if os.isPathSeparator c then []
    else if c == '.' then '.' :: acc
    else extLoop os before (c :: acc)

/-- Go `filepath.Ext(path)`: the suffix of the last element from its last dot. -/
def ext (os : Platform) (path : Str) : Str :=
  extLoop os path.reverse []

/-- Go `filepath.Base(path)` for a path without volume name: the last element,
trailing separators removed. -/
def base (os : Platform) (path : Str) : Str :=
  if path = [] then ['.']
  else
    let trimmed := (path.reverse.dropWhile os.isPathSeparator).reverse
    if trimmed = [] then [os.separator]
    else (trimmed.reverse.takeWhile (fun c => !os.isPathSeparator c)).reverse

/-- Source: `Marley` in `core/marley.go`; `T` is the type of compiled templates.
The zero `time.Time` of `cacheExpiry` is `none`; times and durations are
numbers of nanoseconds. -/
structure Marley (T : Type) where
  Templates : StrMap T
  ComponentsCache : StrMap Str
  cacheExpiry : Option Int
  cacheTTL : Int

/-- Source: `NewMarley`. -/
def NewMarley (T : Type) : Marley T :=
  { Templates := []
    ComponentsCache := []
    cacheExpiry := none
    cacheTTL := 5 * 60 * 1000000000 }

/-- What a template load depends on besides the store: the platform, the
configuration, the file system, the clock, and the template compiler
(`html/template`), which turns a layout, the components and a page body into a
template or fails. -/
structure LoadEnv (T : Type) where
  os : Platform
  cfg : Config
  fs : FileSystem
  now : Int
  compile : Str → StrMap Str → Str → Except GoError T

/-- The walk of `Marley.loadComponents` with its callback: the cache built so
far and the error that stopped the walk, if any. -/
def loadComponentsWalk {T : Type} (env : LoadEnv T) :
    List WalkEntry → StrMap Str → StrMap Str × Option GoError
  | [], componentCache => (componentCache, none)
  | entry :: rest, componentCache =>
    match entry.err with
    | some err => (componentCache, some err)
    | none =>
      if !entry.isDir && ext env.os entry.path == ".html".toList then
        match env.fs.readFile entry.path with
        | .error err =>
          (componentCache, some (err.wrap ("failed to read component ".toList ++ entry.path)))
        | .ok componentContent =>
          loadComponentsWalk env rest
            (componentCache.set (trimSuffix (base env.os entry.path) ".html".toList)
              componentContent)
      else loadComponentsWalk env rest componentCache

/-- Source: `Marley.loadComponents` in `core/marley.go`. -/
def Marley.loadComponents {T : Type} (m : Marley T) (env : LoadEnv T) :
    Marley T × Option GoError :=
  match loadComponentsWalk env (env.fs.walk env.cfg.ComponentDir) [] with
  | (componentCache, some err) =>
    if !err.notExist then (m, some (err.wrap "failed to load components".toList))
    else ({ m with ComponentsCache := componentCache }, none)
  | (componentCache, none) => ({ m with ComponentsCache := componentCache }, none)

/-- The walk of `Marley.LoadTemplates` over the content root with its callback:
the page files found, or the error that stopped the walk. -/
def templatePathsWalk {T : Type} (env : LoadEnv T) :
    List WalkEntry → List Str → Except GoError (List Str)
  | [], templatePaths => .ok templatePaths
  | entry :: rest, templatePaths =>
    match entry.err with
    | some err => .error err
    | none =>
      if !entry.isDir && ext env.os entry.path == ".html".toList
          && entry.path != env.cfg.LayoutPath
          && !hasPrefix entry.path env.cfg.ComponentDir then
        let routePath := getRoutePathFromFile env.os entry.path env.cfg.AppDir
        if routePath == "layout".toList then templatePathsWalk env rest templatePaths
        else if hasPrefix routePath "components/".toList then
          templatePathsWalk env rest templatePaths
        else templatePathsWalk env rest (templatePaths ++ [entry.path])
      else templatePathsWalk env rest templatePaths

/-- The compilation of the page files in `Marley.LoadTemplates`.  The goroutines
are run here in the order of the paths, so that of several failures the first
in this order is reported and of two files with one route the later stays. -/
def compileTemplates {T : Type} (env : LoadEnv T) (layoutContent : Str)
    (components : StrMap Str) : List Str → StrMap T → Except GoError (StrMap T)
  | [], templates => .ok templates
  | p :: rest, templates =>
    let routePath := getRoutePathFromFile env.os p env.cfg.AppDir
    match env.fs.readFile p with
    | .error err => .error (err.wrap ("failed to read template ".toList ++ p))
    | .ok pageContent =>
      match env.compile layoutContent components pageContent with
      | .error err => .error err
      | .ok tmpl => compileTemplates env layoutContent components rest (templates.set routePath tmpl)

/-- Source: `Marley.LoadTemplates` in `core/marley.go`: the store after the call
and the error returned (`none` for `nil`). -/
def Marley.LoadTemplates {T : Type} (m : Marley T) (env : LoadEnv T) :
    Marley T × Option GoError :=
  let fresh :=
    match m.cacheExpiry with
    | some expiry => decide (env.now < expiry) && env.cfg.TemplateCache
    | none => false
  if fresh then (m, none)
  else
    match m.loadComponents env with
    | (m, some err) => (m, some err)
    | (m, none) =>
      match env.fs.readFile env.cfg.LayoutPath with
      | .error err => (m, some (err.wrap "failed to load layout template".toList))
      | .ok layoutContent =>
        match templatePathsWalk env (env.fs.walk env.cfg.AppDir) [] with
        | .error err => (m, some err)
        | .ok templatePaths =>
          match compileTemplates env layoutContent m.ComponentsCache templatePaths [] with
          | .error err => (m, some err)
          | .ok templates =>
            ({ m with
                Templates := templates
                cacheExpiry :=
                  if env.cfg.TemplateCache then some (env.now + m.cacheTTL) else m.cacheExpiry },
              none)

/-! ## `core/router.go`: the router -/

/-- Source: `Route` in `core/router.go`; `H` is the handler type.  A `nil`
pattern or middleware chain is `none`. -/
structure Route (H : Type) where
  Path : Str
  Handler : H
  ParamNames : List Str
  IsStatic : Bool
  IsAPI : Bool
  IsParam : Bool
  Pattern : Option Regexp
  Middleware : Option (MiddlewareChain H)

/-- Source: `Router` in `core/router.go` (without its logger). -/
structure Router (H T : Type) where
  Routes : List (Route H)
  Marley : Marley T
  StaticDir : Str
  GlobalMiddleware : Option (MiddlewareChain H)

/-- What `Router.ServeHTTP` does with a request. -/
inductive Dispatch (H : Type) where
  /-- The call `handler.ServeHTTP(w, req)` of the handler composed for `route`. -/
  | serve (route : Route H) (handler : H)
  /-- The call `http.Error(w, body, status)`. -/
  | httpError (body : Str) (status : Nat)
  /-- The call `r.serveErrorPage(w, req, status)`. -/
  | errorPage (status : Nat)

/-- The chain a route is served with: `NewMiddlewareChain()` in place of `nil`. -/
def Route.chain {H : Type} (route : Route H) : MiddlewareChain H :=
  route.Middleware.getD (NewMiddlewareChain H)

/-- The test of the API loop of `Router.ServeHTTP`. -/
def Route.servesAPI {H : Type} (path : Str) (route : Route H) : Bool :=
  route.IsAPI && (path == route.Path || hasPrefix path (route.Path ++ ['/']))

/-- The test of the exact-page loop of `Router.ServeHTTP`. -/
def Route.servesExact {H : Type} (path : Str) (route : Route H) : Bool :=
  !route.IsParam && !route.IsStatic && !route.IsAPI && path == route.Path

/-- The test of the parameterized-page loop of `Router.ServeHTTP`. -/
def Route.servesParam {H : Type} (path : Str) (route : Route H) : Bool :=
  route.IsParam &&
    match route.Pattern with
    | some pattern => pattern.MatchString path
    | none => false

/-- Source: `Router.ServeHTTP` in `core/router.go`, for the request path
`reqPath`: the router after the call (a `nil` global chain is replaced) and what
is done with the request.  Each loop over `r.Routes` that returns at the first
route passing a test is the `find?` of that test. -/
def Router.ServeHTTP {H T : Type} (r : Router H T) (reqPath : Str) :
    Router H T × Dispatch H :=
  let path := normalizePath reqPath
  let global := r.GlobalMiddleware.getD (NewMiddlewareChain H)
  let r := { r with GlobalMiddleware := some global }
  let afterStatic : Dispatch H :=
    if hasPrefix path "/api".toList then
      match r.Routes.find? (Route.servesAPI path) with
      | some route => .serve route (global.Then (route.chain.Then route.Handler))
      | none => .httpError "API endpoint not found".toList 404
    else
      match r.Routes.find? (Route.servesExact path) with
      | some route => .serve route (global.Then (route.chain.Then route.Handler))
      | none =>
        match r.Routes.find? (Route.servesParam path) with
        | some route => .serve route (global.Then (route.chain.Then route.Handler))
        | none => .errorPage 404
  if hasPrefix path "/static".toList then
    match r.Routes.find? (fun route => route.IsStatic) with
    | some route => (r, .serve route (global.Then route.Handler))
    | none => (r, afterStatic)
  else (r, afterStatic)

/-! ## Sample routers and stores -/

/-- A page or API route of a sample table, its handler being a label. -/
def sampleRoute (path : Str) (isAPI : Bool) : Route String :=
  { Path := path
    Handler := String.mk path
    ParamNames := extractParamNames path
    IsStatic := false
    IsAPI := isAPI
    IsParam := !isAPI && decide (0 < (extractParamNames path).length)
    Pattern :=
      if !isAPI && decide (0 < (extractParamNames path).length) then
        match compileMatcher path with
        | .ok pattern => some pattern
        | .error _ => none
      else none
    Middleware := some (NewMiddlewareChain String) }

/-- A sample router over the given routes, with one global middleware. -/
def sampleRouter (routes : List (Route String)) : Router String String :=
  { Routes := routes
    Marley := NewMarley String
    StaticDir := "static".toList
    GlobalMiddleware := some ⟨[fun h => "log(" ++ h ++ ")"]⟩ }

/-- A reload in which the components and the layout load and the only page
fails to compile. -/
def brokenPageEnv : LoadEnv String :=
  { os := .unix
    cfg := AppConfig
    fs :=
      { walk := fun root =>
          if root = "app/components".toList then
            [⟨"app/components".toList, true, none⟩, ⟨"app/components/nav.html".toList, false, none⟩]
          else
            [⟨"app".toList, true, none⟩, ⟨"app/index.html".toList, false, none⟩]
        readFile := fun path =>
          if path = "app/components/nav.html".toList then .ok "new nav".toList
          else if path = "app/layout.html".toList then .ok "layout".toList
          else .ok "broken page".toList }
    now := 1000
    compile := fun _ _ _ => .error ⟨"template: unexpected EOF".toList, false⟩ }

/-- A store filled by an earlier load, its cache expired. -/
def loadedStore : Marley String :=
  { Templates := [("/".toList, "home")]
    ComponentsCache := [("nav".toList, "old nav".toList)]
    cacheExpiry := some 500
    cacheTTL := 300 }

/-! ## Route paths made of whole segments -/

/-- The characters the pattern parser does not read as a literal. -/
def regexSpecial : List Char :=
  ['(', ')', '^', '$', '.', '[', '*', '+', '?', '|', '{', '\\']

/-- A segment of a route path, a dynamic one carrying the value that a request
path puts in its place. -/
inductive Seg where
  /-- A literal segment. -/
  | lit (text : Str)
  /-- A dynamic segment `[name]`, replaced by `value` in the request path. -/
  | param (name value : Str)
  deriving DecidableEq, Repr

/-- The segment as written in the route path. -/
def Seg.routeText : Seg → Str
  | .lit text => text
  | .param name _ => '[' :: name ++ [']']

/-- The segment as written in the request path. -/
def Seg.requestText : Seg → Str
  | .lit text => text
  | .param _ value => value

/-- The segment as written in the pattern text. -/
def Seg.patternText : Seg → Str
  | .lit text => text
  | .param _ _ => "([^/]+)".toList

/-- A literal segment is non-empty and free of `/` and of the characters
special to the pattern parser; a dynamic segment has a parameter name and a
non-empty value without `/`. -/
def Seg.Valid : Seg → Prop
  | .lit text => text ≠ [] ∧ ∀ c ∈ text, c ≠ '/' ∧ c ∉ regexSpecial
  | .param name value => IsParamName name ∧ value ≠ [] ∧ '/' ∉ value

/-- The route path `/s1/.../sm` of a sequence of segments. -/
def routeOf (segs : List Seg) : Str :=
  dirPath (segs.map Seg.routeText)

/-- The request path got from the route path by putting each value in the place
of its token. -/
def requestOf (segs : List Seg) : Str :=
  dirPath (segs.map Seg.requestText)

/-- The parameter names of the segments, in order. -/
def paramNamesOf : List Seg → List Str
  | [] => []
  | .lit _ :: rest => paramNamesOf rest
  | .param name _ :: rest => name :: paramNamesOf rest

/-- The parameter values of the segments, in order. -/
def paramValuesOf : List Seg → List Str
  | [] => []
  | .lit _ :: rest => paramValuesOf rest
  | .param _ value :: rest => value :: paramValuesOf rest

/-- The expressions the parser builds for the segments, `n` groups having been
opened before. -/
def nodesOf : List Seg → Nat → List Regex
  | [], _ => []
  | .lit text :: rest, n =>
    .chr (.lit '/') :: text.map (fun c => Regex.chr (.lit c)) ++ nodesOf rest n
  | .param _ _ :: rest, n =>
    .chr (.lit '/') :: .cap (n + 1) (.cat (.rep .plus (.cls true ['/'])) .empty)
      :: nodesOf rest (n + 1)

/-- The groups a match of the segments sets, `n` groups having been opened
before. -/
def capsOf : List Seg → Nat → List (Nat × Str)
  | [], _ => []
  | .lit _ :: rest, n => capsOf rest n
  | .param _ value :: rest, n => (n + 1, value) :: capsOf rest (n + 1)

/-! ## `core/marley.go`: the cache of the template store -/

/-- Source: `Marley.SetCacheTTL`. -/
def Marley.SetCacheTTL {T : Type} (m : Marley T) (duration : Int) : Marley T :=
  { m with cacheTTL := duration, cacheExpiry := none }

/-- Source: `Marley.InvalidateCache`. -/
def Marley.InvalidateCache {T : Type} (m : Marley T) : Marley T :=
  { m with cacheExpiry := none }

/-- The test at the head of `Marley.LoadTemplates`:
`!m.cacheExpiry.IsZero() && now.Before(m.cacheExpiry) && AppConfig.TemplateCache`. -/
def Marley.cacheFresh {T : Type} (m : Marley T) (env : LoadEnv T) : Bool :=
  match m.cacheExpiry with
  | some expiry => decide (env.now < expiry) && env.cfg.TemplateCache
  | none => false

/-- The body of `Marley.LoadTemplates` behind the cache test: the load from the
file system. -/
def Marley.loadFromDisk {T : Type} (m : Marley T) (env : LoadEnv T) :
    Marley T × Option GoError :=
  match m.loadComponents env with
  | (m, some err) => (m, some err)
  | (m, none) =>
    match env.fs.readFile env.cfg.LayoutPath with
    | .error err => (m, some (err.wrap "failed to load layout template".toList))
    | .ok layoutContent =>
      match templatePathsWalk env (env.fs.walk env.cfg.AppDir) [] with
      | .error err => (m, some err)
      | .ok templatePaths =>
        match compileTemplates env layoutContent m.ComponentsCache templatePaths [] with
        | .error err => (m, some err)
        | .ok templates =>
          ({ m with
              Templates := templates
              cacheExpiry :=
                if env.cfg.TemplateCache then some (env.now + m.cacheTTL) else m.cacheExpiry },
            none)

/-- A sequence of `LoadTemplates` calls, one per environment: the store at the
end and the number of calls that went past the cache test to the file system. -/
def loadSequence {T : Type} : Marley T → List (LoadEnv T) → Marley T × Nat
  | m, [] => (m, 0)
  | m, env :: rest =>
    let next := loadSequence (m.LoadTemplates env).1 rest
    (next.1, (if m.cacheFresh env then 0 else 1) + next.2)

/-- A content root with a page, the layout, a component, and two files whose
paths begin with the text of the component directory without lying in it. -/
def siblingEnv : LoadEnv String :=
  { os := .unix
    cfg := AppConfig
    fs :=
      { walk := fun root =>
          if root = "app/components".toList then
            [⟨"app/components".toList, true, none⟩, ⟨"app/components/nav.html".toList, false, none⟩]
          else
            [⟨"app".toList, true, none⟩,
              ⟨"app/about.html".toList, false, none⟩,
              ⟨"app/components".toList, true, none⟩,
              ⟨"app/components/nav.html".toList, false, none⟩,
              ⟨"app/components-old".toList, true, none⟩,
              ⟨"app/components-old/x.html".toList, false, none⟩,
              ⟨"app/componentsfoo.html".toList, false, none⟩,
              ⟨"app/layout.html".toList, false, none⟩]
        readFile := fun path => .ok path }
    now := 1000
    compile := fun _ _ page => .ok (String.mk page) }

/-! ## `core/router.go`: building the route table -/

/-- The business handlers that `Router.loadAPIRoutes` registers. -/
inductive APIFunc where
  /-- The closure registered for `/api/users`. -/
  | users
  /-- The closure registered for `/api/users/[id]`. -/
  | userById
  /-- The closure registered for `/api/test`. -/
  | test
  deriving DecidableEq, Repr

/-- The handlers the router builds: the file server of `AddStaticRoute` for a
static directory, `createTemplateHandler(route)`, and the `wrappedHandler` of
`Router.API` for a route path and a business handler. -/
structure HandlerSet (H : Type) where
  static : Str → H
  template : Str → H
  api : Str → APIFunc → H

/-- What `Router.InitRoutes` depends on besides the router: the environment of
the template load, `os.Stat` (`none` when it succeeds), `filepath.Join`, the
handlers, and the order in which `range` runs over the template map, which Go
leaves open. -/
structure InitEnv (H T : Type) where
  load : LoadEnv T
  stat : Str → Option GoError
  join : Str → Str → Str
  handlers : HandlerSet H
  rangeOrder : StrMap T → List (Str × T)
  rangeOrder_perm : ∀ m, (rangeOrder m).Perm m

/-- Source: `Router.AddStaticRoute`. -/
def Router.AddStaticRoute {H T : Type} (r : Router H T) (hs : HandlerSet H) : Router H T :=
  { r with
    Routes := r.Routes ++
      [{ Path := "/static/".toList
         Handler := hs.static r.StaticDir
         ParamNames := []
         IsStatic := true
         IsAPI := false
         IsParam := false
         Pattern := none
         Middleware := some (NewMiddlewareChain H) }] }

/-- Source: `Router.AddAPIRoute` without per-route middleware. -/
def Router.AddAPIRoute {H T : Type} (r : Router H T) (path : Str) (handler : H) : Router H T :=
  { r with
    Routes := r.Routes ++
      [{ Path := path
         Handler := handler
         ParamNames := []
         IsStatic := false
         IsAPI := true
         IsParam := false
         Pattern := none
         Middleware := some (NewMiddlewareChain H) }] }

/-- Source: `Router.API` without per-route middleware: the business handler is
wrapped and registered as an API route. -/
def Router.API {H T : Type} (r : Router H T) (hs : HandlerSet H) (path : Str)
    (handler : APIFunc) : Router H T :=
  r.AddAPIRoute path (hs.api path handler)

/-- The body of the loop of `Router.InitRoutes` over the templates: the page
route of one route path.  An error stands for the panic of
`regexp.MustCompile`. -/
def Router.addPageRoute {H T : Type} (r : Router H T) (hs : HandlerSet H) (routePath : Str) :
    Except Fault (Router H T) :=
  let paramNames := extractParamNames routePath
  let isParam := decide (paramNames.length > 0)
  let pattern : Except Fault (Option Regexp) :=
    if isParam then
      match compileMatcher routePath with
      | .ok pattern => .ok (some pattern)
      | .error e => .error e
    else .ok none
  match pattern with
  | .error e => .error e
  | .ok pattern =>
    .ok { r with
      Routes := r.Routes ++
        [{ Path := routePath
           Handler := hs.template routePath
           ParamNames := paramNames
           IsStatic := false
           IsAPI := false
           IsParam := isParam
           Pattern := pattern
           Middleware := some (NewMiddlewareChain H) }] }

/-- The loop of `Router.InitRoutes` over the entries of the template map. -/
def Router.addPageRoutes {H T : Type} (hs : HandlerSet H) :
    Router H T → List (Str × T) → Except Fault (Router H T)
  | r, [] => .ok r
  | r, entry :: rest =>
    match r.addPageRoute hs entry.1 with
    | .ok r' => Router.addPageRoutes hs r' rest
    | .error e => .error e

/-- Source: `Router.loadAPIRoutes`: the router, the number of routes registered
and the error (always `nil`). -/
def Router.loadAPIRoutes {H T : Type} (r : Router H T) (env : InitEnv H T) :
    Router H T × Nat × Option GoError :=
  let apiBasePath := env.join env.load.cfg.AppDir "api".toList
  let missing :=
    match env.stat apiBasePath with
    | some err => err.notExist
    | none => false
  if missing then (r, 0, none)
  else
    let usersPath := env.join apiBasePath "users".toList
    let step1 : Router H T × Nat :=
      match env.stat usersPath with
      | none =>
        (((r.API env.handlers "/api/users".toList .users).API env.handlers
          "/api/users/[id]".toList .userById), 2)
      | some _ => (r, 0)
    let testPath := env.join apiBasePath "test".toList
    let step2 : Router H T × Nat :=
      match env.stat testPath with
      | none => (step1.1.API env.handlers "/api/test".toList .test, step1.2 + 1)
      | some _ => step1
    (step2.1, step2.2, none)

/-- Source: `Router.InitRoutes`: the router after the call and the error
returned.  An outer error stands for a panic of `regexp.MustCompile` while the
page routes are built. -/
def Router.InitRoutes {H T : Type} (r : Router H T) (env : InitEnv H T) :
    Except Fault (Router H T × Option GoError) :=
  let r := { r with Routes := [] }
  match r.Marley.LoadTemplates env.load with
  | (m, some err) =>
    .ok ({ r with Marley := m }, some (err.wrap "failed to load templates".toList))
  | (m, none) =>
    let r := { r with Marley := m }
    let r := r.AddStaticRoute env.handlers
    match Router.addPageRoutes env.handlers r (env.rangeOrder r.Marley.Templates) with
    | .error e => .error e
    | .ok r =>
      match r.loadAPIRoutes env with
      | (r, _, some err) => .ok (r, some (err.wrap "failed to load API routes".toList))
      | (r, _, none) => .ok (r, none)

/-- The path of the route a dispatch serves, if it serves one. -/
def Dispatch.servedPath {H : Type} : Dispatch H → Option Str
  | .serve route _ => some route.Path
  | _ => none

/-- The paths of the routes of a table, in order. -/
def routePaths {H : Type} (routes : List (Route H)) : List Str :=
  routes.map (fun route => route.Path)

/-- Handlers reduced to labels, for sample tables. -/
def labelHandlers : HandlerSet String :=
  { static := fun dir => "static:" ++ String.mk dir
    template := fun route => String.mk route
    api := fun path _ => "api:" ++ String.mk path }

/-- An environment for `InitRoutes` over a load environment: every directory
exists, paths are joined with `/`, and `range` follows the order of the entries. -/
def sampleInitEnv (load : LoadEnv String) : InitEnv String String :=
  { load := load
    stat := fun _ => none
    join := fun a b => a ++ '/' :: b
    handlers := labelHandlers
    rangeOrder := fun m => m
    rangeOrder_perm := fun m => List.Perm.refl m }

/-- The content root of `siblingEnv` after the page `app/new.html` was added, at
time 1100. -/
def addedPageEnv : LoadEnv String :=
  { siblingEnv with
    fs :=
      { walk := fun root =>
          if root = "app/components".toList then
            [⟨"app/components".toList, true, none⟩, ⟨"app/components/nav.html".toList, false, none⟩]
          else
            [⟨"app".toList, true, none⟩,
              ⟨"app/about.html".toList, false, none⟩,
              ⟨"app/components".toList, true, none⟩,
              ⟨"app/components/nav.html".toList, false, none⟩,
              ⟨"app/layout.html".toList, false, none⟩,
              ⟨"app/new.html".toList, false, none⟩]
        readFile := fun path => .ok path }
    now := 1100 }

/-- A router whose store was loaded from the content root of `siblingEnv` at
time 1000, with a TTL of 300. -/
def cachedRouter : Router String String :=
  { sampleRouter [] with Marley := (loadedStore.LoadTemplates siblingEnv).1 }

/-- The page routes of a table: those that are neither static nor API routes. -/
def Route.isPage {H : Type} (route : Route H) : Bool :=
  !route.IsStatic && !route.IsAPI

/-- The route `Router.API` registers for a path and a business handler. -/
def apiRoute {H : Type} (hs : HandlerSet H) (path : Str) (fn : APIFunc) : Route H :=
  { Path := path
    Handler := hs.api path fn
    ParamNames := []
    IsStatic := false
    IsAPI := true
    IsParam := false
    Pattern := none
    Middleware := some (NewMiddlewareChain H) }

/-- The route `Router.AddStaticRoute` registers. -/
def staticRoute {H : Type} (hs : HandlerSet H) (staticDir : Str) : Route H :=
  { Path := "/static/".toList
    Handler := hs.static staticDir
    ParamNames := []
    IsStatic := true
    IsAPI := false
    IsParam := false
    Pattern := none
    Middleware := some (NewMiddlewareChain H) }

/-- The routes `Router.loadAPIRoutes` registers, in order. -/
def builtinAPIRoutes {H T : Type} (env : InitEnv H T) : List (Route H) :=
  let apiBasePath := env.join env.load.cfg.AppDir "api".toList
  let missing :=
    match env.stat apiBasePath with
    | some err => err.notExist
    | none => false
  if missing then []
  else
    (match env.stat (env.join apiBasePath "users".toList) with
      | none =>
        [apiRoute env.handlers "/api/users".toList .users,
          apiRoute env.handlers "/api/users/[id]".toList .userById]
      | some _ => [])
    ++
    (match env.stat (env.join apiBasePath "test".toList) with
      | none => [apiRoute env.handlers "/api/test".toList .test]
      | some _ => [])

/-- The content root of `addedPageEnv` at time 1400, after the cache of
`cachedRouter` has expired. -/
def expiredPageEnv : LoadEnv String :=
  { addedPageEnv with now := 1400 }

/-- The router `InitRoutes` leaves, the router itself where the model faults. -/
def Router.afterInitRoutes {H T : Type} (r : Router H T) (env : InitEnv H T) : Router H T :=
  match r.InitRoutes env with
  | .ok (r', _) => r'
  | .error _ => r

/-- A content root with the pages `app/blog/[slug].html` and
`app/[section]/[id].html`. -/
def blogEnv : LoadEnv String :=
  { os := .unix
    cfg := AppConfig
    fs :=
      { walk := fun root =>
          if root = "app/components".toList then
            [⟨"app/components".toList, true, some ⟨"no such file or directory".toList, true⟩⟩]
          else
            [⟨"app".toList, true, none⟩,
              ⟨"app/[section]".toList, true, none⟩,
              ⟨"app/[section]/[id].html".toList, false, none⟩,
              ⟨"app/blog".toList, true, none⟩,
              ⟨"app/blog/[slug].html".toList, false, none⟩,
              ⟨"app/layout.html".toList, false, none⟩]
        readFile := fun path => .ok path }
    now := 1000
    compile := fun _ _ page => .ok (String.mk page) }

/-- The environment `sampleInitEnv` with `range` running over the template map
in the opposite order. -/
def reversedInitEnv (load : LoadEnv String) : InitEnv String String :=
  { sampleInitEnv load with
    rangeOrder := fun m => m.reverse
    rangeOrder_perm := fun m => List.reverse_perm m }

/-! ## Go `int` and `float64` -/

/-- The result of Go's 64-bit `int` arithmetic for the mathematical result `x`:
`x` modulo `2 ^ 64` in the signed range. -/
def wrapInt (x : Int) : Int :=
  (x + 2 ^ 63) % 2 ^ 64 - 2 ^ 63

/-- The integer nearest to `num / den`, of two equally near ones the even one. -/
def roundHalfEven (num den : Nat) : Nat :=
  let q := num / den
  let r := num % den
  if den < 2 * r || (2 * r == den && q % 2 == 1) then q + 1 else q

/-- The loop of `floorLog2`: halving `n` until it is below 2, at most `fuel`
times. -/
def floorLog2Loop : Nat → Nat → Nat
  | 0, _ => 0
  | fuel + 1, n => if n < 2 then 0 else floorLog2Loop fuel (n / 2) + 1

/-- The position of the highest set bit of `n`: for `0 < n` the `k` with
`2 ^ k ≤ n < 2 ^ (k + 1)`. -/
def floorLog2 (n : Nat) : Nat :=
  floorLog2Loop n n

/-- A finite `float64` in sign and magnitude: the value `num / den`, negated
when `neg` is set; `den` is a power of two. -/
structure Float64 where
  neg : Bool
  num : Nat
  den : Nat
deriving DecidableEq

/-- The power of two by which `Float64.round` scales the divisor: positive only
when the quotient has more than 53 bits before the point. -/
def Float64.scaleDown (num den : Nat) : Nat :=
  floorLog2 num - (52 + floorLog2 den)

/-- The power of two by which `Float64.round` scales the dividend, chosen so
that the integer part of the scaled quotient has exactly 53 bits. -/
def Float64.scaleUp (num den : Nat) : Nat :=
  let up := (52 + floorLog2 den) - floorLog2 num
  if num * 2 ^ up / (den * 2 ^ Float64.scaleDown num den) < 2 ^ 52 then up + 1 else up

/-- The `float64` nearest to `num / den`, ties to even (IEEE 754 rounding to 53
significant bits): the quotient is scaled by a power of two so that its integer
part has 53 bits, rounded there, and scaled back.  The exponent range of
`float64` is not modelled; the quotients of two `int` values lie well inside it. -/
def Float64.round (neg : Bool) (num den : Nat) : Float64 :=
  if num = 0 then ⟨neg, 0, 1⟩
  else
    ⟨neg,
      roundHalfEven (num * 2 ^ Float64.scaleUp num den) (den * 2 ^ Float64.scaleDown num den)
        * 2 ^ Float64.scaleDown num den,
      2 ^ Float64.scaleUp num den⟩

/-- The conversion `float64(n)` of an `int`. -/
def Float64.ofInt (n : Int) : Float64 :=
  Float64.round (decide (n < 0)) n.natAbs 1

/-- The division `a / b` of `float64` values; `none` when the divisor is zero and
the result is an infinity or NaN. -/
def Float64.div (a b : Float64) : Option Float64 :=
  if b.num = 0 then none
  else some (Float64.round (a.neg != b.neg) (a.num * b.den) (a.den * b.num))

/-- The function `math.Ceil` on a finite value. -/
def Float64.Ceil (x : Float64) : Float64 :=
  if x.neg then ⟨true, x.num / x.den, 1⟩
  else ⟨false, (x.num + x.den - 1) / x.den, 1⟩

/-- The conversion `int(x)` of a `float64`, which discards the fraction; `none`
when the value is outside the range of `int`, where Go leaves the result to the
implementation. -/
def Float64.toInt (x : Float64) : Option Int :=
  let v : Int := if x.neg then -((x.num / x.den : Nat) : Int) else ((x.num / x.den : Nat) : Int)
  if -(2 ^ 63) ≤ v ∧ v < 2 ^ 63 then some v else none

/-! ## `core/json.go`: pagination -/

/-- Source: `PaginationMeta` in `core/json.go`. -/
structure PaginationMeta where
  CurrentPage : Int
  PerPage : Int
  TotalItems : Int
  TotalPages : Int
  HasNextPage : Bool
  HasPrevPage : Bool
deriving DecidableEq

/-- Source: `NewPaginationMeta` in `core/json.go`, with
`totalPages := int(math.Ceil(float64(totalItems) / float64(perPage)))`; `none`
when the conversion to `int` is of an infinity, a NaN or a value out of range. -/
def NewPaginationMeta (currentPage perPage totalItems : Int) : Option PaginationMeta :=
  match (Float64.ofInt totalItems).div (Float64.ofInt perPage) with
  | none => none
  | some quotient =>
    match quotient.Ceil.toInt with
    | none => none
    | some totalPages =>
      some
        { CurrentPage := currentPage
          PerPage := perPage
          TotalItems := totalItems
          TotalPages := totalPages
          HasNextPage := decide (currentPage < totalPages)
          HasPrevPage := decide (currentPage > 1) }

/-! ## `core/json.go` and `core/router.go`: requests and responses -/

/-- The number written by a string of decimal digits. -/
def digitsValue (digits : List Char) : Nat :=
  digits.foldl (fun acc c => acc * 10 + (c.toNat - 48)) 0

/-- Go `strconv.Atoi` on a 64-bit platform: the value returned and whether the
error is `nil`.  The text is an optional sign followed by one or more decimal
digits; a syntax error returns 0 and a value out of range the nearest `int`. -/
def Atoi (s : Str) : Int × Bool :=
  let digits :=
    match s with
    | '-' :: rest => rest
    | '+' :: rest => rest
    | _ => s
  if digits.isEmpty || !digits.all Char.isDigit then (0, false)
  else
    let v : Int :=
      if s.head? == some '-' then -(digitsValue digits : Int) else (digitsValue digits : Int)
    if v < -(2 ^ 63) then (-(2 ^ 63), false)
    else if 2 ^ 63 - 1 < v then (2 ^ 63 - 1, false)
    else (v, true)

/-- A value of type `interface{}` held in a user record. -/
inductive JVal where
  /-- The value `nil` (JSON `null`). -/
  | null
  /-- A Go `int`. -/
  | int (n : Int)
  /-- A string. -/
  | str (s : Str)
  /-- Any other decoded JSON value (number, boolean, array, object), by its text. -/
  | json (raw : Str)
  deriving DecidableEq, Repr

/-- A user record of `core/router.go`: a `map[string]interface{}`. -/
abbrev UserMap := StrMap JVal

/-- What `ParseBody(req, &m)` does to a map variable `m`. -/
inductive ParsedBody where
  /-- An error is returned: no body, an empty body, or text that does not decode
  into a map. -/
  | invalid
  /-- The body is `null`: no error, and the map stays `nil`. -/
  | nilMap
  /-- The body is an object, decoded into the map. -/
  | object (m : UserMap)
  deriving DecidableEq, Repr

/-- The parts of `http.Request` the handlers read: the method, `URL.Path`, the
pairs of `URL.Query()` in order, and the decoded body. -/
structure Request where
  Method : Str
  Path : Str
  Query : List (Str × Str)
  Body : ParsedBody
  deriving DecidableEq, Repr

/-- Go `url.Values.Get`: the first value of a key, `""` without one. -/
def queryGet (query : List (Str × Str)) (key : Str) : Str :=
  (query.lookup key).getD []

/-- Source: `GetPaginationParams` in `core/json.go`. -/
def GetPaginationParams (r : Request) (defaultPerPage : Int) : Int × Int :=
  let pageStr := queryGet r.Query "page".toList
  let perPageStr := queryGet r.Query "per_page".toList
  let page :=
    if pageStr ≠ [] ∧ (Atoi pageStr).2 = true ∧ (Atoi pageStr).1 > 0 then (Atoi pageStr).1
    else 1
  let perPage :=
    if perPageStr ≠ [] ∧ (Atoi perPageStr).2 = true ∧ (Atoi perPageStr).1 > 0 then
      (Atoi perPageStr).1
    else defaultPerPage
  (page, perPage)

/-- The data a handler of `core/router.go` puts in a response. -/
inductive Payload where
  /-- No data (`nil`). -/
  | null
  /-- One user record. -/
  | user (u : UserMap)
  /-- A list of user records. -/
  | users (us : List UserMap)
  /-- The map of `handleTestAPI`, by its method, path and parameters (the message
  is a fixed text and the timestamp the time of the call). -/
  | test (method path : Str) (params : ParamMap)
  deriving DecidableEq, Repr

/-- Source: `ResponseData` in `core/json.go`. -/
structure ResponseData where
  Success : Bool
  Data : Payload
  Error : Str
  Meta : Option PaginationMeta
  deriving DecidableEq

/-- What is written to the `http.ResponseWriter`: the status code and the value
encoded as JSON. -/
structure Response where
  status : Nat
  body : ResponseData
  deriving DecidableEq

/-- Source: `RenderJSON` in `core/json.go`. -/
def RenderJSON (data : ResponseData) (statusCode : Nat) : Response :=
  { status := statusCode, body := data }

/-- Source: `RenderSuccess` in `core/json.go`. -/
def RenderSuccess (data : Payload) (statusCode : Nat) : Response :=
  let statusCode := if statusCode = 0 then 200 else statusCode
  RenderJSON { Success := true, Data := data, Error := [], Meta := none } statusCode

/-- Source: `RenderError` in `core/json.go`. -/
def RenderError (errMessage : Str) (statusCode : Nat) : Response :=
  let statusCode := if statusCode = 0 then 500 else statusCode
  RenderJSON { Success := false, Data := .null, Error := errMessage, Meta := none } statusCode

/-- Source: `RenderPaginated` in `core/json.go`. -/
def RenderPaginated (data : Payload) (pageMeta : PaginationMeta) (statusCode : Nat) :
    Response :=
  let statusCode := if statusCode = 0 then 200 else statusCode
  RenderJSON { Success := true, Data := data, Error := [], Meta := some pageMeta } statusCode

/-- A handler that does not return: a run-time panic. -/
inductive Panic where
  /-- The panic of `regexp.MustCompile`, or a value outside the model. -/
  | fault (f : Fault)
  /-- The panic `slice bounds out of range` of `s[low:high]`. -/
  | sliceBounds (low high : Int)
  /-- The panic `assignment to entry in nil map`. -/
  | nilMapWrite
  deriving DecidableEq, Repr

/-- The slice expression `s[low:high]` with `high ≤ len(s)` (as at its only use,
where `high` is capped by the length): `none` when Go panics because
`0 ≤ low ≤ high` fails. -/
def goSlice {α : Type} (s : List α) (low high : Int) : Option (List α) :=
  if 0 ≤ low ∧ low ≤ high ∧ high ≤ s.length then some ((s.take high.toNat).drop low.toNat)
  else none

/-! ## `core/router.go`: the user handlers -/

/-- Source: the package variable `users` of `core/router.go` as initialised. -/
def initialUsers : List UserMap :=
  [[("id".toList, .int 1), ("name".toList, .str "John Doe".toList),
      ("email".toList, .str "john@example.com".toList),
      ("username".toList, .str "johndoe".toList)],
    [("id".toList, .int 2), ("name".toList, .str "Jane Smith".toList),
      ("email".toList, .str "jane@example.com".toList),
      ("username".toList, .str "janesmith".toList)],
    [("id".toList, .int 3), ("name".toList, .str "Bob Johnson".toList),
      ("email".toList, .str "bob@example.com".toList),
      ("username".toList, .str "bobjohnson".toList)]]

/-- The test `m[key] == nil` on a user record. -/
def isNilAt (m : UserMap) (key : Str) : Bool :=
  match m.lookup key with
  | none => true
  | some .null => true
  | some _ => false

/-- The test `userId, ok := user["id"].(int); ok && userId == id`. -/
def hasId (id : Int) (user : UserMap) : Bool :=
  match user.lookup "id".toList with
  | some (.int userId) => userId == id
  | _ => false

/-- Source: `Router.handleUsersGet` in `core/router.go` (and, statement by
statement, `getUsers` in `app/api/users/route.go`): the response written, or
the panic.  The arithmetic on `int` wraps at 64 bits. -/
def handleUsersGet (users : List UserMap) (req : Request) : Except Panic Response :=
  let (page, perPage) := GetPaginationParams req 10
  let totalItems : Int := users.length
  let startIndex := wrapInt ((page - 1) * perPage)
  let endIndex := wrapInt (startIndex + perPage)
  if startIndex ≥ totalItems then
    match NewPaginationMeta page perPage totalItems with
    | none => .error (.fault .unmodelled)
    | some pageMeta => .ok (RenderPaginated (.users []) pageMeta 200)
  else
    let endIndex := if endIndex > totalItems then totalItems else endIndex
    match goSlice users startIndex endIndex with
    | none => .error (.sliceBounds startIndex endIndex)
    | some pagedUsers =>
      match NewPaginationMeta page perPage totalItems with
      | none => .error (.fault .unmodelled)
      | some pageMeta => .ok (RenderPaginated (.users pagedUsers) pageMeta 200)

/-- Source: `Router.handleUsersPost` in `core/router.go`: the user list after the
call and the response written. -/
def handleUsersPost (users : List UserMap) (req : Request) :
    Except Panic (List UserMap × Response) :=
  match req.Body with
  | .invalid => .ok (users, RenderError "Invalid request body".toList 400)
  | body =>
    let newUser : UserMap :=
      match body with
      | .object m => m
      | _ => []
    if isNilAt newUser "name".toList || isNilAt newUser "email".toList
        || isNilAt newUser "username".toList then
      .ok (users, RenderError "Name, email and username are required".toList 400)
    else
      let newUser := newUser.set "id".toList (.int (wrapInt ((users.length : Int) + 1)))
      .ok (users ++ [newUser], RenderSuccess (.user newUser) 201)

/-- The identifier the by-id handlers read from `ctx.Params["id"]`. -/
def paramId (params : ParamMap) : Int :=
  let idStr := (params.lookup "id".toList).getD []
  if idStr ≠ [] then (Atoi idStr).1 else 0

/-- Source: `Router.handleUserGetById` in `core/router.go`. -/
def handleUserGetById (users : List UserMap) (params : ParamMap) :
    Except Panic (List UserMap × Response) :=
  let id := paramId params
  if id ≤ 0 then .ok (users, RenderError "Invalid user ID".toList 400)
  else
    match users.find? (hasId id) with
    | some user => .ok (users, RenderSuccess (.user user) 200)
    | none => .ok (users, RenderError "User not found".toList 404)

/-- Source: `Router.handleUserPutById` in `core/router.go`. -/
def handleUserPutById (users : List UserMap) (params : ParamMap) (req : Request) :
    Except Panic (List UserMap × Response) :=
  let id := paramId params
  if id ≤ 0 then .ok (users, RenderError "Invalid user ID".toList 400)
  else
    match req.Body with
    | .invalid => .ok (users, RenderError "Invalid request body".toList 400)
    | body =>
      match users.findIdx? (hasId id) with
      | some i =>
        match body with
        | .object m =>
          let updatedUser := m.set "id".toList (.int id)
          .ok (users.set i updatedUser, RenderSuccess (.user updatedUser) 200)
        | _ => .error .nilMapWrite
      | none => .ok (users, RenderError "User not found".toList 404)

/-- Source: `Router.handleUserDeleteById` in `core/router.go`, the deletion being
`users = append(users[:i], users[i+1:]...)`. -/
def handleUserDeleteById (users : List UserMap) (params : ParamMap) :
    Except Panic (List UserMap × Response) :=
  let id := paramId params
  if id ≤ 0 then .ok (users, RenderError "Invalid user ID".toList 400)
  else
    match users.findIdx? (hasId id) with
    | some i => .ok (users.eraseIdx i, RenderSuccess .null 204)
    | none => .ok (users, RenderError "User not found".toList 404)

/-- Source: `Router.handleTestAPI` in `core/router.go`. -/
def handleTestAPI (users : List UserMap) (params : ParamMap) (req : Request) :
    Except Panic (List UserMap × Response) :=
  .ok (users, RenderSuccess (.test req.Method req.Path params) 200)

/-- Source: the closures that `Router.loadAPIRoutes` passes to `Router.API`,
each a `switch` on the request method. -/
def APIFunc.call (fn : APIFunc) (users : List UserMap) (params : ParamMap) (req : Request) :
    Except Panic (List UserMap × Response) :=
  match fn with
  | .users =>
    if req.Method = "GET".toList then
      (handleUsersGet users req).map (fun response => (users, response))
    else if req.Method = "POST".toList then handleUsersPost users req
    else .ok (users, RenderError "Method not allowed".toList 405)
  | .userById =>
    if req.Method = "GET".toList then handleUserGetById users params
    else if req.Method = "PUT".toList then handleUserPutById users params req
    else if req.Method = "DELETE".toList then handleUserDeleteById users params
    else .ok (users, RenderError "Method not allowed".toList 405)
  | .test => handleTestAPI users params req

/-- Source: the `wrappedHandler` of `Router.API` for a route path and a closure:
the parameters are read from the request path against the route path and the
closure is called with them. -/
def wrappedHandler (path : Str) (fn : APIFunc) (users : List UserMap) (req : Request) :
    Except Panic (List UserMap × Response) :=
  match extractParamsFromRequest req.Path path with
  | .error f => .error (.fault f)
  | .ok params => fn.call users params req

/-- A user API request. -/
def apiRequest (method path : String) (query : List (String × String)) (body : ParsedBody) :
    Request :=
  { Method := method.toList
    Path := path.toList
    Query := query.map (fun kv => (kv.1.toList, kv.2.toList))
    Body := body }

/-- A valid body for the creation of a user. -/
def carolBody : ParsedBody :=
  .object [("name".toList, .str "Carol".toList), ("email".toList, .str "carol@example.com".toList),
    ("username".toList, .str "carol".toList)]

/-- A list of `n` user records with the identifiers `1` to `n`. -/
def usersUpTo (n : Nat) : List UserMap :=
  (List.range n).map (fun i => [("id".toList, JVal.int ((i : Int) + 1))])

/-- The values stored under `id` in the records of a user list. -/
def userIds (users : List UserMap) : List (Option JVal) :=
  users.map (fun user => user.lookup "id".toList)

/-- The value stored under `id` in the user record a response carries. -/
def Payload.userId : Payload → Option JVal
  | .user u => u.lookup "id".toList
  | _ => none

/-- The request `GET /api/users?page=4611686018427387905&per_page=2`. -/
def overflowRequest : Request :=
  apiRequest "GET" "/api/users" [("page", "4611686018427387905"), ("per_page", "2")] .invalid

/-! ## `core/watcher.go`: the watch loop -/

/-- The operations of `fsnotify.Op`. -/
inductive Op where
  | create
  | write
  | remove
  | rename
  | chmod
  deriving DecidableEq, Repr

/-- An event read from `fw.watcher.Events`: the time in milliseconds at which
the loop receives it, and the operations set in its `Op`. -/
structure FsEvent where
  time : Nat
  ops : List Op
  deriving DecidableEq, Repr

/-- The method `event.Has(op)`. -/
def FsEvent.Has (event : FsEvent) (op : Op) : Bool :=
  event.ops.contains op

/-- The state of the watcher in time: the deadline of the timer that
`fw.debounceTimer` holds if that timer is set and has neither fired nor been
stopped, and the times at which the function passed to `time.AfterFunc` was
started, each of them a call of `fw.router.InitRoutes()`. -/
structure FileWatcher where
  debounceTimer : Option Nat
  reloads : List Nat
  deriving DecidableEq, Repr

/-- Source: `NewFileWatcher`: no timer is set. -/
def NewFileWatcher : FileWatcher :=
  { debounceTimer := none, reloads := [] }

/-- The timeout `debounceTimeout` of `watchLoop`, in milliseconds. -/
def debounceTimeout : Nat := 100

/-- The passing of time up to `now`: a timer whose deadline has come fires and
starts its function. -/
def FileWatcher.elapse (fw : FileWatcher) (now : Nat) : FileWatcher :=
  match fw.debounceTimer with
  | some deadline =>
    if deadline ≤ now then { debounceTimer := none, reloads := fw.reloads ++ [deadline] }
    else fw
  | none => fw

/-- Source: the body of the `select` in `FileWatcher.watchLoop` for one event:
on a write, create or remove event the timer is stopped and
`time.AfterFunc(debounceTimeout, ...)` sets a new one. -/
def FileWatcher.handle (fw : FileWatcher) (event : FsEvent) : FileWatcher :=
  let fw := fw.elapse event.time
  if event.Has .write || event.Has .create || event.Has .remove then
    { fw with debounceTimer := some (event.time + debounceTimeout) }
  else fw

/-- Source: `FileWatcher.watchLoop` over the events received, in order. -/
def FileWatcher.watchLoop (fw : FileWatcher) (events : List FsEvent) : FileWatcher :=
  events.foldl FileWatcher.handle fw

/-- The watcher once no further event arrives: a timer still set fires at its
deadline. -/
def FileWatcher.settle (fw : FileWatcher) : FileWatcher :=
  match fw.debounceTimer with
  | some deadline => { debounceTimer := none, reloads := fw.reloads ++ [deadline] }
  | none => fw

/-- A write event at a time. -/
def writeAt (time : Nat) : FsEvent :=
  { time := time, ops := [.write] }

/-- The status, the number of users listed and the pagination data of a listing
response. -/
def listingSummary (res : Except Panic Response) :
    Except Panic (Nat × Nat × Option PaginationMeta) :=
  res.map (fun response =>
    (response.status,
      (match response.body.Data with
        | .users us => us.length
        | _ => 0),
      response.body.Meta))

/-- The handler a dispatch calls, if it serves a route. -/
def Dispatch.servedHandler {H : Type} : Dispatch H → Option H
  | .serve _ handler => some handler
  | _ => none

/-- A content root with the pages `app/api?/[id].html` and
`app/static*/[id].html`, whose directory names hold a character special to
`regexp`. -/
def specialDirEnv : LoadEnv String :=
  { os := .unix
    cfg := AppConfig
    fs :=
      { walk := fun root =>
          if root = "app/components".toList then
            [⟨"app/components".toList, true, some ⟨"no such file or directory".toList, true⟩⟩]
          else
            [⟨"app".toList, true, none⟩,
              ⟨"app/api?".toList, true, none⟩,
              ⟨"app/api?/[id].html".toList, false, none⟩,
              ⟨"app/layout.html".toList, false, none⟩,
              ⟨"app/static*".toList, true, none⟩,
              ⟨"app/static*/[id].html".toList, false, none⟩]
        readFile := fun path => .ok path }
    now := 1000
    compile := fun _ _ page => .ok (String.mk page) }

/-! # Properties -/

/-! ## String helpers -/

theorem hasPrefix_iff (s p : Str) : hasPrefix s p = true ↔ p <+: s := by
  induction p generalizing s with
  | nil => simp [hasPrefix]
  | cons d p ih =>
    cases s with
    | nil => simp [hasPrefix]
    | cons c s =>
      simp only [hasPrefix, Bool.and_eq_true, beq_iff_eq, ih, List.cons_prefix_cons]
      constructor
      · rintro ⟨h1, h2⟩; exact ⟨h1.symm, h2⟩
      · rintro ⟨h1, h2⟩; exact ⟨h1.symm, h2⟩

theorem hasSuffix_iff (s p : Str) : hasSuffix s p = true ↔ p <:+ s := by
  unfold hasSuffix
  rw [hasPrefix_iff, List.reverse_prefix]

theorem hasPrefix_append (p t : Str) : hasPrefix (p ++ t) p = true :=
  (hasPrefix_iff _ _).2 (List.prefix_append p t)

theorem hasSuffix_append (t p : Str) : hasSuffix (t ++ p) p = true :=
  (hasSuffix_iff _ _).2 (List.suffix_append t p)

theorem trimPrefix_append (p t : Str) : trimPrefix (p ++ t) p = t := by
  simp [trimPrefix, hasPrefix_append]

theorem trimSuffix_append (t p : Str) : trimSuffix (t ++ p) p = t := by
  simp [trimSuffix, hasSuffix_append]

theorem hasSuffix_false_iff (s p : Str) : hasSuffix s p = false ↔ ¬ p <:+ s := by
  rw [← hasSuffix_iff]; simp

theorem hasPrefix_false_iff (s p : Str) : hasPrefix s p = false ↔ ¬ p <+: s := by
  rw [← hasPrefix_iff]; simp

theorem hasSuffix_singleton (s : Str) (c : Char) :
    hasSuffix s [c] = true ↔ s.getLast? = some c := by
  rw [hasSuffix_iff]
  constructor
  · rintro ⟨t, rfl⟩; simp
  · intro h
    rcases List.getLast?_eq_some_iff.1 h with ⟨t, rfl⟩
    exact List.suffix_append t [c]

/-! ## `normalizePath` -/

theorem normalizePath_of_not_slash (p : Str) (h0 : p ≠ []) (h1 : p.getLast? ≠ some '/') :
    normalizePath p = p := by
  unfold normalizePath
  have hs : hasSuffix p ['/'] = false := by
    rw [← Bool.not_eq_true, hasSuffix_singleton]; exact h1
  simp [h0, hs]

/-- C4: `normalizePath p` is `"/"` for the empty path, `p` itself when `p` is
`"/"` or does not end in `/`, and otherwise `p` without its last character. -/
theorem normalizePath_spec (p : Str) :
    normalizePath p =
      if p = [] then ['/']
      else if p = ['/'] ∨ p.getLast? ≠ some '/' then p
      else p.dropLast := by
  unfold normalizePath
  by_cases h0 : p = []
  · simp [h0]
  · by_cases h1 : p = ['/']
    · simp [h1]
    · by_cases h2 : p.getLast? = some '/'
      · have hs : hasSuffix p ['/'] = true := (hasSuffix_singleton p '/').2 h2
        simp [h0, h1, h2, hs, List.dropLast_eq_take]
      · have hs : hasSuffix p ['/'] = false := by
          rw [← Bool.not_eq_true, hasSuffix_singleton]; exact h2
        simp [h0, h1, h2, hs]

/-! ## `getRoutePathFromFile` -/

theorem toSlash_append (os : Platform) (a b : Str) :
    toSlash os (a ++ b) = toSlash os a ++ toSlash os b := by
  unfold toSlash
  split <;> simp

theorem toSlash_of_not_mem (os : Platform) (s : Str) (h : os.separator ∉ s) :
    toSlash os s = s := by
  unfold toSlash
  split
  · rfl
  · conv_rhs => rw [← List.map_id s]
    apply List.map_congr_left
    intro c hc
    have : c ≠ os.separator := fun e => h (e ▸ hc)
    simp [this]

theorem not_sep_mem_toSlash (os : Platform) (s : Str) (h : os.separator ≠ '/') :
    os.separator ∉ toSlash os s := by
  unfold toSlash
  simp only [beq_iff_eq, h, if_false]
  intro hm
  rcases List.mem_map.1 hm with ⟨c, _, hc⟩
  by_cases e : c = os.separator
  · simp [e] at hc; exact h hc.symm
  · simp [e] at hc

theorem mem_trimPrefix {s p : Str} {c : Char} (h : c ∈ trimPrefix s p) : c ∈ s := by
  unfold trimPrefix at h
  split at h
  · exact List.mem_of_mem_drop h
  · exact h

theorem mem_trimSuffix {s p : Str} {c : Char} (h : c ∈ trimSuffix s p) : c ∈ s := by
  unfold trimSuffix at h
  split at h
  · exact List.mem_of_mem_take h
  · exact h

theorem trimSuffix_of_not_suffix {s p : Str} (h : ¬ p <:+ s) : trimSuffix s p = s := by
  unfold trimSuffix
  rw [(hasSuffix_false_iff s p).2 h]; rfl

theorem routeOfRelative_head (rel : Str) : ∃ t, routeOfRelative rel = '/' :: t := by
  have key : ∀ rel : Str, ∃ t,
      (if (rel != ['/'] && !hasPrefix rel ['/']) = true then '/' :: rel else rel) = '/' :: t := by
    intro rel
    split
    · exact ⟨_, rfl⟩
    · rename_i h
      cases rel with
      | nil => simp [hasPrefix] at h
      | cons c t =>
        by_cases hc : c = '/'
        · exact ⟨t, by rw [hc]⟩
        · exfalso; apply h
          simp [hasPrefix, hc]
  unfold routeOfRelative
  simp only
  split
  · exact ⟨[], rfl⟩
  · split
    · split
      · exact ⟨[], rfl⟩
      · exact key _
    · exact key _

theorem getRoutePathFromFile_head (os : Platform) (f R : Str) :
    ∃ t, getRoutePathFromFile os f R = '/' :: t :=
  routeOfRelative_head _

theorem mem_routeOfRelative (rel : Str) (c : Char) (h : c ∈ routeOfRelative rel) :
    c ∈ rel ∨ c = '/' := by
  have key : ∀ rel : Str,
      c ∈ (if (rel != ['/'] && !hasPrefix rel ['/']) = true then '/' :: rel else rel) →
        c ∈ rel ∨ c = '/' := by
    intro rel hm
    split at hm
    · rcases List.mem_cons.1 hm with h | h
      · exact Or.inr h
      · exact Or.inl h
    · exact Or.inl hm
  unfold routeOfRelative at h
  simp only at h
  split at h
  · right; simpa using h
  · split at h
    · split at h
      · right; simpa using h
      · rcases key _ h with h | h
        · exact Or.inl (mem_trimSuffix (mem_trimSuffix h))
        · exact Or.inr h
    · rcases key _ h with h | h
      · exact Or.inl (mem_trimSuffix h)
      · exact Or.inr h

theorem mem_getRoutePathFromFile (os : Platform) (f R : Str) (c : Char)
    (h : c ∈ getRoutePathFromFile os f R) : c ∈ toSlash os f ∨ c = '/' := by
  unfold getRoutePathFromFile at h
  simp only at h
  rcases mem_routeOfRelative _ c h with h | h
  · left
    split at h
    · exact mem_trimPrefix h
    · exact h
  · exact Or.inr h

theorem toSlash_getRoutePathFromFile (os : Platform) (f R : Str) :
    toSlash os (getRoutePathFromFile os f R) = getRoutePathFromFile os f R := by
  by_cases hs : os.separator = '/'
  · simp [toSlash, hs]
  · apply toSlash_of_not_mem
    intro hm
    rcases mem_getRoutePathFromFile os f R _ hm with h | h
    · exact not_sep_mem_toSlash os f hs h
    · exact hs h

theorem not_index_suffix (X f : Str) (hf : '/' ∉ f) (hne : f ≠ "index".toList) :
    ¬ "/index".toList <:+ X ++ '/' :: f := by
  intro h
  have h2 : ('/' :: f) <:+ X ++ '/' :: f := List.suffix_append X _
  rcases List.suffix_or_suffix_of_suffix h h2 with h3 | h3
  · rcases List.suffix_cons_iff.1 h3 with h4 | h4
    · exact hne (List.cons.inj h4).2.symm
    · exact hf (h4.subset (by decide))
  · rcases List.suffix_cons_iff.1 h3 with h4 | h4
    · exact hne (List.cons.inj h4).2
    · have : '/' ∈ "index".toList := h4.subset (List.mem_cons_self _ _)
      exact absurd this (by decide)

theorem routeOfRelative_slash (C t : Str) (rel : Str) (hrel : trimSuffix rel ".html".toList = C)
    (hC : C = '/' :: t) (hidx : ¬ "/index".toList <:+ C) : routeOfRelative rel = C := by
  unfold routeOfRelative
  simp only [hrel]
  have h1 : (C == "index".toList) = false := by
    rw [hC]; exact beq_false_of_ne (by intro h; exact absurd (List.cons.inj h).1 (by decide))
  have h2 : hasSuffix C "/index".toList = false := (hasSuffix_false_iff _ _).2 hidx
  have h3 : hasPrefix C ['/'] = true := by rw [hC]; simp [hasPrefix]
  simp only [h1, h2, h3]
  simp

theorem routeOfRelative_bare (C : Str) (rel : Str) (hrel : trimSuffix rel ".html".toList = C)
    (hC : C.head? ≠ some '/') (hne : C ≠ "index".toList) (hidx : ¬ "/index".toList <:+ C) :
    routeOfRelative rel = '/' :: C := by
  unfold routeOfRelative
  simp only [hrel]
  have h1 : (C == "index".toList) = false := beq_false_of_ne hne
  have h2 : hasSuffix C "/index".toList = false := (hasSuffix_false_iff _ _).2 hidx
  have h3 : hasPrefix C ['/'] = false := by
    cases C with
    | nil => rfl
    | cons c t =>
      have : c ≠ '/' := fun e => hC (by simp [e])
      simp [hasPrefix, this]
  have h4 : C ≠ ['/'] := by
    intro e; rw [e] at hC; exact hC rfl
  simp only [h1, h2, h3]
  simp [h4]

theorem routeOfRelative_index_slash (A : Str) (hA : A = [] ∨ ∃ t, A = '/' :: t) :
    routeOfRelative (A ++ "/index.html".toList) = if A = [] then ['/'] else A := by
  have hrel : trimSuffix (A ++ "/index.html".toList) ".html".toList = A ++ "/index".toList := by
    have : A ++ "/index.html".toList = (A ++ "/index".toList) ++ ".html".toList := by
      rw [List.append_assoc]; rfl
    rw [this, trimSuffix_append]
  unfold routeOfRelative
  simp only [hrel]
  have h1 : (A ++ "/index".toList == "index".toList) = false := by
    apply beq_false_of_ne
    rcases hA with h | ⟨t, h⟩
    · rw [h]; decide
    · rw [h]; intro e; exact absurd (List.cons.inj e).1 (by decide)
  have h2 : hasSuffix (A ++ "/index".toList) "/index".toList = true := hasSuffix_append _ _
  have h3 : trimSuffix (A ++ "/index".toList) "/index".toList = A := trimSuffix_append _ _
  simp only [h1, h2, h3]
  rcases hA with h | ⟨t, h⟩
  · simp [h]
  · simp [h, hasPrefix]

theorem routeOfRelative_index_bare (B : Str) (hB : B ≠ []) (hh : B.head? ≠ some '/') :
    routeOfRelative (B ++ "/index.html".toList) = '/' :: B := by
  have hrel : trimSuffix (B ++ "/index.html".toList) ".html".toList = B ++ "/index".toList := by
    have : B ++ "/index.html".toList = (B ++ "/index".toList) ++ ".html".toList := by
      rw [List.append_assoc]; rfl
    rw [this, trimSuffix_append]
  unfold routeOfRelative
  simp only [hrel]
  have h1 : (B ++ "/index".toList == "index".toList) = false := by
    apply beq_false_of_ne
    intro e
    have := congrArg List.length e
    simp at this
  have h2 : hasSuffix (B ++ "/index".toList) "/index".toList = true := hasSuffix_append _ _
  have h3 : trimSuffix (B ++ "/index".toList) "/index".toList = B := trimSuffix_append _ _
  have h4 : hasPrefix B ['/'] = false := by
    cases B with
    | nil => rfl
    | cons c t =>
      have : c ≠ '/' := fun e => hh (by simp [e])
      simp [hasPrefix, this]
  have h5 : B ≠ ['/'] := by
    intro e; rw [e] at hh; exact hh rfl
  simp only [h1, h2, h3, h4]
  simp [h5, hB]

theorem toSlash_fix (os : Platform) (s : Str) (h : ∀ c ∈ s, c = '/' ∨ c ≠ os.separator) :
    toSlash os s = s := by
  by_cases hs : os.separator = '/'
  · simp [toSlash, hs]
  · apply toSlash_of_not_mem
    intro hm
    rcases h _ hm with e | e
    · exact hs e
    · exact e rfl

theorem mem_dirPath {names : List Str} {c : Char} (h : c ∈ dirPath names) :
    c = '/' ∨ ∃ s ∈ names, c ∈ s := by
  induction names with
  | nil => simp [dirPath] at h
  | cons s rest ih =>
    rcases List.mem_cons.1 h with h | h
    · exact Or.inl h
    · rcases List.mem_append.1 h with h | h
      · exact Or.inr ⟨s, List.mem_cons_self _ _, h⟩
      · rcases ih h with h | ⟨s', hs', hc⟩
        · exact Or.inl h
        · exact Or.inr ⟨s', List.mem_cons_of_mem _ hs', hc⟩

theorem sep_not_mem_index_html (os : Platform) :
    ∀ c ∈ "/index.html".toList, c = '/' ∨ c ≠ os.separator := by
  cases os <;> decide

theorem dirPath_shape (names : List Str) : dirPath names = [] ∨ ∃ t, dirPath names = '/' :: t := by
  cases names with
  | nil => exact Or.inl rfl
  | cons s rest => exact Or.inr ⟨_, rfl⟩

theorem head_ne_slash_of_not_mem {s : Str} (t : Str) (h : '/' ∉ s) (hne : s ≠ [] ∨ t.head? ≠ some '/') :
    (s ++ t).head? ≠ some '/' := by
  cases s with
  | nil =>
    rcases hne with h' | h'
    · exact absurd rfl h'
    · simpa using h'
  | cons c s =>
    intro e
    simp at e
    exact h (by simp [e])

/-- Removal of the content root: a path below `R` is reduced to the text that
follows `R`, with or without its leading `/`. -/
theorem getRoutePathFromFile_below (os : Platform) (R Z : Str)
    (hZ : ∀ c ∈ Z, c = '/' ∨ c ≠ os.separator) :
    getRoutePathFromFile os (R ++ '/' :: Z) R
      = if hasSuffix (toSlash os R) ['/'] then routeOfRelative ('/' :: Z)
        else routeOfRelative Z := by
  have hfix : toSlash os ('/' :: Z) = '/' :: Z := by
    apply toSlash_fix
    intro c hc
    rcases List.mem_cons.1 hc with h | h
    · exact Or.inl h
    · exact hZ c h
  unfold getRoutePathFromFile
  simp only [toSlash_append, hfix, withTrailingSlash]
  by_cases hs : hasSuffix (toSlash os R) ['/'] = true
  · simp only [hs, Bool.not_true, Bool.false_eq_true, if_false, if_true, hasPrefix_append,
      trimPrefix_append]
  · have hs' : hasSuffix (toSlash os R) ['/'] = false := by simpa using hs
    have e : toSlash os R ++ '/' :: Z = (toSlash os R ++ ['/']) ++ Z := by simp
    simp only [hs', Bool.not_false, if_true, Bool.false_eq_true, if_false]
    rw [e, hasPrefix_append, trimPrefix_append]
    simp

theorem routeOfRelative_index_html : routeOfRelative "index.html".toList = ['/'] := by
  decide

/-- The route of `R/s1/.../sn/index.html`. -/
theorem getRoutePathFromFile_index (os : Platform) (R : Str) (names : List Str)
    (hnames : ∀ s ∈ names, s ≠ [] ∧ '/' ∉ s ∧ os.separator ∉ s) :
    getRoutePathFromFile os (R ++ dirPath names ++ "/index.html".toList) R
      = if names = [] then ['/'] else dirPath names := by
  have e : R ++ dirPath names ++ "/index.html".toList
      = R ++ '/' :: ((dirPath names ++ "/index.html".toList).tail) := by
    cases names <;> simp [dirPath]
  have hZ : ∀ c ∈ (dirPath names ++ "/index.html".toList).tail, c = '/' ∨ c ≠ os.separator := by
    intro c hc
    rcases List.mem_append.1 (List.mem_of_mem_tail hc) with h | h
    · rcases mem_dirPath h with h | ⟨s, hs, hcs⟩
      · exact Or.inl h
      · right; intro e; exact (hnames s hs).2.2 (e ▸ hcs)
    · exact sep_not_mem_index_html os c h
  rw [e, getRoutePathFromFile_below os R _ hZ]
  cases names with
  | nil =>
    split
    · exact routeOfRelative_index_slash [] (Or.inl rfl)
    · exact routeOfRelative_index_html
  | cons s rest =>
    have hs := hnames s (List.mem_cons_self _ _)
    split
    · have := routeOfRelative_index_slash (dirPath (s :: rest)) (Or.inr ⟨_, rfl⟩)
      simpa [dirPath] using this
    · have := routeOfRelative_index_bare (s ++ dirPath rest) (by simp [hs.1])
        (head_ne_slash_of_not_mem _ hs.2.1 (Or.inl hs.1))
      simpa [dirPath] using this

/-- The route of `R/s1/.../sn/f.html` for a stem `f` other than `index`. -/
theorem getRoutePathFromFile_page (os : Platform) (R : Str) (names : List Str) (f : Str)
    (hnames : ∀ s ∈ names, s ≠ [] ∧ '/' ∉ s ∧ os.separator ∉ s)
    (hf : '/' ∉ f ∧ os.separator ∉ f) (hfi : f ≠ "index".toList) :
    getRoutePathFromFile os (R ++ dirPath names ++ '/' :: f ++ ".html".toList) R
      = dirPath names ++ '/' :: f := by
  have e : R ++ dirPath names ++ '/' :: f ++ ".html".toList
      = R ++ '/' :: ((dirPath names ++ '/' :: f).tail ++ ".html".toList) := by
    cases names <;> simp [dirPath]
  have hZ : ∀ c ∈ (dirPath names ++ '/' :: f).tail ++ ".html".toList,
      c = '/' ∨ c ≠ os.separator := by
    intro c hc
    rcases List.mem_append.1 hc with h | h
    · rcases List.mem_append.1 (List.mem_of_mem_tail h) with h | h
      · rcases mem_dirPath h with h | ⟨s, hs, hcs⟩
        · exact Or.inl h
        · right; intro e; exact (hnames s hs).2.2 (e ▸ hcs)
      · rcases List.mem_cons.1 h with h | h
        · exact Or.inl h
        · right; intro e; exact hf.2 (e ▸ h)
    · exact sep_not_mem_index_html os c (by
        have hsub : ∀ d ∈ ".html".toList, d ∈ "/index.html".toList := by decide
        exact hsub c h)
  have hsuf : ¬ "/index".toList <:+ dirPath names ++ '/' :: f := not_index_suffix _ f hf.1 hfi
  rw [e, getRoutePathFromFile_below os R _ hZ]
  split
  · have e2 : '/' :: ((dirPath names ++ '/' :: f).tail ++ ".html".toList)
        = (dirPath names ++ '/' :: f) ++ ".html".toList := by
      cases names <;> simp [dirPath]
    rw [e2]
    have hsh : ∃ t, dirPath names ++ '/' :: f = '/' :: t := by
      cases names with
      | nil => exact ⟨f, rfl⟩
      | cons s rest => exact ⟨_, rfl⟩
    rcases hsh with ⟨t, ht⟩
    exact routeOfRelative_slash _ t _ (trimSuffix_append _ _) ht hsuf
  · have e3 : '/' :: (dirPath names ++ '/' :: f).tail = dirPath names ++ '/' :: f := by
      cases names <;> simp [dirPath]
    have hhead : ((dirPath names ++ '/' :: f).tail).head? ≠ some '/' := by
      cases names with
      | nil =>
        simp only [dirPath, List.nil_append, List.tail_cons]
        have := head_ne_slash_of_not_mem [] hf.1 (Or.inr (by simp))
        simpa using this
      | cons s rest =>
        have hs := hnames s (List.mem_cons_self _ _)
        simp only [dirPath, List.cons_append, List.tail_cons, List.append_assoc]
        exact head_ne_slash_of_not_mem _ hs.2.1 (Or.inl hs.1)
    have hne : (dirPath names ++ '/' :: f).tail ≠ "index".toList := by
      cases names with
      | nil => simpa [dirPath] using hfi
      | cons s rest =>
        intro e4
        have hm : '/' ∈ (dirPath (s :: rest) ++ '/' :: f).tail := by
          simp [dirPath]
        rw [e4] at hm
        exact absurd hm (by decide)
    have hsuf2 : ¬ "/index".toList <:+ (dirPath names ++ '/' :: f).tail := by
      intro h
      exact hsuf (h.trans (List.tail_suffix _))
    rw [routeOfRelative_bare _ _ (trimSuffix_append _ _) hhead hne hsuf2, e3]

theorem singleLeadingSlash_dirPath (names : List Str) (t : Str)
    (hnames : ∀ s ∈ names, s ≠ [] ∧ '/' ∉ s) (hne : names ≠ [] ∨ ∃ u, t = '/' :: u ∧ u.head? ≠ some '/') :
    SingleLeadingSlash (dirPath names ++ t) := by
  cases names with
  | nil =>
    rcases hne with h | ⟨u, hu, hh⟩
    · exact absurd rfl h
    · exact ⟨u, by simp [dirPath, hu], hh⟩
  | cons s rest =>
    have hs := hnames s (List.mem_cons_self _ _)
    refine ⟨s ++ dirPath rest ++ t, by simp [dirPath], ?_⟩
    rw [List.append_assoc]
    exact head_ne_slash_of_not_mem _ hs.2 (Or.inl hs.1)

/-- C5: for every content root `R` and directory names `s1..sn` (non-empty,
without a path separator), `R/s1/../sn/index.html` has the route `/` when
`n = 0` and `/s1/../sn` otherwise, and `R/s1/../sn/f.html` for a stem `f` other
than `index` has the route `/s1/../sn/f`; both results begin with a single `/`;
in particular `R/index.html`, `R/blog/index.html` and `R/blog/[slug].html` have
the routes `/`, `/blog` and `/blog/[slug]`. -/
theorem getRoutePathFromFile_spec (os : Platform) (R : Str) (names : List Str) (f : Str)
    (hnames : ∀ s ∈ names, s ≠ [] ∧ '/' ∉ s ∧ os.separator ∉ s)
    (hf : '/' ∉ f ∧ os.separator ∉ f) (hfi : f ≠ "index".toList) :
    getRoutePathFromFile os (R ++ dirPath names ++ "/index.html".toList) R
        = (if names = [] then ['/'] else dirPath names)
      ∧ getRoutePathFromFile os (R ++ dirPath names ++ '/' :: f ++ ".html".toList) R
        = dirPath names ++ '/' :: f
      ∧ SingleLeadingSlash
          (getRoutePathFromFile os (R ++ dirPath names ++ "/index.html".toList) R)
      ∧ SingleLeadingSlash
          (getRoutePathFromFile os (R ++ dirPath names ++ '/' :: f ++ ".html".toList) R)
      ∧ getRoutePathFromFile os (R ++ "/index.html".toList) R = "/".toList
      ∧ getRoutePathFromFile os (R ++ "/blog/index.html".toList) R = "/blog".toList
      ∧ getRoutePathFromFile os (R ++ "/blog/[slug].html".toList) R = "/blog/[slug]".toList := by
  have hblog : ∀ s ∈ ["blog".toList], s ≠ [] ∧ '/' ∉ s ∧ os.separator ∉ s := by
    cases os <;> decide
  have hslug : '/' ∉ "[slug]".toList ∧ os.separator ∉ "[slug]".toList := by
    cases os <;> decide
  have hnames2 : ∀ s ∈ names, s ≠ [] ∧ '/' ∉ s := fun s hs => ⟨(hnames s hs).1, (hnames s hs).2.1⟩
  refine ⟨getRoutePathFromFile_index os R names hnames,
    getRoutePathFromFile_page os R names f hnames hf hfi, ?_, ?_, ?_, ?_, ?_⟩
  · rw [getRoutePathFromFile_index os R names hnames]
    by_cases hn : names = []
    · simp only [hn, if_true]
      exact ⟨[], rfl, by simp⟩
    · simp only [hn, if_false]
      have := singleLeadingSlash_dirPath names [] hnames2 (Or.inl hn)
      simpa using this
  · rw [getRoutePathFromFile_page os R names f hnames hf hfi]
    apply singleLeadingSlash_dirPath names _ hnames2
    right
    refine ⟨f, rfl, ?_⟩
    have := head_ne_slash_of_not_mem [] hf.1 (Or.inr (by simp))
    simpa using this
  · have := getRoutePathFromFile_index os R [] (by simp)
    simpa [dirPath] using this
  · have := getRoutePathFromFile_index os R ["blog".toList] hblog
    simpa [dirPath] using this
  · have := getRoutePathFromFile_page os R ["blog".toList] "[slug]".toList hblog hslug (by decide)
    simpa [dirPath] using this

/-- C5 (witness): the theorem at `app/blog/posts/[slug].html` under `app`. -/
theorem getRoutePathFromFile_spec_witness :
    getRoutePathFromFile .unix "app/blog/posts/[slug].html".toList "app".toList
      = "/blog/posts/[slug]".toList := by
  have h := (getRoutePathFromFile_spec .unix "app".toList ["blog".toList, "posts".toList]
    "[slug]".toList (by decide) (by decide) (by decide)).2.1
  simpa [dirPath] using h

/-- C6 (counterexample): applying `getRoutePathFromFile` to its own result
changes the result when it ends in `/index` (`/index` becomes `/`), when it ends
in `.html` (`/a.html` becomes `/a`), and when it begins with the content root
(`/a/b` under the root `/a` becomes `/b`). -/
theorem getRoutePathFromFile_not_idempotent :
    getRoutePathFromFile .unix
          (getRoutePathFromFile .unix "app/index/index.html".toList "app".toList) "app".toList
        ≠ getRoutePathFromFile .unix "app/index/index.html".toList "app".toList
      ∧ getRoutePathFromFile .unix
          (getRoutePathFromFile .unix "app/a.html.html".toList "app".toList) "app".toList
        ≠ getRoutePathFromFile .unix "app/a.html.html".toList "app".toList
      ∧ getRoutePathFromFile .unix
          (getRoutePathFromFile .unix "/a/a/b.html".toList "/a".toList) "/a".toList
        ≠ getRoutePathFromFile .unix "/a/a/b.html".toList "/a".toList
      ∧ getRoutePathFromFile .unix "app/index/index.html".toList "app".toList = "/index".toList
      ∧ getRoutePathFromFile .unix "/index".toList "app".toList = "/".toList := by
  decide

/-- C6 (amended): when the route `r` computed for a file does not begin with
the content root followed by `/`, does not end in `.html` and does not end in
`/index`, applying `getRoutePathFromFile` to `r` returns `r` unchanged. -/
theorem getRoutePathFromFile_idempotent_of (os : Platform) (f R : Str)
    (hroot : ¬ withTrailingSlash (toSlash os R) <+: getRoutePathFromFile os f R)
    (hext : ¬ ".html".toList <:+ getRoutePathFromFile os f R)
    (hidx : ¬ "/index".toList <:+ getRoutePathFromFile os f R) :
    getRoutePathFromFile os (getRoutePathFromFile os f R) R = getRoutePathFromFile os f R := by
  rcases getRoutePathFromFile_head os f R with ⟨t, ht⟩
  have hts := toSlash_getRoutePathFromFile os f R
  generalize getRoutePathFromFile os f R = r at hroot hext hidx ht hts ⊢
  have hp : hasPrefix r (withTrailingSlash (toSlash os R)) = false :=
    (hasPrefix_false_iff _ _).2 hroot
  unfold getRoutePathFromFile
  simp only [hts, hp, Bool.false_eq_true, if_false]
  exact routeOfRelative_slash r t r (trimSuffix_of_not_suffix hext) ht hidx

/-- C6 (witness): the amended statement at `app/blog/index.html` under `app`. -/
theorem getRoutePathFromFile_idempotent_of_witness :
    getRoutePathFromFile .unix
        (getRoutePathFromFile .unix "app/blog/index.html".toList "app".toList) "app".toList
      = getRoutePathFromFile .unix "app/blog/index.html".toList "app".toList :=
  getRoutePathFromFile_idempotent_of .unix "app/blog/index.html".toList "app".toList
    (by decide) (by decide) (by decide)

/-! ## Middleware chains -/

theorem thenLoop_eq_foldr {H : Type} (ms : List (H → H)) (k : Nat) (hk : k ≤ ms.length)
    (h : H) :
    MiddlewareChain.thenLoop ms k h = (ms.take k).foldr (fun m acc => m acc) h := by
  induction k generalizing h with
  | zero => simp [MiddlewareChain.thenLoop]
  | succ k ih =>
    have hlt : k < ms.length := hk
    have hget : ms.get? k = some (ms.get ⟨k, hlt⟩) := List.get?_eq_get hlt
    rw [MiddlewareChain.thenLoop, hget]
    simp only
    rw [ih (Nat.le_of_lt hlt), List.take_succ, List.getElem?_eq_getElem hlt,
      List.foldr_append]
    rfl

theorem foldl_Use_middlewares {H : Type} (ms : List (H → H)) (mc : MiddlewareChain H) :
    (ms.foldl MiddlewareChain.Use mc).middlewares = mc.middlewares ++ ms := by
  induction ms generalizing mc with
  | nil => simp
  | cons m ms ih => simp [List.foldl, ih, MiddlewareChain.Use]

/-- C7: on a chain built by `Use(m1)`, ..., `Use(mn)` in that order,
`Then(h)` is `m1 (m2 (... (mn h)))`: the first-registered middleware is
outermost, the last-registered wraps `h` directly, and the empty chain returns
`h` itself. -/
theorem Then_eq_first_outermost {H : Type} (ms : List (H → H)) (h : H) :
    (ms.foldl MiddlewareChain.Use (NewMiddlewareChain H)).Then h
        = ms.foldr (fun m acc => m acc) h
      ∧ (NewMiddlewareChain H).Then h = h := by
  constructor
  · unfold MiddlewareChain.Then
    rw [thenLoop_eq_foldr _ _ (Nat.le_refl _), foldl_Use_middlewares]
    simp [NewMiddlewareChain]
  · rfl


/-! ## The regular-expression model -/

theorem greedySplits_eq (p : Char → Bool) (s : Str) :
    ∃ others, greedySplits p s = (s.takeWhile p, s.dropWhile p) :: others
      ∧ ∀ mr ∈ others, ∃ c t, mr.2 = c :: t ∧ p c = true := by
  induction s with
  | nil => exact ⟨[], rfl, by simp⟩
  | cons c cs ih =>
    rcases ih with ⟨others, he, ho⟩
    by_cases hc : p c = true
    · refine ⟨others.map (fun mr => (c :: mr.1, mr.2)) ++ [([], c :: cs)], ?_, ?_⟩
      · simp [greedySplits, hc, he, List.takeWhile, List.dropWhile]
      · intro mr hmr
        rcases List.mem_append.1 hmr with h | h
        · rcases List.mem_map.1 h with ⟨mr', hmr', rfl⟩
          exact ho mr' hmr'
        · simp at h
          exact ⟨c, cs, by rw [h], hc⟩
    · refine ⟨[], ?_, by simp⟩
      simp [greedySplits, hc, List.takeWhile, List.dropWhile]

theorem flatMap_eq_nil_of {α β : Type} (l : List α) (f : α → List β) (h : ∀ x ∈ l, f x = []) :
    l.flatMap f = [] := by
  induction l with
  | nil => rfl
  | cons x xs ih =>
    rw [List.flatMap_cons, h x (List.mem_cons_self _ _), ih (fun y hy => h y (List.mem_cons_of_mem _ hy))]
    rfl

theorem run_cat (a b : Regex) (atStart : Bool) (s : Str) :
    (Regex.cat a b).run atStart s
      = (a.run atStart s).flatMap (fun x =>
          (b.run (atStart && x.matched.isEmpty) x.rest).map (fun y =>
            (⟨x.matched ++ y.matched, x.caps ++ y.caps, y.rest⟩ : Attempt))) := rfl

theorem run_cap (i : Nat) (a : Regex) (atStart : Bool) (s : Str) :
    (Regex.cap i a).run atStart s
      = (a.run atStart s).map (fun x => (⟨x.matched, (i, x.matched) :: x.caps, x.rest⟩ : Attempt)) :=
  rfl

theorem run_plus (C : CharSet) (atStart : Bool) (s : Str) :
    (Regex.rep .plus C).run atStart s
      = ((greedySplits C.accepts s).filter (fun mr => !mr.1.isEmpty)).map
          (fun mr => (⟨mr.1, [], mr.2⟩ : Attempt)) := rfl

theorem run_cat_empty (a : Regex) (atStart : Bool) (s : Str) :
    (Regex.cat a .empty).run atStart s = a.run atStart s := by
  rw [run_cat]
  generalize a.run atStart s = l
  induction l with
  | nil => rfl
  | cons x xs ih =>
    rw [List.flatMap_cons, ih]
    simp [Regex.run]

/-- A captured greedy run `(C+)` followed by an expression `K` that cannot
begin with a character of the run: only the longest run can be continued. -/
theorem run_cat_cap_plus (i : Nat) (C : CharSet) (K : Regex) (b : Bool) (s : Str)
    (hK : ∀ b' c t, C.accepts c = true → K.run b' (c :: t) = []) :
    (Regex.cat (.cap i (.cat (.rep .plus C) .empty)) K).run b s
      = if s.takeWhile C.accepts = [] then []
        else (K.run false (s.dropWhile C.accepts)).map (fun y =>
          ⟨s.takeWhile C.accepts ++ y.matched, (i, s.takeWhile C.accepts) :: y.caps, y.rest⟩) := by
  rcases greedySplits_eq C.accepts s with ⟨others, he, ho⟩
  rw [run_cat, run_cap, run_cat_empty, run_plus, List.map_map, List.flatMap_map, he]
  have hoth : (others.filter (fun mr => !List.isEmpty mr.1)).flatMap
      (fun mr => (K.run (b && mr.1.isEmpty) mr.2).map (fun y =>
          (⟨mr.1 ++ y.matched, (i, mr.1) :: y.caps, y.rest⟩ : Attempt))) = [] := by
    apply flatMap_eq_nil_of
    intro mr hmr
    rcases ho mr (List.mem_of_mem_filter hmr) with ⟨c, t, hr, hc⟩
    rw [hr, hK _ c t hc]
    rfl
  by_cases htw : s.takeWhile C.accepts = []
  · simp only [htw, if_true]
    rw [List.filter_cons_of_neg (by simp [htw])]
    simp only [Function.comp, List.cons_append, List.nil_append]
    exact hoth
  · have hne : (!List.isEmpty (s.takeWhile C.accepts)) = true := by
      cases h : s.takeWhile C.accepts with
      | nil => exact absurd h htw
      | cons _ _ => rfl
    have hemp : (List.takeWhile C.accepts s).isEmpty = false := by simpa using hne
    simp only [htw, if_false]
    rw [List.filter_cons_of_pos (by simpa using hne), List.flatMap_cons]
    simp only [Function.comp, List.cons_append, List.nil_append]
    rw [hoth, List.append_nil, hemp, Bool.and_false]

/-! ## `paramRegex` -/

/-- The expression `paramRegex` is what the pattern of the source compiles to. -/
theorem paramRegex_compile : Compile "\\[([^/\\]]+)\\]".toList = .ok paramRegex := by
  decide

theorem nameChar_iff (c : Char) : nameChar c = true ↔ c ≠ '/' ∧ c ≠ ']' := by
  simp [nameChar, CharSet.accepts]

theorem isParamName_iff (n : Str) : IsParamName n ↔ n ≠ [] ∧ ∀ c ∈ n, nameChar c = true := by
  unfold IsParamName
  constructor
  · rintro ⟨h0, h1, h2⟩
    refine ⟨h0, fun c hc => (nameChar_iff c).2 ⟨?_, ?_⟩⟩
    · rintro rfl; exact h1 hc
    · rintro rfl; exact h2 hc
  · rintro ⟨h0, h⟩
    exact ⟨h0, fun hc => ((nameChar_iff _).1 (h _ hc)).1 rfl,
      fun hc => ((nameChar_iff _).1 (h _ hc)).2 rfl⟩

theorem takeWhile_name (n rest : Str) (hn : IsParamName n) :
    (n ++ ']' :: rest).takeWhile nameChar = n ∧ (n ++ ']' :: rest).dropWhile nameChar = ']' :: rest := by
  have hall := ((isParamName_iff n).1 hn).2
  constructor
  · rw [List.takeWhile_append_of_pos hall]
    simp [List.takeWhile, nameChar, CharSet.accepts]
  · rw [List.dropWhile_append_of_pos hall]
    simp [List.dropWhile, nameChar, CharSet.accepts]

theorem param_run_bracket (b : Bool) (t : Str) :
    paramRegex.expr.run b ('[' :: t)
      = if t.takeWhile nameChar = [] then []
        else match t.dropWhile nameChar with
          | ']' :: rest => [⟨'[' :: t.takeWhile nameChar ++ [']'], [(1, t.takeWhile nameChar)], rest⟩]
          | _ => [] := by
  have hK : ∀ (b' : Bool) (c : Char) (u : Str), (CharSet.cls true ['/', ']']).accepts c = true →
      (Regex.cat (.chr (.lit ']')) .empty).run b' (c :: u) = [] := by
    intro b' c u hc
    have hne : c ≠ ']' := ((nameChar_iff c).1 hc).2
    rw [run_cat_empty]
    simp [Regex.run, CharSet.accepts, hne]
  have h1 : paramRegex.expr.run b ('[' :: t)
      = ((Regex.cat (.cap 1 (.cat (.rep .plus (.cls true ['/', ']'])) .empty))
          (.cat (.chr (.lit ']')) .empty)).run false t).map
          (fun y => (⟨'[' :: y.matched, y.caps, y.rest⟩ : Attempt)) := by
    show (Regex.cat (.chr (.lit '[')) _).run b ('[' :: t) = _
    rw [run_cat]
    simp [Regex.run, CharSet.accepts]
  have hnc : (CharSet.cls true ['/', ']']).accepts = nameChar := rfl
  rw [h1, run_cat_cap_plus 1 _ _ false t hK, run_cat_empty, hnc]
  by_cases htw : t.takeWhile nameChar = []
  · simp [htw]
  · simp only [htw, if_false]
    cases hd : t.dropWhile nameChar with
    | nil => simp [Regex.run]
    | cons c r =>
      by_cases hc : c = ']'
      · subst hc
        simp [Regex.run, CharSet.accepts]
      · simp [Regex.run, CharSet.accepts, hc]

theorem param_run_other (b : Bool) (s : Str) (h : s.head? ≠ some '[') :
    paramRegex.expr.run b s = [] := by
  show (Regex.cat (.chr (.lit '[')) _).run b s = _
  rw [run_cat]
  cases s with
  | nil => simp [Regex.run]
  | cons c t =>
    have hc : c ≠ '[' := fun e => h (by simp [e])
    simp [Regex.run, CharSet.accepts, hc]

theorem not_startsWithToken_of_ne (c : Char) (s : Str) (h : c ≠ '[') :
    ¬ StartsWithToken (c :: s) := by
  rintro ⟨n, rest, _, e⟩
  exact h (List.cons.inj e).1

/-- At a token, `paramRegex` matches the whole token and captures its name. -/
theorem param_matchHere_token (b : Bool) (n rest : Str) (hn : IsParamName n) :
    paramRegex.matchHere b ('[' :: n ++ ']' :: rest)
      = some ⟨'[' :: n ++ [']'], [(1, n)], rest⟩ := by
  unfold Regexp.matchHere
  rw [List.cons_append, param_run_bracket, (takeWhile_name n rest hn).1,
    (takeWhile_name n rest hn).2]
  simp [hn.1]

/-- Where no token begins, `paramRegex` does not match. -/
theorem param_matchHere_none (b : Bool) (s : Str) (h : ¬ StartsWithToken s) :
    paramRegex.matchHere b s = none := by
  unfold Regexp.matchHere
  cases s with
  | nil => rw [param_run_other b [] (by simp)]; rfl
  | cons c t =>
    by_cases hc : c = '['
    · subst hc
      rw [param_run_bracket]
      by_cases htw : t.takeWhile nameChar = []
      · simp [htw]
      · simp only [htw, if_false]
        cases hd : t.dropWhile nameChar with
        | nil => rfl
        | cons d r =>
          by_cases hdc : d = ']'
          · subst hdc
            exfalso
            apply h
            refine ⟨t.takeWhile nameChar, r, (isParamName_iff _).2 ⟨htw, ?_⟩, ?_⟩
            · intro x hx
              exact (List.mem_takeWhile_imp hx)
            · rw [← hd, List.cons_append, List.takeWhile_append_dropWhile]
          · simp [hdc]
    · rw [param_run_other b (c :: t) (by simp [hc])]; rfl

theorem scan_skip (re : Regexp) (k : Nat) (x y : Str) (b am : Bool) (hx : x.length = k + 1) :
    re.scan b (k + 1) am (x ++ y) = re.scan false 0 true y := by
  induction k generalizing x b am with
  | zero =>
    match x, hx with
    | [c], _ => simp [Regexp.scan]
  | succ k ih =>
    match x, hx with
    | c :: x', hx' =>
      have : x'.length = k + 1 := by simpa using hx'
      simp only [List.cons_append, Regexp.scan]
      exact ih x' false true this

theorem scan_param_token (b am : Bool) (n rest : Str) (hn : IsParamName n) :
    paramRegex.scan b 0 am ('[' :: n ++ ']' :: rest)
      = .hit ⟨'[' :: n ++ [']'], [(1, n)], rest⟩ :: paramRegex.scan false 0 true rest := by
  have hm := param_matchHere_token b n rest hn
  have e : n ++ ']' :: rest = (n ++ [']']) ++ rest := by simp
  simp only [List.cons_append] at hm ⊢
  simp only [Regexp.scan, hm, List.isEmpty_cons, Bool.false_eq_true, if_false, List.length_cons,
    List.length_append, List.length_nil, Nat.add_sub_cancel]
  rw [e, scan_skip paramRegex n.length (n ++ [']']) rest false true (by simp)]

theorem scan_param_skip (b am : Bool) (c : Char) (t : Str) (h : ¬ StartsWithToken (c :: t)) :
    paramRegex.scan b 0 am (c :: t) = .text c :: paramRegex.scan false 0 false t := by
  simp only [Regexp.scan, param_matchHere_none b _ h]

theorem scan_param_nil (b am : Bool) : paramRegex.scan b 0 am [] = [] := by
  simp only [Regexp.scan, param_matchHere_none b [] (by rintro ⟨n, rest, _, e⟩; cases e)]

/-- The position flags play no part in the scan for `paramRegex`, which has no
anchor and never matches the empty text. -/
theorem scan_param_flags (b am : Bool) (s : Str) :
    paramRegex.scan b 0 am s = paramRegex.scan true 0 false s := by
  induction s using List.rec with
  | nil => rw [scan_param_nil, scan_param_nil]
  | cons c t _ =>
    by_cases h : StartsWithToken (c :: t)
    · rcases h with ⟨n, rest, hn, e⟩
      rw [e, scan_param_token _ _ _ _ hn, scan_param_token _ _ _ _ hn]
    · rw [scan_param_skip _ _ _ _ h, scan_param_skip _ _ _ _ h]

theorem findAll_param_nil : paramRegex.FindAllStringSubmatch [] = [] := by
  unfold Regexp.FindAllStringSubmatch
  rw [scan_param_nil]; rfl

theorem findAll_param_skip (c : Char) (t : Str) (h : ¬ StartsWithToken (c :: t)) :
    paramRegex.FindAllStringSubmatch (c :: t) = paramRegex.FindAllStringSubmatch t := by
  unfold Regexp.FindAllStringSubmatch
  rw [scan_param_skip _ _ _ _ h, scan_param_flags false false t]
  rfl

theorem findAll_param_token (n rest : Str) (hn : IsParamName n) :
    paramRegex.FindAllStringSubmatch ('[' :: n ++ ']' :: rest)
      = ['[' :: n ++ [']'], n] :: paramRegex.FindAllStringSubmatch rest := by
  unfold Regexp.FindAllStringSubmatch
  rw [scan_param_token _ _ _ _ hn, scan_param_flags false true rest]
  rfl

theorem replaceAll_param_nil (repl : Str) : paramRegex.ReplaceAllString [] repl = [] := by
  unfold Regexp.ReplaceAllString
  rw [scan_param_nil]; rfl

theorem replaceAll_param_skip (repl : Str) (c : Char) (t : Str) (h : ¬ StartsWithToken (c :: t)) :
    paramRegex.ReplaceAllString (c :: t) repl = c :: paramRegex.ReplaceAllString t repl := by
  unfold Regexp.ReplaceAllString
  rw [scan_param_skip _ _ _ _ h, scan_param_flags false false t]
  rfl

theorem replaceAll_param_token (repl n rest : Str) (hn : IsParamName n) :
    paramRegex.ReplaceAllString ('[' :: n ++ ']' :: rest) repl
      = repl ++ paramRegex.ReplaceAllString rest repl := by
  unfold Regexp.ReplaceAllString
  rw [scan_param_token _ _ _ _ hn, scan_param_flags false true rest]
  rfl

theorem extractParamNamesLoop_append (ms : List (List Str)) (acc : List Str) :
    extractParamNamesLoop ms acc = acc ++ extractParamNamesLoop ms [] := by
  induction ms generalizing acc with
  | nil => simp [extractParamNamesLoop]
  | cons m rest ih =>
    simp only [extractParamNamesLoop]
    rw [ih, ih (if m.length > 1 then [] ++ [m.getD 1 []] else [])]
    split <;> simp

theorem extractParamNames_nil : extractParamNames [] = [] := by
  unfold extractParamNames
  rw [findAll_param_nil]; rfl

theorem extractParamNames_skip (c : Char) (t : Str) (h : ¬ StartsWithToken (c :: t)) :
    extractParamNames (c :: t) = extractParamNames t := by
  unfold extractParamNames
  rw [findAll_param_skip c t h]

theorem extractParamNames_token (n rest : Str) (hn : IsParamName n) :
    extractParamNames ('[' :: n ++ ']' :: rest) = n :: extractParamNames rest := by
  unfold extractParamNames
  rw [findAll_param_token n rest hn]
  simp only [extractParamNamesLoop]
  rw [extractParamNamesLoop_append]
  simp

theorem tokens_extractParamNames (P : Str) : Tokens P (extractParamNames P) := by
  suffices key : ∀ (k : Nat) (P : Str), P.length = k → Tokens P (extractParamNames P) from
    key _ P rfl
  intro k
  induction k using Nat.strong_induction_on with
  | _ k ih =>
    intro P h
    cases P with
    | nil => rw [extractParamNames_nil]; exact Tokens.done
    | cons c t =>
      by_cases hs : StartsWithToken (c :: t)
      · rcases hs with ⟨n, rest, hn, e⟩
        rw [e, extractParamNames_token n rest hn]
        refine Tokens.token n rest _ hn (ih rest.length ?_ rest rfl)
        rw [← h, e]
        simp
        omega
      · rw [extractParamNames_skip c t hs]
        exact Tokens.skip c t _ hs (ih t.length (by rw [← h]; simp) t rfl)

theorem name_unique {n n' rest rest' : Str} (hn : IsParamName n) (hn' : IsParamName n')
    (e : n ++ ']' :: rest = n' ++ ']' :: rest') : n = n' ∧ rest = rest' := by
  have h1 := takeWhile_name n rest hn
  have h2 := takeWhile_name n' rest' hn'
  rw [e] at h1
  have hnn : n = n' := h1.1.symm.trans h2.1
  refine ⟨hnn, ?_⟩
  have := h1.2.symm.trans h2.2
  exact (List.cons.inj this).2

theorem tokens_unique {P : Str} {names : List Str} (h : Tokens P names) :
    extractParamNames P = names := by
  induction h with
  | done => exact extractParamNames_nil
  | skip c s names hs _ ih => rw [extractParamNames_skip c s hs, ih]
  | token n rest names hn _ ih => rw [extractParamNames_token n rest hn, ih]

theorem tokens_nil_of_no_token (P : Str) (h : ∀ pre s, P = pre ++ s → ¬ StartsWithToken s) :
    Tokens P [] := by
  induction P with
  | nil => exact Tokens.done
  | cons c t ih =>
    refine Tokens.skip c t [] (h [] (c :: t) rfl) (ih ?_)
    intro pre s e
    exact h (c :: pre) s (by rw [e]; rfl)

/-- C3: for every route path, `extractParamNames` returns the names of its
`[name]` tokens in left-to-right order, one entry per token: its result is a
token reading of the path, it is the only one, and it is empty when no token
begins anywhere in the path. -/
theorem extractParamNames_spec (P : Str) :
    Tokens P (extractParamNames P)
      ∧ (∀ names, Tokens P names → extractParamNames P = names)
      ∧ ((∀ pre s, P = pre ++ s → ¬ StartsWithToken s) → extractParamNames P = []) :=
  ⟨tokens_extractParamNames P, fun _ h => tokens_unique h,
    fun h => tokens_unique (tokens_nil_of_no_token P h)⟩

/-- C3 (witness): the theorem at `/about`, which has no token, and at
`/u/[id]`, which has one. -/
theorem extractParamNames_spec_witness :
    extractParamNames "/about".toList = []
      ∧ extractParamNames "/u/[id]".toList = ["id".toList] := by
  constructor
  · apply (extractParamNames_spec "/about".toList).2.2
    rintro pre s e ⟨n, rest, _, rfl⟩
    have hm : '[' ∈ "/about".toList := by rw [e]; simp
    exact absurd hm (by decide)
  · apply (extractParamNames_spec "/u/[id]".toList).2.1
    refine Tokens.skip _ _ _ (not_startsWithToken_of_ne _ _ (by decide)) ?_
    refine Tokens.skip _ _ _ (not_startsWithToken_of_ne _ _ (by decide)) ?_
    refine Tokens.skip _ _ _ (not_startsWithToken_of_ne _ _ (by decide)) ?_
    exact Tokens.token "id".toList [] [] (by unfold IsParamName; decide) Tokens.done

/-! ## Route paths made of whole segments -/

theorem findAll_param_plain (x y : Str) (hx : ∀ c ∈ x, c ≠ '[') :
    paramRegex.FindAllStringSubmatch (x ++ y) = paramRegex.FindAllStringSubmatch y := by
  induction x with
  | nil => rfl
  | cons c t ih =>
    rw [List.cons_append, findAll_param_skip c _
      (not_startsWithToken_of_ne c _ (hx c (List.mem_cons_self _ _)))]
    exact ih (fun d hd => hx d (List.mem_cons_of_mem _ hd))

theorem replaceAll_param_plain (repl x y : Str) (hx : ∀ c ∈ x, c ≠ '[') :
    paramRegex.ReplaceAllString (x ++ y) repl = x ++ paramRegex.ReplaceAllString y repl := by
  induction x with
  | nil => rfl
  | cons c t ih =>
    rw [List.cons_append, replaceAll_param_skip repl c _
      (not_startsWithToken_of_ne c _ (hx c (List.mem_cons_self _ _))),
      ih (fun d hd => hx d (List.mem_cons_of_mem _ hd))]
    rfl

theorem lit_no_bracket {text : Str} (h : (Seg.lit text).Valid) : ∀ c ∈ text, c ≠ '[' := by
  intro c hc e
  exact (h.2 c hc).2 (by rw [e]; decide)

theorem findAll_routeOf (segs : List Seg) (hv : ∀ seg ∈ segs, seg.Valid) :
    paramRegex.FindAllStringSubmatch (routeOf segs)
      = (paramNamesOf segs).map (fun n => ['[' :: n ++ [']'], n]) := by
  induction segs with
  | nil => exact findAll_param_nil
  | cons seg rest ih =>
    have ih' := ih (fun x hx => hv x (List.mem_cons_of_mem _ hx))
    have hseg := hv seg (List.mem_cons_self _ _)
    unfold routeOf at ih' ⊢
    simp only [List.map_cons, dirPath, List.cons_append]
    rw [findAll_param_skip '/' _ (not_startsWithToken_of_ne _ _ (by decide))]
    cases seg with
    | lit text =>
      simp only [Seg.routeText, paramNamesOf]
      rw [findAll_param_plain _ _ (lit_no_bracket hseg), ih']
      rfl
    | param name value =>
      simp only [Seg.routeText, paramNamesOf, List.map_cons]
      have e : ('[' :: name ++ [']']) ++ dirPath (List.map Seg.routeText rest)
          = '[' :: name ++ ']' :: dirPath (List.map Seg.routeText rest) := by simp
      rw [e, findAll_param_token name _ hseg.1, ih']
      rfl

theorem replaceAll_routeOf (segs : List Seg) (hv : ∀ seg ∈ segs, seg.Valid) :
    paramRegex.ReplaceAllString (routeOf segs) "([^/]+)".toList
      = dirPath (segs.map Seg.patternText) := by
  induction segs with
  | nil => exact replaceAll_param_nil _
  | cons seg rest ih =>
    have ih' := ih (fun x hx => hv x (List.mem_cons_of_mem _ hx))
    have hseg := hv seg (List.mem_cons_self _ _)
    unfold routeOf at ih' ⊢
    simp only [List.map_cons, dirPath, List.cons_append]
    rw [replaceAll_param_skip _ '/' _ (not_startsWithToken_of_ne _ _ (by decide))]
    cases seg with
    | lit text =>
      simp only [Seg.routeText, Seg.patternText]
      rw [replaceAll_param_plain _ _ _ (lit_no_bracket hseg), ih']
    | param name value =>
      simp only [Seg.routeText, Seg.patternText]
      have e : ('[' :: name ++ [']']) ++ dirPath (List.map Seg.routeText rest)
          = '[' :: name ++ ']' :: dirPath (List.map Seg.routeText rest) := by simp
      rw [e, replaceAll_param_token _ name _ hseg.1, ih']

/-! ### The parser on the pattern of a segment path -/

theorem parseSteps_append (st : PState) (x y : Str) :
    parseSteps st (x ++ y)
      = match parseSteps st x with
        | .ok st' => parseSteps st' y
        | .error e => .error e := by
  induction x generalizing st with
  | nil => rfl
  | cons c t ih =>
    simp only [List.cons_append, parseSteps]
    cases parseStep st c with
    | ok st' => exact ih st'
    | error e => rfl

theorem parseStep_plain (stack : List Item) (n : Nat) (c : Char) (hc : c ∉ regexSpecial) :
    parseStep ⟨stack, n, .top⟩ c = .ok ⟨.node (.chr (.lit c)) :: stack, n, .top⟩ := by
  have h : ∀ d ∈ regexSpecial, c ≠ d := fun d hd e => hc (e ▸ hd)
  simp only [regexSpecial, List.mem_cons, List.mem_singleton, List.not_mem_nil, or_false,
    forall_eq_or_imp, forall_eq] at h
  obtain ⟨h1, h2, h3, h4, h5, h6, h7, h8, h9, h10, h11, h12⟩ := h
  simp [parseStep, h1, h2, h3, h4, h5, h6, h7, h8, h9, h10, h11, h12]

theorem parseSteps_plain (stack : List Item) (n : Nat) (x : Str)
    (hx : ∀ c ∈ x, c ∉ regexSpecial) :
    parseSteps ⟨stack, n, .top⟩ x
      = .ok ⟨(x.map (fun c => Item.node (.chr (.lit c)))).reverse ++ stack, n, .top⟩ := by
  induction x generalizing stack with
  | nil => rfl
  | cons c t ih =>
    rw [parseSteps, parseStep_plain stack n c (hx c (List.mem_cons_self _ _))]
    simp only
    rw [ih _ (fun d hd => hx d (List.mem_cons_of_mem _ hd))]
    simp

theorem parseSteps_group (stack : List Item) (n : Nat) :
    parseSteps ⟨stack, n, .top⟩ "([^/]+)".toList
      = .ok ⟨.node (.cap (n + 1) (.cat (.rep .plus (.cls true ['/'])) .empty)) :: stack,
          n + 1, .top⟩ := by
  rfl

theorem slash_not_special : '/' ∉ regexSpecial := by decide

theorem parseSteps_segs (segs : List Seg) (hv : ∀ seg ∈ segs, seg.Valid) (stack : List Item)
    (n : Nat) :
    parseSteps ⟨stack, n, .top⟩ (dirPath (segs.map Seg.patternText))
      = .ok ⟨((nodesOf segs n).map Item.node).reverse ++ stack,
          n + (paramNamesOf segs).length, .top⟩ := by
  induction segs generalizing stack n with
  | nil => rfl
  | cons seg rest ih =>
    have ih' := ih (fun x hx => hv x (List.mem_cons_of_mem _ hx))
    have hseg := hv seg (List.mem_cons_self _ _)
    simp only [List.map_cons, dirPath, List.cons_append]
    rw [parseSteps, parseStep_plain stack n '/' slash_not_special]
    simp only
    rw [parseSteps_append]
    cases seg with
    | lit text =>
      simp only [Seg.patternText]
      rw [parseSteps_plain _ n text (fun c hc => (hseg.2 c hc).2)]
      simp only
      rw [ih']
      simp [nodesOf, paramNamesOf]
    | param name value =>
      simp only [Seg.patternText]
      rw [parseSteps_group]
      simp only
      rw [ih']
      simp [nodesOf, paramNamesOf]
      omega

theorem stackNodes_nodes (l : List Regex) (acc : List Regex) :
    stackNodes (l.map Item.node) acc = some (l.reverse ++ acc) := by
  induction l generalizing acc with
  | nil => rfl
  | cons r rs ih =>
    simp only [List.map_cons, stackNodes]
    rw [ih]
    simp

/-- The matcher compiled for a path of valid segments. -/
theorem compileMatcher_routeOf (segs : List Seg) (hv : ∀ seg ∈ segs, seg.Valid) :
    compileMatcher (routeOf segs)
      = .ok ⟨Regex.seq (.beginText :: nodesOf segs 0 ++ [.endText]),
          (paramNamesOf segs).length⟩ := by
  unfold compileMatcher Compile
  rw [replaceAll_routeOf segs hv]
  have e : "^".toList ++ dirPath (segs.map Seg.patternText) ++ "$".toList
      = '^' :: (dirPath (segs.map Seg.patternText) ++ ['$']) := rfl
  rw [e, parseSteps]
  have h1 : parseStep ⟨[], 0, .top⟩ '^' = .ok ⟨[.node .beginText], 0, .top⟩ := rfl
  rw [h1]
  simp only
  rw [parseSteps_append, parseSteps_segs segs hv]
  simp only
  have h2 : ∀ st : PState, st.mode = .top →
      parseSteps st ['$'] = .ok { st with stack := .node .endText :: st.stack } := by
    intro st hst
    cases st with
    | mk stack n mode =>
      simp only at hst
      subst hst
      rfl
  rw [h2 _ rfl]
  simp only [parseFinish]
  have h3 : (Item.node Regex.endText ::
        (((nodesOf segs 0).map Item.node).reverse ++ [Item.node Regex.beginText]))
      = (Regex.endText :: ((nodesOf segs 0).reverse ++ [Regex.beginText])).map Item.node := by
    simp
  rw [h3, stackNodes_nodes]
  simp

/-! ### The matcher on the request path -/

theorem run_lit_cons (c : Char) (K : Regex) (b : Bool) (s : Str) :
    (Regex.cat (.chr (.lit c)) K).run b (c :: s)
      = (K.run false s).map (fun y => (⟨c :: y.matched, y.caps, y.rest⟩ : Attempt)) := by
  rw [run_cat]
  simp [Regex.run, CharSet.accepts]

theorem run_lit_ne (c d : Char) (K : Regex) (b : Bool) (s : Str) (h : d ≠ c) :
    (Regex.cat (.chr (.lit c)) K).run b (d :: s) = [] := by
  rw [run_cat]
  simp [Regex.run, CharSet.accepts, h]

theorem seq_cons (r : Regex) (rs : List Regex) : Regex.seq (r :: rs) = .cat r (Regex.seq rs) :=
  rfl

theorem seq_nil : Regex.seq [] = .empty := rfl

theorem run_lits (x : Str) (R : List Regex) (b : Bool) (s : Str) (hx : x ≠ []) :
    (Regex.seq (x.map (fun c => Regex.chr (.lit c)) ++ R)).run b (x ++ s)
      = ((Regex.seq R).run false s).map
          (fun y => (⟨x ++ y.matched, y.caps, y.rest⟩ : Attempt)) := by
  induction x generalizing b with
  | nil => exact absurd rfl hx
  | cons c t ih =>
    simp only [List.map_cons, List.cons_append]
    rw [seq_cons, run_lit_cons]
    cases t with
    | nil => simp
    | cons d u =>
      rw [ih false (by simp)]
      simp

theorem accepts_notSlash (c : Char) : (CharSet.cls true ['/']).accepts c = true ↔ c ≠ '/' := by
  simp [CharSet.accepts]

theorem run_nodes_barrier (segs : List Seg) (n : Nat) (b : Bool) (c : Char) (t : Str)
    (hc : c ≠ '/') :
    (Regex.seq (nodesOf segs n ++ [.endText])).run b (c :: t) = [] := by
  cases segs with
  | nil =>
    simp only [nodesOf, List.nil_append]
    rw [seq_cons, seq_nil, run_cat_empty]
    simp [Regex.run]
  | cons seg rest =>
    cases seg with
    | lit text =>
      simp only [nodesOf, List.cons_append]
      rw [seq_cons]
      exact run_lit_ne '/' c _ b t hc
    | param name value =>
      simp only [nodesOf, List.cons_append]
      rw [seq_cons]
      exact run_lit_ne '/' c _ b t hc

theorem dirPath_nil_or_slash (l : List Str) : dirPath l = [] ∨ ∃ t, dirPath l = '/' :: t := by
  cases l with
  | nil => exact Or.inl rfl
  | cons s rest => exact Or.inr ⟨_, rfl⟩

theorem takeWhile_value (value r : Str) (hv : '/' ∉ value) (hr : r = [] ∨ ∃ t, r = '/' :: t) :
    (value ++ r).takeWhile (CharSet.cls true ['/']).accepts = value
      ∧ (value ++ r).dropWhile (CharSet.cls true ['/']).accepts = r := by
  have hall : ∀ c ∈ value, (CharSet.cls true ['/']).accepts c = true := by
    intro c hc
    exact (accepts_notSlash c).2 (fun e => hv (e ▸ hc))
  rw [List.takeWhile_append_of_pos hall, List.dropWhile_append_of_pos hall]
  rcases hr with h | ⟨t, h⟩
  · simp [h]
  · simp [h, List.takeWhile, List.dropWhile, CharSet.accepts]

/-- The compiled segments match the request path in exactly one way, each group
capturing the value of its segment. -/
theorem run_segs (segs : List Seg) (hv : ∀ seg ∈ segs, seg.Valid) (n : Nat) (b : Bool) :
    (Regex.seq (nodesOf segs n ++ [.endText])).run b (requestOf segs)
      = [⟨requestOf segs, capsOf segs n, []⟩] := by
  induction segs generalizing n b with
  | nil =>
    simp only [nodesOf, List.nil_append]
    rw [seq_cons, seq_nil, run_cat_empty]
    rfl
  | cons seg rest ih =>
    have ih' := ih (fun x hx => hv x (List.mem_cons_of_mem _ hx))
    have hseg := hv seg (List.mem_cons_self _ _)
    unfold requestOf at ih' ⊢
    cases seg with
    | lit text =>
      simp only [nodesOf, List.cons_append, List.map_cons, dirPath, Seg.requestText,
        capsOf, List.append_assoc]
      rw [seq_cons, run_lit_cons, run_lits text _ false _ hseg.1, ih']
      simp
    | param name value =>
      simp only [nodesOf, List.cons_append, List.map_cons, dirPath, Seg.requestText,
        capsOf]
      rw [seq_cons, seq_cons]
      have htw := takeWhile_value value (dirPath (rest.map Seg.requestText)) hseg.2.2
        (dirPath_nil_or_slash _)
      rw [run_lit_cons, run_cat_cap_plus (n + 1) _ _ false _
        (fun b' c t hc => run_nodes_barrier rest (n + 1) b' c t ((accepts_notSlash c).1 hc)),
        htw.1, htw.2, ih']
      simp [hseg.2.1]

theorem capsOf_lookup (segs : List Seg) (n : Nat) :
    (List.range (paramNamesOf segs).length).map
        (fun i => ((capsOf segs n).lookup (n + i + 1)).getD [])
      = paramValuesOf segs := by
  induction segs generalizing n with
  | nil => rfl
  | cons seg rest ih =>
    cases seg with
    | lit text => exact ih n
    | param name value =>
      simp only [paramNamesOf, capsOf, paramValuesOf, List.length_cons, List.range_succ_eq_map,
        List.map_cons, List.map_map]
      congr 1
      · simp [List.lookup]
      · rw [← ih (n + 1)]
        apply List.map_congr_left
        intro i _
        have hne : (n + (i + 1) + 1 == n + 1) = false := by
          apply beq_false_of_ne; omega
        simp only [Function.comp, List.lookup, hne]
        have e : n + (i + 1) + 1 = n + 1 + i + 1 := by omega
        rw [e]

theorem paramValuesOf_length (segs : List Seg) :
    (paramValuesOf segs).length = (paramNamesOf segs).length := by
  induction segs with
  | nil => rfl
  | cons seg rest ih =>
    cases seg with
    | lit text => exact ih
    | param name value => simp [paramNamesOf, paramValuesOf, ih]

/-- On the request path the compiled matcher returns the path and the values. -/
theorem findStringSubmatch_segs (segs : List Seg) (hv : ∀ seg ∈ segs, seg.Valid) :
    (Regexp.mk (Regex.seq (.beginText :: nodesOf segs 0 ++ [.endText]))
        (paramNamesOf segs).length).FindStringSubmatch (requestOf segs)
      = requestOf segs :: paramValuesOf segs := by
  have hrun : (Regex.seq (.beginText :: nodesOf segs 0 ++ [.endText])).run true (requestOf segs)
      = [⟨requestOf segs, capsOf segs 0, []⟩] := by
    rw [List.cons_append, seq_cons, run_cat]
    simp only [Regex.run, if_true, List.flatMap_cons, List.flatMap_nil, List.append_nil,
      List.isEmpty_nil, Bool.and_self]
    rw [run_segs segs hv 0 true]
    simp
  have hsearch : (Regexp.mk (Regex.seq (.beginText :: nodesOf segs 0 ++ [.endText]))
        (paramNamesOf segs).length).search true (requestOf segs)
      = some ([], ⟨requestOf segs, capsOf segs 0, []⟩) := by
    simp only [List.cons_append] at hrun ⊢
    cases hq : requestOf segs with
    | nil =>
      rw [hq] at hrun
      simp [Regexp.search, Regexp.matchHere, hrun]
    | cons c t =>
      rw [hq] at hrun
      simp [Regexp.search, Regexp.matchHere, hrun]
  unfold Regexp.FindStringSubmatch
  rw [hsearch]
  simp only [Attempt.submatches]
  have := capsOf_lookup segs 0
  simp only [Nat.zero_add] at this
  rw [this]

/-! ### The parameter map -/

theorem lookup_filter_ne (params : ParamMap) (k key : Str) (h : key ≠ k) :
    (params.filter (fun e => e.1 != k)).lookup key = params.lookup key := by
  induction params with
  | nil => rfl
  | cons e rest ih =>
    rcases e with ⟨a, b⟩
    by_cases hak : a = k
    · have hka : (key == k) = false := beq_false_of_ne h
      subst hak
      simp [List.filter, List.lookup, hka, ih]
    · have : (a != k) = true := by simpa using hak
      simp only [List.filter, this, List.lookup]
      rw [ih]

theorem get_set (params : ParamMap) (k v key : Str) :
    (params.set k v).get key = if key = k then some v else params.get key := by
  unfold StrMap.set StrMap.get
  by_cases h : key = k
  · simp [List.lookup, h]
  · have hb : (key == k) = false := beq_false_of_ne h
    simp only [List.lookup, hb, h, if_false]
    exact lookup_filter_ne params k key h

theorem lookup_zip_none (ns vs : List Str) (key : Str) (h : key ∉ ns) :
    (ns.zip vs).lookup key = none := by
  induction ns generalizing vs with
  | nil => rfl
  | cons n rest ih =>
    cases vs with
    | nil => rfl
    | cons v vs' =>
      have hne : (key == n) = false := beq_false_of_ne (fun e => h (by simp [e]))
      simp only [List.zip_cons_cons, List.lookup, hne]
      exact ih vs' (fun hm => h (List.mem_cons_of_mem _ hm))

theorem get_foldl_set (ns vs : List Str) (params : ParamMap) (key : Str) (hd : ns.Nodup) :
    ((ns.zip vs).foldl (fun p nv => p.set nv.1 nv.2) params).get key
      = match (ns.zip vs).lookup key with
        | some v => some v
        | none => params.get key := by
  induction ns generalizing vs params with
  | nil => rfl
  | cons n rest ih =>
    cases vs with
    | nil => rfl
    | cons v vs' =>
      have hd' := List.nodup_cons.1 hd
      simp only [List.zip_cons_cons, List.foldl_cons]
      rw [ih vs' _ hd'.2]
      by_cases hk : key = n
      · subst hk
        rw [lookup_zip_none rest vs' key hd'.1]
        simp [List.lookup, get_set]
      · have hb : (key == n) = false := beq_false_of_ne hk
        simp only [List.lookup, hb]
        cases (rest.zip vs').lookup key with
        | some w => rfl
        | none => simp [get_set, hk]

theorem bindParamsLoop_zip (names values : List Str) (pre : List Str) (i : Nat)
    (params : ParamMap) (hpre : pre.length = i + 1) (hlen : names.length = values.length) :
    bindParamsLoop (pre ++ values) i (names.map (fun n => ['[' :: n ++ [']'], n])) params
      = (names.zip values).foldl (fun p nv => p.set nv.1 nv.2) params := by
  induction names generalizing values pre i params with
  | nil => rfl
  | cons n rest ih =>
    cases values with
    | nil => simp at hlen
    | cons v vs =>
      have hlen' : rest.length = vs.length := by simpa using hlen
      have hlt : i + 1 < (pre ++ v :: vs).length := by simp [hpre]
      have hget : (pre ++ v :: vs).getD (i + 1) [] = v := by
        have hq : (pre ++ v :: vs)[pre.length]? = some v := by
          rw [List.getElem?_append_right (Nat.le_refl _)]
          simp
        rw [← hpre, List.getD_eq_getElem?_getD, hq]
        rfl
      simp only [List.map_cons, bindParamsLoop, List.zip_cons_cons, List.foldl_cons]
      have hcond : (i + 1 < (pre ++ v :: vs).length ∧ ['[' :: n ++ [']'], n].length > 1) := by
        exact ⟨hlt, by simp⟩
      rw [if_pos hcond, hget]
      have e : pre ++ v :: vs = (pre ++ [v]) ++ vs := by simp
      rw [e, ih vs (pre ++ [v]) (i + 1) _ (by simp [hpre]) hlen']
      rfl

theorem dirPath_getLast (l : List Str) (hl : l ≠ []) (h : ∀ s ∈ l, s ≠ [] ∧ '/' ∉ s) :
    ∃ c, (dirPath l).getLast? = some c ∧ c ≠ '/' := by
  induction l with
  | nil => exact absurd rfl hl
  | cons s rest ih =>
    have hs := h s (List.mem_cons_self _ _)
    by_cases hr : rest = []
    · subst hr
      rcases List.exists_cons_of_ne_nil hs.1 with ⟨a, t, rfl⟩
      refine ⟨(a :: t).getLast (by simp), ?_, ?_⟩
      · simp [dirPath, List.getLast?_eq_getLast]
      · intro e
        exact hs.2 (e ▸ List.getLast_mem _)
    · rcases ih hr (fun x hx => h x (List.mem_cons_of_mem _ hx)) with ⟨c, hc, hne⟩
      refine ⟨c, ?_, hne⟩
      have hne' : dirPath rest ≠ [] := by
        intro e; rw [e] at hc; simp at hc
      have e : dirPath (s :: rest) = ('/' :: s) ++ dirPath rest := rfl
      rw [e, List.getLast?_append_of_ne_nil _ hne']
      exact hc

theorem requestText_ok {seg : Seg} (h : seg.Valid) :
    seg.requestText ≠ [] ∧ '/' ∉ seg.requestText := by
  cases seg with
  | lit text => exact ⟨h.1, fun hm => (h.2 _ hm).1 rfl⟩
  | param name value => exact ⟨h.2.1, h.2.2⟩

theorem normalizePath_requestOf (segs : List Seg) (hne : segs ≠ [])
    (hv : ∀ seg ∈ segs, seg.Valid) : normalizePath (requestOf segs) = requestOf segs := by
  have hl : segs.map Seg.requestText ≠ [] := by simpa using hne
  have hall : ∀ s ∈ segs.map Seg.requestText, s ≠ [] ∧ '/' ∉ s := by
    intro s hs
    rcases List.mem_map.1 hs with ⟨seg, hseg, rfl⟩
    exact requestText_ok (hv seg hseg)
  rcases dirPath_getLast _ hl hall with ⟨c, hc, hcne⟩
  unfold requestOf
  have h0 : dirPath (segs.map Seg.requestText) ≠ [] := by
    intro e; rw [e] at hc; simp at hc
  have h1 : (dirPath (segs.map Seg.requestText)).getLast? ≠ some '/' := by
    rw [hc]; intro e; exact hcne (Option.some.inj e)
  exact normalizePath_of_not_slash _ h0 h1

theorem paramNamesOf_of_no_bracket (segs : List Seg)
    (h : containsChar (routeOf segs) '[' = false) : paramNamesOf segs = [] := by
  induction segs with
  | nil => rfl
  | cons seg rest ih =>
    have hmem : ∀ c ∈ routeOf (seg :: rest), ¬ c = '[' := by
      simpa [containsChar] using h
    cases seg with
    | lit text =>
      apply ih
      simp only [containsChar, List.any_eq_false, beq_iff_eq]
      intro c hc
      apply hmem c
      simp only [routeOf, List.map_cons, dirPath, Seg.routeText]
      simp only [routeOf] at hc
      simp [hc]
    | param name value =>
      exfalso
      apply hmem '[' _ rfl
      simp [routeOf, dirPath, Seg.routeText]

theorem extractParamNames_routeOf (segs : List Seg) (hv : ∀ seg ∈ segs, seg.Valid) :
    extractParamNames (routeOf segs) = paramNamesOf segs := by
  unfold extractParamNames
  rw [findAll_routeOf segs hv]
  generalize paramNamesOf segs = ns
  induction ns with
  | nil => rfl
  | cons n rest ih =>
    simp only [List.map_cons, extractParamNamesLoop]
    rw [extractParamNamesLoop_append, ih]
    simp

/-- C1 (amended): for a route path `/s1/.../sm` whose segments are each a whole
token `[name]` or a non-empty literal free of `/` and of the characters special
to the pattern parser, the token names being pairwise distinct, and for the
request path got by putting a non-empty value without `/` in the place of each
token, `extractParamsFromRequest` returns a map that binds each token name to
its value and has no other key; the token names are those `extractParamNames`
reports. -/
theorem extractParamsFromRequest_segments (segs : List Seg) (hv : ∀ seg ∈ segs, seg.Valid)
    (hd : (paramNamesOf segs).Nodup) :
    extractParamNames (routeOf segs) = paramNamesOf segs
      ∧ ∃ params, extractParamsFromRequest (requestOf segs) (routeOf segs) = .ok params
        ∧ ∀ key, params.get key = ((paramNamesOf segs).zip (paramValuesOf segs)).lookup key := by
  refine ⟨extractParamNames_routeOf segs hv, ?_⟩
  unfold extractParamsFromRequest
  simp only
  by_cases hb : containsChar (routeOf segs) '[' = true
  · have hne : segs ≠ [] := by
      intro e; rw [e] at hb; exact absurd hb (by decide)
    simp only [hb, Bool.not_true, Bool.false_eq_true, if_false]
    rw [compileMatcher_routeOf segs hv]
    simp only
    rw [normalizePath_requestOf segs hne hv, findStringSubmatch_segs segs hv]
    by_cases hlen : (requestOf segs :: paramValuesOf segs).length ≤ 1
    · have hvals : paramValuesOf segs = [] := by
        cases h : paramValuesOf segs with
        | nil => rfl
        | cons v vs => rw [h] at hlen; simp at hlen
      refine ⟨[], by rw [if_pos hlen], ?_⟩
      intro key
      rw [hvals]
      simp [StrMap.get]
    · simp only [hlen, if_false]
      refine ⟨_, rfl, ?_⟩
      intro key
      rw [findAll_routeOf segs hv]
      have e : requestOf segs :: paramValuesOf segs = [requestOf segs] ++ paramValuesOf segs := rfl
      rw [e, bindParamsLoop_zip _ _ [requestOf segs] 0 [] rfl (paramValuesOf_length segs).symm,
        get_foldl_set _ _ _ _ hd]
      cases ((paramNamesOf segs).zip (paramValuesOf segs)).lookup key with
      | some v => rfl
      | none => rfl
  · have hb' : containsChar (routeOf segs) '[' = false := by simpa using hb
    refine ⟨[], by simp [hb'], ?_⟩
    intro key
    rw [paramNamesOf_of_no_bracket segs hb']
    rfl

/-- C1 (witness): the amended statement at the route `/blog/[slug]/[id]` and the
request `/blog/hello/42`. -/
theorem extractParamsFromRequest_segments_witness :
    ∃ params,
      extractParamsFromRequest "/blog/hello/42".toList "/blog/[slug]/[id]".toList = .ok params
        ∧ params.get "slug".toList = some "hello".toList
        ∧ params.get "id".toList = some "42".toList
        ∧ params.get "blog".toList = none := by
  have hv : ∀ seg ∈ [Seg.lit "blog".toList, Seg.param "slug".toList "hello".toList,
      Seg.param "id".toList "42".toList], seg.Valid := by
    intro seg hseg
    simp only [List.mem_cons, List.mem_singleton, List.not_mem_nil, or_false] at hseg
    rcases hseg with rfl | rfl | rfl
    · exact ⟨by decide, by decide⟩
    · exact ⟨⟨by decide, by decide, by decide⟩, by decide, by decide⟩
    · exact ⟨⟨by decide, by decide, by decide⟩, by decide, by decide⟩
  obtain ⟨params, h1, h2⟩ := (extractParamsFromRequest_segments
    [Seg.lit "blog".toList, Seg.param "slug".toList "hello".toList,
      Seg.param "id".toList "42".toList] hv (by decide)).2
  exact ⟨params, h1, (h2 _).trans (by decide), (h2 _).trans (by decide),
    (h2 _).trans (by decide)⟩

/-- C1 (counterexample): the route `/[a][b]` has the two tokens `[a]` and `[b]`,
and `/xyz` is got from it by putting `x` for `[a]` and `yz` for `[b]`; yet the
map returned binds `a` to `xy` and `b` to `z`, not `a` to `x` and `b` to `yz`. -/
theorem extractParamsFromRequest_adjacent_tokens :
    extractParamNames "/[a][b]".toList = ["a".toList, "b".toList]
      ∧ "/xyz".toList = '/' :: ("x".toList ++ "yz".toList)
      ∧ extractParamsFromRequest "/xyz".toList "/[a][b]".toList
        = .ok [("b".toList, "z".toList), ("a".toList, "xy".toList)]
      ∧ ¬ ∃ params, extractParamsFromRequest "/xyz".toList "/[a][b]".toList = .ok params
          ∧ params.get "a".toList = some "x".toList
          ∧ params.get "b".toList = some "yz".toList := by
  have h : extractParamsFromRequest "/xyz".toList "/[a][b]".toList
      = .ok [("b".toList, "z".toList), ("a".toList, "xy".toList)] := by decide
  refine ⟨by decide, by decide, h, ?_⟩
  rintro ⟨params, h1, h2, _⟩
  rw [h] at h1
  cases h1
  revert h2
  decide

/-- C2 (the code at the failing inputs): the pattern is built from the raw path
text, so the `.` of the route `/a.b/[id]` matches any character and the matcher
accepts `/axb/7`, and the `(` of the route `/a(b/[id]` makes the pattern
malformed, on which `regexp.MustCompile` panics. -/
theorem compileMatcher_unescaped :
    (compileMatcher "/a.b/[id]".toList).map (fun re => re.MatchString "/axb/7".toList)
        = .ok true
      ∧ compileMatcher "/a(b/[id]".toList = .error .malformed := by
  decide

/-! ### What the matcher of a segment path accepts -/

theorem mem_run_lit {c : Char} {K : Regex} {b : Bool} {s : Str} {a : Attempt}
    (h : a ∈ (Regex.cat (.chr (.lit c)) K).run b s) :
    ∃ s' a', s = c :: s' ∧ a' ∈ K.run false s' := by
  cases s with
  | nil => simp [run_cat, Regex.run] at h
  | cons d t =>
    by_cases hd : d = c
    · subst hd
      rw [run_lit_cons] at h
      rcases List.mem_map.1 h with ⟨a', ha', _⟩
      exact ⟨t, a', rfl, ha'⟩
    · rw [run_lit_ne c d K b t hd] at h
      cases h

theorem mem_run_lits {x : Str} {R : List Regex} {b : Bool} {s : Str} {a : Attempt}
    (hx : x ≠ [])
    (h : a ∈ (Regex.seq (x.map (fun c => Regex.chr (.lit c)) ++ R)).run b s) :
    ∃ s' a', s = x ++ s' ∧ a' ∈ (Regex.seq R).run false s' := by
  induction x generalizing b s a with
  | nil => exact absurd rfl hx
  | cons c t ih =>
    simp only [List.map_cons, List.cons_append] at h
    rw [seq_cons] at h
    rcases mem_run_lit h with ⟨s1, a1, hs, ha1⟩
    cases t with
    | nil =>
      exact ⟨s1, a1, by simp [hs], by simpa using ha1⟩
    | cons d u =>
      rcases ih (by simp) ha1 with ⟨s2, a2, hs2, ha2⟩
      exact ⟨s2, a2, by rw [hs, hs2]; rfl, ha2⟩

/-- Whatever the compiled segments match is the request path of segments with
the same route texts. -/
theorem mem_run_segs (segs : List Seg) (hv : ∀ seg ∈ segs, seg.Valid) (n : Nat) (b : Bool)
    (q : Str) (a : Attempt)
    (h : a ∈ (Regex.seq (nodesOf segs n ++ [.endText])).run b q) :
    ∃ segs', (∀ seg ∈ segs', seg.Valid)
      ∧ segs'.map Seg.routeText = segs.map Seg.routeText ∧ q = requestOf segs' := by
  induction segs generalizing n b q a with
  | nil =>
    simp only [nodesOf, List.nil_append] at h
    rw [seq_cons, seq_nil, run_cat_empty] at h
    cases q with
    | nil => exact ⟨[], by simp, rfl, rfl⟩
    | cons c t => simp [Regex.run] at h
  | cons seg rest ih =>
    have ih' := ih (fun x hx => hv x (List.mem_cons_of_mem _ hx))
    have hseg := hv seg (List.mem_cons_self _ _)
    cases seg with
    | lit text =>
      simp only [nodesOf, List.cons_append, List.append_assoc] at h
      rw [seq_cons] at h
      rcases mem_run_lit h with ⟨s1, a1, hs1, ha1⟩
      rcases mem_run_lits hseg.1 ha1 with ⟨s2, a2, hs2, ha2⟩
      rcases ih' n false s2 a2 ha2 with ⟨segs', hv', hshape, hq⟩
      refine ⟨Seg.lit text :: segs', ?_, ?_, ?_⟩
      · intro x hx
        rcases List.mem_cons.1 hx with e | e
        · rw [e]; exact hseg
        · exact hv' x e
      · simp [hshape]
      · rw [hs1, hs2, hq]
        simp [requestOf, dirPath, Seg.requestText]
    | param name value =>
      simp only [nodesOf, List.cons_append] at h
      rw [seq_cons, seq_cons] at h
      rcases mem_run_lit h with ⟨s1, a1, hs1, ha1⟩
      rw [run_cat_cap_plus (n + 1) _ _ false _
        (fun b' c t hc => run_nodes_barrier rest (n + 1) b' c t ((accepts_notSlash c).1 hc))]
        at ha1
      by_cases htw : s1.takeWhile (CharSet.cls true ['/']).accepts = []
      · simp [htw] at ha1
      · simp only [htw, if_false] at ha1
        rcases List.mem_map.1 ha1 with ⟨a2, ha2, _⟩
        rcases ih' (n + 1) false _ a2 ha2 with ⟨segs', hv', hshape, hq⟩
        refine ⟨Seg.param name (s1.takeWhile (CharSet.cls true ['/']).accepts) :: segs',
          ?_, ?_, ?_⟩
        · intro x hx
          rcases List.mem_cons.1 hx with e | e
          · rw [e]
            refine ⟨hseg.1, htw, ?_⟩
            intro hm
            have := List.mem_takeWhile_imp hm
            simp [CharSet.accepts] at this
          · exact hv' x e
        · simp [hshape, Seg.routeText]
        · rw [hs1]
          simp only [requestOf, List.map_cons, dirPath, Seg.requestText]
          simp only [requestOf] at hq
          rw [← hq, List.cons_append, List.takeWhile_append_dropWhile]

theorem search_anchored_none (X : Regex) (k : Nat) (t : Str) :
    (Regexp.mk (.cat .beginText X) k).search false t = none := by
  induction t with
  | nil => simp [Regexp.search, Regexp.matchHere, run_cat, Regex.run]
  | cons c u ih => simp [Regexp.search, Regexp.matchHere, run_cat, Regex.run, ih]

/-- The matcher of a path of valid segments, by design: it is well formed and
accepts exactly the request paths got by putting a non-empty value without `/`
in the place of each token. -/
theorem compileMatcher_accepts_iff (segs : List Seg) (hv : ∀ seg ∈ segs, seg.Valid) (q : Str) :
    ∃ re, compileMatcher (routeOf segs) = .ok re
      ∧ (re.MatchString q = true
        ↔ ∃ segs', (∀ seg ∈ segs', seg.Valid)
            ∧ segs'.map Seg.routeText = segs.map Seg.routeText ∧ q = requestOf segs') := by
  refine ⟨_, compileMatcher_routeOf segs hv, ?_⟩
  constructor
  · intro hm
    unfold Regexp.MatchString at hm
    simp only [List.cons_append] at hm
    rw [seq_cons] at hm
    have hhere : ∃ a, a ∈ (Regex.cat .beginText
        (Regex.seq (nodesOf segs 0 ++ [.endText]))).run true q := by
      cases q with
      | nil =>
        simp only [Regexp.search, Regexp.matchHere] at hm
        cases hr : (Regex.cat .beginText (Regex.seq (nodesOf segs 0 ++ [.endText]))).run true []
          with
        | nil => rw [hr] at hm; simp at hm
        | cons a l => exact ⟨a, List.mem_cons_self _ _⟩
      | cons c t =>
        simp only [Regexp.search, Regexp.matchHere] at hm
        cases hr : (Regex.cat .beginText (Regex.seq (nodesOf segs 0 ++ [.endText]))).run true
          (c :: t) with
        | nil =>
          rw [hr] at hm
          simp only [List.head?_nil] at hm
          rw [search_anchored_none] at hm
          simp at hm
        | cons a l => exact ⟨a, List.mem_cons_self _ _⟩
    rcases hhere with ⟨a, ha⟩
    rw [run_cat] at ha
    simp only [Regex.run, if_true, List.flatMap_cons, List.flatMap_nil, List.append_nil,
      List.isEmpty_nil, Bool.and_self] at ha
    rcases List.mem_map.1 ha with ⟨a', ha', _⟩
    exact mem_run_segs segs hv 0 true q a' ha'
  · rintro ⟨segs', hv', hshape, rfl⟩
    have hnodes : ∀ (l l' : List Seg) (n : Nat), l'.map Seg.routeText = l.map Seg.routeText →
        (∀ seg ∈ l, seg.Valid) → (∀ seg ∈ l', seg.Valid) →
        nodesOf l' n = nodesOf l n ∧ (paramNamesOf l').length = (paramNamesOf l).length := by
      intro l
      induction l with
      | nil =>
        intro l' n h _ _
        cases l' with
        | nil => exact ⟨rfl, rfl⟩
        | cons x xs => simp at h
      | cons y ys ih =>
        intro l' n h hl hl'
        cases l' with
        | nil => simp at h
        | cons x xs =>
          simp only [List.map_cons, List.cons.injEq] at h
          have hy := hl y (List.mem_cons_self _ _)
          have hx := hl' x (List.mem_cons_self _ _)
          have hrec := fun m => ih xs m h.2 (fun s hs => hl s (List.mem_cons_of_mem _ hs))
            (fun s hs => hl' s (List.mem_cons_of_mem _ hs))
          cases x with
          | lit tx =>
            cases y with
            | lit ty =>
              simp only [Seg.routeText] at h
              simp only [nodesOf, paramNamesOf, h.1, (hrec n).1, (hrec n).2]
              exact ⟨trivial, trivial⟩
            | param ny vy =>
              exfalso
              simp only [Seg.routeText] at h
              have hm : '[' ∈ tx := by rw [h.1]; simp
              exact (hx.2 _ hm).2 (by decide)
          | param nx vx =>
            cases y with
            | lit ty =>
              exfalso
              simp only [Seg.routeText] at h
              have hm : '[' ∈ ty := by rw [← h.1]; simp
              exact (hy.2 _ hm).2 (by decide)
            | param ny vy =>
              simp only [nodesOf, paramNamesOf, (hrec (n + 1)).1, (hrec (n + 1)).2,
                List.length_cons]
              exact ⟨trivial, trivial⟩
    have hn := hnodes segs segs' 0 hshape hv hv'
    have hfs := findStringSubmatch_segs segs' hv'
    rw [hn.1, hn.2] at hfs
    unfold Regexp.FindStringSubmatch at hfs
    unfold Regexp.MatchString
    cases hsr : (Regexp.mk (Regex.seq (.beginText :: nodesOf segs 0 ++ [.endText]))
        (paramNamesOf segs).length).search true (requestOf segs') with
    | none => rw [hsr] at hfs; simp at hfs
    | some pa => rfl

/-! ## `Router.ServeHTTP` -/

theorem find?_first {α : Type} (p : α → Bool) (pre : List α) (a : α) (post : List α)
    (hpre : ∀ x ∈ pre, p x = false) (ha : p a = true) :
    (pre ++ a :: post).find? p = some a := by
  induction pre with
  | nil => simp [List.find?, ha]
  | cons x xs ih =>
    have hx := hpre x (List.mem_cons_self _ _)
    simp only [List.cons_append, List.find?, hx]
    exact ih (fun y hy => hpre y (List.mem_cons_of_mem _ hy))

theorem find?_none_of {α : Type} (p : α → Bool) (l : List α) (h : ∀ x ∈ l, p x = false) :
    l.find? p = none := by
  induction l with
  | nil => rfl
  | cons x xs ih =>
    simp only [List.find?, h x (List.mem_cons_self _ _)]
    exact ih (fun y hy => h y (List.mem_cons_of_mem _ hy))

theorem find?_some_holds {α : Type} (p : α → Bool) (l : List α) (a : α)
    (h : l.find? p = some a) : p a = true ∧ a ∈ l := by
  induction l with
  | nil => simp [List.find?] at h
  | cons x xs ih =>
    by_cases hx : p x = true
    · simp only [List.find?, hx] at h
      cases h
      exact ⟨hx, List.mem_cons_self _ _⟩
    · have hx' : p x = false := by simpa using hx
      simp only [List.find?, hx'] at h
      exact ⟨(ih h).1, List.mem_cons_of_mem _ (ih h).2⟩

theorem find?_eq_none_all {α : Type} (p : α → Bool) (l : List α) (h : l.find? p = none) :
    ∀ x ∈ l, p x = false := by
  induction l with
  | nil => intro x hx; cases hx
  | cons y ys ih =>
    by_cases hy : p y = true
    · simp [List.find?, hy] at h
    · have hy' : p y = false := by simpa using hy
      simp only [List.find?, hy'] at h
      intro x hx
      rcases List.mem_cons.1 hx with e | e
      · rw [e]; exact hy'
      · exact ih h x e

theorem not_static_of_api (path : Str) (h : hasPrefix path "/api".toList = true) :
    hasPrefix path "/static".toList = false := by
  rcases (hasPrefix_iff _ _).1 h with ⟨t, rfl⟩
  rfl

/-- The part of `Router.ServeHTTP` behind the static branch. -/
theorem ServeHTTP_not_static {H T : Type} (r : Router H T) (reqPath : Str)
    (hs : hasPrefix (normalizePath reqPath) "/static".toList = false) :
    (r.ServeHTTP reqPath).2
      = if hasPrefix (normalizePath reqPath) "/api".toList then
          match r.Routes.find? (Route.servesAPI (normalizePath reqPath)) with
          | some route =>
            .serve route ((r.GlobalMiddleware.getD (NewMiddlewareChain H)).Then
              (route.chain.Then route.Handler))
          | none => .httpError "API endpoint not found".toList 404
        else
          match r.Routes.find? (Route.servesExact (normalizePath reqPath)) with
          | some route =>
            .serve route ((r.GlobalMiddleware.getD (NewMiddlewareChain H)).Then
              (route.chain.Then route.Handler))
          | none =>
            match r.Routes.find? (Route.servesParam (normalizePath reqPath)) with
            | some route =>
              .serve route ((r.GlobalMiddleware.getD (NewMiddlewareChain H)).Then
                (route.chain.Then route.Handler))
            | none => .errorPage 404 := by
  unfold Router.ServeHTTP
  simp only [hs, Bool.false_eq_true, if_false]

theorem servesAPI_iff {H : Type} (path : Str) (route : Route H) :
    route.servesAPI path = true
      ↔ route.IsAPI = true ∧ (path = route.Path ∨ route.Path ++ ['/'] <+: path) := by
  simp [Route.servesAPI, hasPrefix_iff]

/-- C8: for a request whose normalized path begins with `/api` (such a path is
never taken by the static branch), `Router.ServeHTTP` serves the first API route
in table order whose `Path` equals the path or is followed by `/` at the start
of the path, wrapped as `global.Then(route.Then(handler))`; when no API route
passes this test it answers 404 with the body `API endpoint not found`, which
is neither a page route nor the error page. -/
theorem ServeHTTP_api {H T : Type} (r : Router H T) (reqPath : Str)
    (hapi : hasPrefix (normalizePath reqPath) "/api".toList = true) :
    (∀ pre route post, r.Routes = pre ++ route :: post →
        (route.IsAPI = true ∧ (normalizePath reqPath = route.Path
          ∨ route.Path ++ ['/'] <+: normalizePath reqPath)) →
        (∀ x ∈ pre, ¬ (x.IsAPI = true ∧ (normalizePath reqPath = x.Path
          ∨ x.Path ++ ['/'] <+: normalizePath reqPath))) →
        (r.ServeHTTP reqPath).2
          = .serve route ((r.GlobalMiddleware.getD (NewMiddlewareChain H)).Then
              ((route.Middleware.getD (NewMiddlewareChain H)).Then route.Handler)))
      ∧ ((∀ x ∈ r.Routes, ¬ (x.IsAPI = true ∧ (normalizePath reqPath = x.Path
          ∨ x.Path ++ ['/'] <+: normalizePath reqPath))) →
        (r.ServeHTTP reqPath).2 = .httpError "API endpoint not found".toList 404) := by
  rw [ServeHTTP_not_static r reqPath (not_static_of_api _ hapi)]
  simp only [hapi, if_true]
  constructor
  · intro pre route post hr hroute hpre
    have h1 : r.Routes.find? (Route.servesAPI (normalizePath reqPath)) = some route := by
      rw [hr]
      apply find?_first
      · intro x hx
        have := hpre x hx
        rw [← servesAPI_iff] at this
        simpa using this
      · exact (servesAPI_iff _ _).2 hroute
    rw [h1]
    rfl
  · intro hall
    have h1 : r.Routes.find? (Route.servesAPI (normalizePath reqPath)) = none := by
      apply find?_none_of
      intro x hx
      have := hall x hx
      rw [← servesAPI_iff] at this
      simpa using this
    rw [h1]

/-- C8 (witness): with the API routes `/api/users` and `/api/test`, the request
`/api/test/42/` is served by `/api/test` under the global middleware. -/
theorem ServeHTTP_api_witness :
    ((sampleRouter [sampleRoute "/api/users".toList true,
        sampleRoute "/api/test".toList true]).ServeHTTP "/api/test/42/".toList).2
      = .serve (sampleRoute "/api/test".toList true) "log(/api/test)" :=
  (ServeHTTP_api (sampleRouter [sampleRoute "/api/users".toList true,
      sampleRoute "/api/test".toList true]) "/api/test/42/".toList (by decide)).1
    [sampleRoute "/api/users".toList true] (sampleRoute "/api/test".toList true) [] rfl
    (by decide) (by decide)

/-- C9: for a request whose normalized path begins with neither `/static` nor
`/api`: the first non-parameterized page route whose `Path` equals the path is
served, whatever parameterized routes stand before it in the table; a
parameterized route is served only when no such exact route exists, and then
it is the first whose matcher accepts the path; the 404 error page is served
exactly when no route of either kind matches. -/
theorem ServeHTTP_pages {H T : Type} (r : Router H T) (reqPath : Str)
    (hstatic : hasPrefix (normalizePath reqPath) "/static".toList = false)
    (hapi : hasPrefix (normalizePath reqPath) "/api".toList = false) :
    (∀ pre route post, r.Routes = pre ++ route :: post →
        route.servesExact (normalizePath reqPath) = true →
        (∀ x ∈ pre, x.servesExact (normalizePath reqPath) = false) →
        (r.ServeHTTP reqPath).2
          = .serve route ((r.GlobalMiddleware.getD (NewMiddlewareChain H)).Then
              ((route.Middleware.getD (NewMiddlewareChain H)).Then route.Handler)))
      ∧ (∀ route handler, (r.ServeHTTP reqPath).2 = .serve route handler →
          route.IsParam = true →
          route.servesParam (normalizePath reqPath) = true
            ∧ ∀ x ∈ r.Routes, x.servesExact (normalizePath reqPath) = false)
      ∧ (∀ pre route post, r.Routes = pre ++ route :: post →
          (∀ x ∈ r.Routes, x.servesExact (normalizePath reqPath) = false) →
          route.servesParam (normalizePath reqPath) = true →
          (∀ x ∈ pre, x.servesParam (normalizePath reqPath) = false) →
          (r.ServeHTTP reqPath).2
            = .serve route ((r.GlobalMiddleware.getD (NewMiddlewareChain H)).Then
                ((route.Middleware.getD (NewMiddlewareChain H)).Then route.Handler)))
      ∧ ((r.ServeHTTP reqPath).2 = .errorPage 404
          ↔ ∀ x ∈ r.Routes, x.servesExact (normalizePath reqPath) = false
              ∧ x.servesParam (normalizePath reqPath) = false) := by
  rw [ServeHTTP_not_static r reqPath hstatic]
  simp only [hapi, Bool.false_eq_true, if_false]
  refine ⟨?_, ?_, ?_, ?_⟩
  · intro pre route post hr hroute hpre
    rw [hr, find?_first _ pre route post hpre hroute]
    rfl
  · intro route handler hd hp
    cases he : r.Routes.find? (Route.servesExact (normalizePath reqPath)) with
    | some r0 =>
      rw [he] at hd
      simp only [Dispatch.serve.injEq] at hd
      have h0 := (find?_some_holds _ _ _ he).1
      rw [hd.1] at h0
      simp [Route.servesExact, hp] at h0
    | none =>
      rw [he] at hd
      refine ⟨?_, find?_eq_none_all _ _ he⟩
      cases hq : r.Routes.find? (Route.servesParam (normalizePath reqPath)) with
      | some r1 =>
        rw [hq] at hd
        simp only [Dispatch.serve.injEq] at hd
        rw [← hd.1]
        exact (find?_some_holds _ _ _ hq).1
      | none =>
        rw [hq] at hd
        cases hd
  · intro pre route post hr hex hroute hpre
    rw [find?_none_of _ _ hex]
    simp only
    rw [hr, find?_first _ pre route post hpre hroute]
    rfl
  · constructor
    · intro hd
      cases he : r.Routes.find? (Route.servesExact (normalizePath reqPath)) with
      | some r0 => rw [he] at hd; cases hd
      | none =>
        rw [he] at hd
        cases hq : r.Routes.find? (Route.servesParam (normalizePath reqPath)) with
        | some r1 => rw [hq] at hd; cases hd
        | none =>
          intro x hx
          exact ⟨find?_eq_none_all _ _ he x hx, find?_eq_none_all _ _ hq x hx⟩
    · intro hall
      rw [find?_none_of _ _ (fun x hx => (hall x hx).1)]
      simp only
      rw [find?_none_of _ _ (fun x hx => (hall x hx).2)]

/-- C9 (witness): with the parameterized route `/[section]` registered before
the exact route `/about`, the request `/about/` is served by `/about`. -/
theorem ServeHTTP_pages_witness :
    (sampleRoute "/[section]".toList false).servesParam "/about".toList = true
      ∧ ((sampleRouter [sampleRoute "/[section]".toList false,
          sampleRoute "/about".toList false]).ServeHTTP "/about/".toList).2
        = .serve (sampleRoute "/about".toList false) "log(/about)" :=
  ⟨by decide,
    (ServeHTTP_pages (sampleRouter [sampleRoute "/[section]".toList false,
        sampleRoute "/about".toList false]) "/about/".toList (by decide) (by decide)).1
      [sampleRoute "/[section]".toList false] (sampleRoute "/about".toList false) [] rfl
      (by decide) (by decide)⟩

/-! ## `Marley.LoadTemplates` -/

theorem loadComponents_keeps {T : Type} (m : Marley T) (env : LoadEnv T) :
    (m.loadComponents env).1.Templates = m.Templates
      ∧ (m.loadComponents env).1.cacheExpiry = m.cacheExpiry
      ∧ (m.loadComponents env).1.cacheTTL = m.cacheTTL
      ∧ ((m.loadComponents env).2 ≠ none → (m.loadComponents env).1 = m) := by
  unfold Marley.loadComponents
  rcases loadComponentsWalk env (env.fs.walk env.cfg.ComponentDir) [] with ⟨cache, err⟩
  cases err with
  | none => simp
  | some e =>
    by_cases hne : e.notExist = true
    · simp [hne]
    · simp [hne]

/-- What a failed load does keep: the templates, the expiry time and the TTL of
the store are those from before the call; and a failure of the component load
itself leaves the whole store as it was. -/
theorem LoadTemplates_error_keeps {T : Type} (m : Marley T) (env : LoadEnv T)
    (herr : (m.LoadTemplates env).2 ≠ none) :
    (m.LoadTemplates env).1.Templates = m.Templates
      ∧ (m.LoadTemplates env).1.cacheExpiry = m.cacheExpiry
      ∧ (m.LoadTemplates env).1.cacheTTL = m.cacheTTL
      ∧ ((m.loadComponents env).2 ≠ none → (m.LoadTemplates env).1 = m) := by
  have hk := loadComponents_keeps m env
  unfold Marley.LoadTemplates at herr ⊢
  simp only at herr ⊢
  split at herr
  · exact absurd rfl herr
  · rename_i hfresh
    simp only [hfresh, if_false]
    rcases hlc : m.loadComponents env with ⟨m1, cerr⟩
    rw [hlc] at hk herr
    simp only at hk herr ⊢
    cases cerr with
    | some e =>
      simp only
      have := hk.2.2.2 (by simp)
      exact ⟨hk.1, hk.2.1, hk.2.2.1, fun _ => this⟩
    | none =>
      simp only at herr ⊢
      cases hl : env.fs.readFile env.cfg.LayoutPath with
      | error e =>
        simp only
        exact ⟨hk.1, hk.2.1, hk.2.2.1, fun h => absurd rfl h⟩
      | ok layoutContent =>
        rw [hl] at herr
        simp only at herr ⊢
        cases hw : templatePathsWalk env (env.fs.walk env.cfg.AppDir) [] with
        | error e =>
          simp only
          exact ⟨hk.1, hk.2.1, hk.2.2.1, fun h => absurd rfl h⟩
        | ok templatePaths =>
          rw [hw] at herr
          simp only at herr ⊢
          cases hc : compileTemplates env layoutContent m1.ComponentsCache templatePaths [] with
          | error e =>
            simp only
            exact ⟨hk.1, hk.2.1, hk.2.2.1, fun h => absurd rfl h⟩
          | ok templates =>
            rw [hc] at herr
            exact absurd rfl herr

/-- C10 (the code at the failing input): a reload of a loaded store in which the
components load and the page then fails to compile returns the compile error,
keeps the old templates and expiry time, and has already replaced the component
cache. -/
theorem LoadTemplates_not_all_or_nothing :
    (loadedStore.LoadTemplates brokenPageEnv).2
        = some ⟨"template: unexpected EOF".toList, false⟩
      ∧ (loadedStore.LoadTemplates brokenPageEnv).1.Templates = loadedStore.Templates
      ∧ (loadedStore.LoadTemplates brokenPageEnv).1.cacheExpiry = loadedStore.cacheExpiry
      ∧ loadedStore.ComponentsCache = [("nav".toList, "old nav".toList)]
      ∧ (loadedStore.LoadTemplates brokenPageEnv).1.ComponentsCache
        = [("nav".toList, "new nav".toList)] := by
  decide

/-! ## The cache of the template store -/

theorem LoadTemplates_eq {T : Type} (m : Marley T) (env : LoadEnv T) :
    m.LoadTemplates env = if m.cacheFresh env then (m, none) else m.loadFromDisk env := rfl

theorem LoadTemplates_fresh {T : Type} (m : Marley T) (env : LoadEnv T)
    (h : m.cacheFresh env = true) : m.LoadTemplates env = (m, none) := by
  rw [LoadTemplates_eq, if_pos h]

theorem loadFromDisk_ok_expiry {T : Type} (m : Marley T) (env : LoadEnv T)
    (hcache : env.cfg.TemplateCache = true) (hok : (m.loadFromDisk env).2 = none) :
    (m.loadFromDisk env).1.cacheExpiry = some (env.now + m.cacheTTL)
      ∧ (m.loadFromDisk env).1.cacheTTL = m.cacheTTL := by
  have hk := loadComponents_keeps m env
  unfold Marley.loadFromDisk at hok ⊢
  rcases hlc : m.loadComponents env with ⟨m1, cerr⟩
  rw [hlc] at hk hok
  simp only at hk hok ⊢
  cases cerr with
  | some e => simp at hok
  | none =>
    simp only at hok ⊢
    cases hl : env.fs.readFile env.cfg.LayoutPath with
    | error e => rw [hl] at hok; simp at hok
    | ok layoutContent =>
      rw [hl] at hok
      simp only at hok ⊢
      cases hw : templatePathsWalk env (env.fs.walk env.cfg.AppDir) [] with
      | error e => rw [hw] at hok; simp at hok
      | ok templatePaths =>
        rw [hw] at hok
        simp only at hok ⊢
        cases hc : compileTemplates env layoutContent m1.ComponentsCache templatePaths [] with
        | error e => rw [hc] at hok; simp at hok
        | ok templates =>
          simp only [hcache, if_true, hk.2.2.1]
          exact ⟨trivial, trivial⟩

theorem loadSequence_fresh {T : Type} (m : Marley T) (envs : List (LoadEnv T))
    (h : ∀ env ∈ envs, m.cacheFresh env = true) :
    loadSequence m envs = (m, 0) := by
  induction envs with
  | nil => rfl
  | cons env rest ih =>
    have h1 := h env (List.mem_cons_self _ _)
    simp only [loadSequence, LoadTemplates_fresh m env h1, h1, if_true,
      ih (fun e he => h e (List.mem_cons_of_mem _ he))]

/-- C13 (counterexample): the store loaded at time 1000 with a TTL of 300 has the
expiry time 1300.  A `LoadTemplates` call at `t0 = 1200` succeeds on the fresh
cache and leaves the expiry time at 1300, for only a load from the file system
sets it.  The call at time 1400, before `t0 + cacheTTL = 1500` and with caching
on, then finds the cache expired, scans the file system, and changes the
templates (the page `/new` was added) and the expiry time. -/
theorem LoadTemplates_cache_hit_keeps_expiry :
    (loadedStore.LoadTemplates siblingEnv).1.cacheExpiry = some 1300
      ∧ (loadedStore.LoadTemplates siblingEnv).1.cacheTTL = 300
      ∧ ({ siblingEnv with now := 1200 } : LoadEnv String).cfg.TemplateCache = true
      ∧ ((loadedStore.LoadTemplates siblingEnv).1.LoadTemplates
          { siblingEnv with now := 1200 }).2 = none
      ∧ ((loadedStore.LoadTemplates siblingEnv).1.LoadTemplates
          { siblingEnv with now := 1200 }).1.cacheExpiry = some 1300
      ∧ ((loadedStore.LoadTemplates siblingEnv).1.LoadTemplates
          { siblingEnv with now := 1200 }).1.Templates
        = [("/about".toList, "app/about.html")]
      ∧ expiredPageEnv.cfg.TemplateCache = true
      ∧ expiredPageEnv.now
        < ({ siblingEnv with now := 1200 } : LoadEnv String).now
          + ((loadedStore.LoadTemplates siblingEnv).1.LoadTemplates
              { siblingEnv with now := 1200 }).1.cacheTTL
      ∧ ((loadedStore.LoadTemplates siblingEnv).1.LoadTemplates
          { siblingEnv with now := 1200 }).1.cacheFresh expiredPageEnv = false
      ∧ (((loadedStore.LoadTemplates siblingEnv).1.LoadTemplates
          { siblingEnv with now := 1200 }).1.LoadTemplates expiredPageEnv).2 = none
      ∧ (((loadedStore.LoadTemplates siblingEnv).1.LoadTemplates
          { siblingEnv with now := 1200 }).1.LoadTemplates expiredPageEnv).1.Templates
        = [("/new".toList, "app/new.html"), ("/about".toList, "app/about.html")]
      ∧ (((loadedStore.LoadTemplates siblingEnv).1.LoadTemplates
          { siblingEnv with now := 1200 }).1.LoadTemplates expiredPageEnv).1.cacheExpiry
        = some 1700 := by
  decide

/-- C13 (amended): with template caching enabled, after a `LoadTemplates` call
that went past the cache test (the cache was not fresh), loaded from the file
system and succeeded at time `t0`, every call at a time before `t0 + cacheTTL`
returns success whatever the file system holds and leaves the store (templates,
component cache, expiry time) as it is, so that the first load and any number
of such calls make exactly one scan; after `SetCacheTTL` or `InvalidateCache`
the next call loads from the file system again. -/
theorem LoadTemplates_idempotent_within_TTL {T : Type} (m : Marley T) (env0 : LoadEnv T)
    (hcache : env0.cfg.TemplateCache = true) (hscan : m.cacheFresh env0 = false)
    (hok : (m.LoadTemplates env0).2 = none) :
    (∀ env : LoadEnv T, env.cfg.TemplateCache = true → env.now < env0.now + m.cacheTTL →
        (m.LoadTemplates env0).1.LoadTemplates env = ((m.LoadTemplates env0).1, none))
      ∧ (∀ envs : List (LoadEnv T),
          (∀ env ∈ envs, env.cfg.TemplateCache = true ∧ env.now < env0.now + m.cacheTTL) →
          loadSequence m (env0 :: envs) = ((m.LoadTemplates env0).1, 1))
      ∧ (∀ env : LoadEnv T,
          (m.LoadTemplates env0).1.InvalidateCache.LoadTemplates env
            = (m.LoadTemplates env0).1.InvalidateCache.loadFromDisk env)
      ∧ (∀ (env : LoadEnv T) (duration : Int),
          ((m.LoadTemplates env0).1.SetCacheTTL duration).LoadTemplates env
            = ((m.LoadTemplates env0).1.SetCacheTTL duration).loadFromDisk env) := by
  have hm1 : m.LoadTemplates env0 = m.loadFromDisk env0 := by
    rw [LoadTemplates_eq, hscan]; rfl
  rw [hm1] at hok ⊢
  have hexp := loadFromDisk_ok_expiry m env0 hcache hok
  have hfresh : ∀ env : LoadEnv T, env.cfg.TemplateCache = true →
      env.now < env0.now + m.cacheTTL → (m.loadFromDisk env0).1.cacheFresh env = true := by
    intro env hc hlt
    unfold Marley.cacheFresh
    rw [hexp.1]
    simp [hc, hlt]
  refine ⟨fun env hc hlt => LoadTemplates_fresh _ env (hfresh env hc hlt), ?_, ?_, ?_⟩
  · intro envs henvs
    simp only [loadSequence, hscan, hm1]
    rw [loadSequence_fresh _ envs (fun env he => hfresh env (henvs env he).1 (henvs env he).2)]
    rfl
  · intro env
    rw [LoadTemplates_eq]
    rfl
  · intro env duration
    rw [LoadTemplates_eq]
    rfl

/-- C13 (witness): the store of the sample content root, loaded at time 1000
with a TTL of 300, is not loaded again at time 1299. -/
theorem LoadTemplates_idempotent_within_TTL_witness :
    (loadedStore.LoadTemplates siblingEnv).1.LoadTemplates { siblingEnv with now := 1299 }
      = ((loadedStore.LoadTemplates siblingEnv).1, none) :=
  (LoadTemplates_idempotent_within_TTL loadedStore siblingEnv (by decide) (by decide)
    (by decide)).1 { siblingEnv with now := 1299 } (by decide) (by decide)

/-! ## The page files of a load -/

/-- C14 (the code at the failing input): with the component directory
`app/components`, the files `app/components-old/x.html` and
`app/componentsfoo.html` are not in the component directory, yet the scan does
not take them as pages and the load gives them no template, because it tests
the path text for the prefix `app/components`. -/
theorem templatePathsWalk_drops_siblings :
    templatePathsWalk siblingEnv (siblingEnv.fs.walk siblingEnv.cfg.AppDir) []
        = .ok ["app/about.html".toList]
      ∧ (loadedStore.LoadTemplates siblingEnv).2 = none
      ∧ (loadedStore.LoadTemplates siblingEnv).1.Templates
        = [("/about".toList, "app/about.html")]
      ∧ getRoutePathFromFile .unix "app/components-old/x.html".toList "app".toList
        = "/components-old/x".toList
      ∧ getRoutePathFromFile .unix "app/componentsfoo.html".toList "app".toList
        = "/componentsfoo".toList := by
  decide

/-! ## `Router.InitRoutes` -/

/-- C11 (counterexample): a router that serves `/about` is reloaded while the
only page fails to compile; `InitRoutes` returns the error and the route table
is empty, not the one from before. -/
theorem InitRoutes_error_clears_table :
    ((sampleRouter [sampleRoute "/about".toList false]).InitRoutes
        (sampleInitEnv brokenPageEnv)).map (fun res => (routePaths res.1.Routes, res.2))
      = .ok ([], some ⟨"failed to load templates: template: unexpected EOF".toList, false⟩)
      ∧ routePaths (sampleRouter [sampleRoute "/about".toList false]).Routes
        = ["/about".toList] := by
  decide

theorem API_routes {H T : Type} (r : Router H T) (hs : HandlerSet H) (path : Str)
    (fn : APIFunc) :
    (r.API hs path fn).Routes = r.Routes ++ [apiRoute hs path fn] := rfl

theorem mem_builtinAPIRoutes {H T : Type} (env : InitEnv H T) (x : Route H)
    (hx : x ∈ builtinAPIRoutes env) : x.IsAPI = true ∧ x.IsStatic = false := by
  unfold builtinAPIRoutes at hx
  simp only at hx
  split at hx
  · cases hx
  · rcases List.mem_append.1 hx with h | h
    · split at h
      · simp only [List.mem_cons, List.mem_singleton, List.not_mem_nil, or_false] at h
        rcases h with rfl | rfl <;> exact ⟨rfl, rfl⟩
      · cases h
    · split at h
      · simp only [List.mem_singleton] at h
        rw [h]; exact ⟨rfl, rfl⟩
      · cases h

theorem loadAPIRoutes_shape {H T : Type} (r : Router H T) (env : InitEnv H T) :
    (r.loadAPIRoutes env).2.2 = none
      ∧ (r.loadAPIRoutes env).1.Marley = r.Marley
      ∧ (r.loadAPIRoutes env).1.GlobalMiddleware = r.GlobalMiddleware
      ∧ (r.loadAPIRoutes env).1.Routes = r.Routes ++ builtinAPIRoutes env := by
  unfold Router.loadAPIRoutes builtinAPIRoutes
  simp only
  split
  · exact ⟨rfl, rfl, rfl, by simp⟩
  · cases env.stat (env.join (env.join env.load.cfg.AppDir "api".toList) "users".toList) with
    | none =>
      cases env.stat (env.join (env.join env.load.cfg.AppDir "api".toList) "test".toList) with
      | none =>
        refine ⟨rfl, rfl, rfl, ?_⟩
        simp only [API_routes, List.append_assoc]
        rfl
      | some e2 =>
        refine ⟨rfl, rfl, rfl, ?_⟩
        simp only [API_routes, List.append_assoc]
        rfl
    | some e1 =>
      cases env.stat (env.join (env.join env.load.cfg.AppDir "api".toList) "test".toList) with
      | none =>
        refine ⟨rfl, rfl, rfl, ?_⟩
        simp only [API_routes]
        rfl
      | some e2 => exact ⟨rfl, rfl, rfl, by simp⟩

theorem addPageRoute_shape {H T : Type} (hs : HandlerSet H) (r r' : Router H T) (routePath : Str)
    (h : r.addPageRoute hs routePath = .ok r') :
    r'.Marley = r.Marley ∧ r'.GlobalMiddleware = r.GlobalMiddleware
      ∧ ∃ route, r'.Routes = r.Routes ++ [route] ∧ route.Path = routePath
          ∧ route.IsStatic = false ∧ route.IsAPI = false := by
  unfold Router.addPageRoute at h
  simp only at h
  split at h
  · exact absurd h (by simp)
  · rename_i pattern _
    have h' := Except.ok.inj h
    subst h'
    exact ⟨rfl, rfl, _, rfl, rfl, rfl, rfl⟩

theorem addPageRoutes_shape {H T : Type} (hs : HandlerSet H) (entries : List (Str × T))
    (r r' : Router H T) (h : Router.addPageRoutes hs r entries = .ok r') :
    r'.Marley = r.Marley ∧ r'.GlobalMiddleware = r.GlobalMiddleware
      ∧ ∃ pages, r'.Routes = r.Routes ++ pages
          ∧ routePaths pages = entries.map (fun e => e.1)
          ∧ ∀ x ∈ pages, x.IsStatic = false ∧ x.IsAPI = false := by
  induction entries generalizing r with
  | nil =>
    have h' := Except.ok.inj h
    subst h'
    exact ⟨rfl, rfl, [], by simp, rfl, by simp⟩
  | cons entry rest ih =>
    unfold Router.addPageRoutes at h
    cases h1 : r.addPageRoute hs entry.1 with
    | error e => rw [h1] at h; exact absurd h (by simp)
    | ok r1 =>
      rw [h1] at h
      simp only at h
      rcases addPageRoute_shape hs r r1 entry.1 h1 with ⟨hm1, hg1, route, hr1, hp1, hs1, ha1⟩
      rcases ih r1 h with ⟨hm, hg, pages, hr, hp, hall⟩
      refine ⟨hm.trans hm1, hg.trans hg1, route :: pages, ?_, ?_, ?_⟩
      · rw [hr, hr1]; simp
      · simp [routePaths, hp1] at hp ⊢
        exact hp
      · intro x hx
        rcases List.mem_cons.1 hx with e | e
        · rw [e]; exact ⟨hs1, ha1⟩
        · exact hall x e

/-- The shape of the table after a successful `InitRoutes`: the static route,
then one page route per template in the order of `range`, then the API routes;
the store is the one the template load returned. -/
theorem InitRoutes_ok_shape {H T : Type} (r r' : Router H T) (env : InitEnv H T)
    (h : r.InitRoutes env = .ok (r', none)) :
    (r.Marley.LoadTemplates env.load).2 = none
      ∧ r'.Marley = (r.Marley.LoadTemplates env.load).1
      ∧ r'.GlobalMiddleware = r.GlobalMiddleware
      ∧ ∃ pages, r'.Routes
            = staticRoute env.handlers r.StaticDir :: pages ++ builtinAPIRoutes env
          ∧ routePaths pages = (env.rangeOrder r'.Marley.Templates).map (fun e => e.1)
          ∧ (∀ x ∈ pages, x.IsStatic = false ∧ x.IsAPI = false) := by
  unfold Router.InitRoutes at h
  simp only at h
  rcases hl : r.Marley.LoadTemplates env.load with ⟨m, lerr⟩
  rw [hl] at h
  cases lerr with
  | some e => simp at h
  | none =>
    simp only at h
    split at h
    · exact absurd h (by simp)
    · rename_i r1 hpages
      rcases addPageRoutes_shape _ _ _ _ hpages with ⟨hm1, hg1, pages, hr1, hp1, hall1⟩
      rcases loadAPIRoutes_shape r1 env with ⟨herr, hm2, hg2, hr2⟩
      rcases hq : r1.loadAPIRoutes env with ⟨r2, cnt, aerr⟩
      rw [hq] at h herr hm2 hg2 hr2
      simp only at herr hm2 hg2 hr2
      subst herr
      simp only at h
      have h' := (Prod.mk.inj (Except.ok.inj h)).1
      subst h'
      refine ⟨rfl, ?_, ?_, pages, ?_, ?_, hall1⟩
      · rw [hm2, hm1]; rfl
      · rw [hg2, hg1]; rfl
      · rw [hr2, hr1]; rfl
      · rw [hp1, hm2, hm1]

/-- A failed `InitRoutes` leaves the empty table. -/
theorem InitRoutes_error_shape {H T : Type} (r r' : Router H T) (env : InitEnv H T)
    (err : GoError) (h : r.InitRoutes env = .ok (r', some err)) :
    r'.Routes = [] ∧ (r.Marley.LoadTemplates env.load).2 ≠ none := by
  unfold Router.InitRoutes at h
  simp only at h
  rcases hl : r.Marley.LoadTemplates env.load with ⟨m, lerr⟩
  rw [hl] at h
  cases lerr with
  | some e =>
    simp only at h
    have h' := (Prod.mk.inj (Except.ok.inj h)).1
    subst h'
    exact ⟨rfl, by simp⟩
  | none =>
    simp only at h
    split at h
    · exact absurd h (by simp)
    · rename_i r1 hpages
      rcases loadAPIRoutes_shape r1 env with ⟨herr, _, _, _⟩
      rcases hq : r1.loadAPIRoutes env with ⟨r2, cnt, aerr⟩
      rw [hq] at h herr
      simp only at herr
      subst herr
      simp at h

/-! ## C11: a failed `InitRoutes` -/

/-- C11 (amended): if `InitRoutes` returns an error, the route table after the
call is empty, whatever it held before: the table is cleared before the
templates are loaded, the error is that of the template load, and every request
outside `/api` is then answered by the 404 error page. -/
theorem InitRoutes_error_routes_empty {H T : Type} (r r' : Router H T) (env : InitEnv H T)
    (err : GoError) (h : r.InitRoutes env = .ok (r', some err)) :
    r'.Routes = []
      ∧ (r.Marley.LoadTemplates env.load).2 ≠ none
      ∧ ∀ p, hasPrefix (normalizePath p) "/api".toList = false →
          (r'.ServeHTTP p).2 = .errorPage 404 := by
  rcases InitRoutes_error_shape r r' env err h with ⟨hr, hl⟩
  refine ⟨hr, hl, ?_⟩
  intro p hp
  unfold Router.ServeHTTP
  simp only [hr, hp, List.find?_nil]
  split <;> rfl

theorem InitRoutes_error_routes_empty_witness :
    (sampleRouter [sampleRoute "/about".toList false]).Routes ≠ []
      ∧ ({ sampleRouter [] with
            Marley := ((NewMarley String).LoadTemplates brokenPageEnv).1 }
          : Router String String).Routes = []
      ∧ (({ sampleRouter [] with
            Marley := ((NewMarley String).LoadTemplates brokenPageEnv).1 }
          : Router String String).ServeHTTP "/about".toList).2 = .errorPage 404 :=
  ⟨List.cons_ne_nil _ _,
    (InitRoutes_error_routes_empty (sampleRouter [sampleRoute "/about".toList false])
      { sampleRouter [] with Marley := ((NewMarley String).LoadTemplates brokenPageEnv).1 }
      (sampleInitEnv brokenPageEnv)
      ⟨"failed to load templates: template: unexpected EOF".toList, false⟩ rfl).1,
    (InitRoutes_error_routes_empty (sampleRouter [sampleRoute "/about".toList false])
      { sampleRouter [] with Marley := ((NewMarley String).LoadTemplates brokenPageEnv).1 }
      (sampleInitEnv brokenPageEnv)
      ⟨"failed to load templates: template: unexpected EOF".toList, false⟩ rfl).2.2
      "/about".toList (by decide)⟩

/-! ## C12: what a reload re-reads -/

theorem mem_keys_set {α : Type} (m : StrMap α) (a k : Str) (v : α) :
    k ∈ (m.set a v).map (fun e => e.1) ↔ k = a ∨ k ∈ m.map (fun e => e.1) := by
  unfold StrMap.set
  simp only [List.map_cons, List.mem_cons, List.mem_map, List.mem_filter]
  constructor
  · rintro (h | ⟨e, ⟨he, _⟩, hk⟩)
    · exact Or.inl h
    · exact Or.inr ⟨e, he, hk⟩
  · rintro (h | ⟨e, he, hk⟩)
    · exact Or.inl h
    · by_cases hka : k = a
      · exact Or.inl hka
      · refine Or.inr ⟨e, ⟨he, ?_⟩, hk⟩
        rw [hk]
        simpa using hka

theorem compileTemplates_keys {T : Type} (env : LoadEnv T) (layoutContent : Str)
    (components : StrMap Str) (paths : List Str) (t0 t : StrMap T)
    (h : compileTemplates env layoutContent components paths t0 = .ok t) (k : Str) :
    k ∈ t.map (fun e => e.1) ↔
      k ∈ t0.map (fun e => e.1)
        ∨ ∃ p ∈ paths, k = getRoutePathFromFile env.os p env.cfg.AppDir := by
  induction paths generalizing t0 with
  | nil =>
    have h' := Except.ok.inj h
    subst h'
    simp only [List.not_mem_nil, false_and, exists_false, or_false]
  | cons p rest ih =>
    unfold compileTemplates at h
    simp only at h
    cases hr : env.fs.readFile p with
    | error e => rw [hr] at h; simp at h
    | ok pageContent =>
      rw [hr] at h
      simp only at h
      cases hc : env.compile layoutContent components pageContent with
      | error e => rw [hc] at h; simp at h
      | ok tmpl =>
        rw [hc] at h
        simp only at h
        rw [ih _ h, mem_keys_set]
        simp only [List.mem_cons, exists_eq_or_imp]
        tauto

/-- A load from the file system that succeeds stores exactly the routes of the
page files the walk of the content root finds. -/
theorem loadFromDisk_ok_keys {T : Type} (m : Marley T) (env : LoadEnv T)
    (hok : (m.loadFromDisk env).2 = none) :
    ∃ paths, templatePathsWalk env (env.fs.walk env.cfg.AppDir) [] = .ok paths
      ∧ ∀ k, k ∈ (m.loadFromDisk env).1.Templates.map (fun e => e.1) ↔
          ∃ p ∈ paths, k = getRoutePathFromFile env.os p env.cfg.AppDir := by
  unfold Marley.loadFromDisk at hok
  rcases hlc : m.loadComponents env with ⟨m1, cerr⟩
  rw [hlc] at hok
  cases cerr with
  | some e => simp at hok
  | none =>
    simp only at hok
    cases hl : env.fs.readFile env.cfg.LayoutPath with
    | error e => rw [hl] at hok; simp at hok
    | ok layoutContent =>
      rw [hl] at hok
      simp only at hok
      cases hw : templatePathsWalk env (env.fs.walk env.cfg.AppDir) [] with
      | error e => rw [hw] at hok; simp at hok
      | ok paths =>
        rw [hw] at hok
        simp only at hok
        cases hc : compileTemplates env layoutContent m1.ComponentsCache paths [] with
        | error e => rw [hc] at hok; simp at hok
        | ok templates =>
          have ht : (m.loadFromDisk env).1.Templates = templates := by
            unfold Marley.loadFromDisk
            rw [hlc]
            simp only [hl, hw, hc]
          refine ⟨paths, rfl, ?_⟩
          intro k
          rw [ht, compileTemplates_keys env _ _ paths [] templates hc k]
          simp only [List.map_nil, List.not_mem_nil, false_or]

theorem filter_isPage_table {H : Type} (static : Route H) (pages apis : List (Route H))
    (hs : static.IsStatic = true)
    (hp : ∀ x ∈ pages, x.IsStatic = false ∧ x.IsAPI = false)
    (ha : ∀ x ∈ apis, x.IsAPI = true ∧ x.IsStatic = false) :
    (static :: pages ++ apis).filter Route.isPage = pages := by
  rw [List.cons_append, List.filter_cons_of_neg (by simp [Route.isPage, hs]), List.filter_append]
  have h1 : pages.filter Route.isPage = pages :=
    List.filter_eq_self.2 (fun x hx => by simp [Route.isPage, hp x hx])
  have h2 : apis.filter Route.isPage = [] :=
    List.filter_eq_nil_iff.2 (fun x hx => by simp [Route.isPage, ha x hx])
  rw [h1, h2, List.append_nil]

/-- The page routes of the table a successful `InitRoutes` builds are those of
the templates of its store. -/
theorem InitRoutes_ok_pages {H T : Type} (r r' : Router H T) (env : InitEnv H T)
    (h : r.InitRoutes env = .ok (r', none)) (k : Str) :
    k ∈ routePaths (r'.Routes.filter Route.isPage) ↔
      k ∈ r'.Marley.Templates.map (fun e => e.1) := by
  rcases InitRoutes_ok_shape r r' env h with ⟨_, _, _, pages, hr, hp, hall⟩
  rw [hr, filter_isPage_table _ pages _ rfl hall (mem_builtinAPIRoutes env), hp]
  exact ((env.rangeOrder_perm r'.Marley.Templates).map _).mem_iff

/-- C12 (counterexample): the store of `cachedRouter` was loaded at time 1000
with a TTL of 300.  A reload at time 1100, after the page `app/new.html` was
added, succeeds without reading the content root: the store and the page routes
are those of before, although the walk of the content root finds the new page. -/
theorem InitRoutes_within_TTL_skips_disk :
    cachedRouter.Marley.cacheExpiry = some 1300
      ∧ cachedRouter.Marley.Templates = [("/about".toList, "app/about.html")]
      ∧ (cachedRouter.InitRoutes (sampleInitEnv addedPageEnv)).map
          (fun res =>
            (routePaths (res.1.Routes.filter Route.isPage), res.1.Marley.Templates, res.2))
        = .ok (["/about".toList], [("/about".toList, "app/about.html")], none)
      ∧ templatePathsWalk addedPageEnv (addedPageEnv.fs.walk addedPageEnv.cfg.AppDir) []
        = .ok ["app/about.html".toList, "app/new.html".toList] := by
  decide

/-- C12 (amended): a reload (`InitRoutes`, as the watcher calls it) that succeeds
reads the templates from the file system only when the cache of the store is not
fresh (no expiry yet, expiry passed, or caching off): then the page routes are
exactly the routes of the page files the walk of the content root finds.  While
the cache is fresh the store is left as it is and the page routes are those of
the templates it already holds. -/
theorem InitRoutes_reload_of_stale {H T : Type} (r r' : Router H T) (env : InitEnv H T)
    (h : r.InitRoutes env = .ok (r', none)) :
    (r.Marley.cacheFresh env.load = true →
        r'.Marley = r.Marley
          ∧ ∀ k, k ∈ routePaths (r'.Routes.filter Route.isPage) ↔
              k ∈ r.Marley.Templates.map (fun e => e.1))
      ∧ (r.Marley.cacheFresh env.load = false →
          r'.Marley = (r.Marley.loadFromDisk env.load).1
            ∧ ∃ paths,
                templatePathsWalk env.load (env.load.fs.walk env.load.cfg.AppDir) []
                  = .ok paths
                ∧ ∀ k, k ∈ routePaths (r'.Routes.filter Route.isPage) ↔
                    ∃ p ∈ paths,
                      k = getRoutePathFromFile env.load.os p env.load.cfg.AppDir) := by
  have hpages := InitRoutes_ok_pages r r' env h
  rcases InitRoutes_ok_shape r r' env h with ⟨hok, hm, _, _⟩
  constructor
  · intro hf
    rw [LoadTemplates_fresh _ _ hf] at hm
    refine ⟨hm, fun k => ?_⟩
    rw [hpages k, hm]
  · intro hf
    rw [LoadTemplates_eq, if_neg (by simp [hf])] at hm hok
    rcases loadFromDisk_ok_keys _ _ hok with ⟨paths, hw, hk⟩
    refine ⟨hm, paths, hw, fun k => ?_⟩
    rw [hpages k, hm, hk k]

theorem InitRoutes_reload_of_stale_witness :
    (cachedRouter.Marley.cacheFresh (sampleInitEnv expiredPageEnv).load = false)
      ∧ ((cachedRouter.afterInitRoutes (sampleInitEnv expiredPageEnv)).Marley
          = (cachedRouter.Marley.loadFromDisk (sampleInitEnv expiredPageEnv).load).1
        ∧ ∃ paths,
            templatePathsWalk (sampleInitEnv expiredPageEnv).load
                ((sampleInitEnv expiredPageEnv).load.fs.walk
                  (sampleInitEnv expiredPageEnv).load.cfg.AppDir) []
              = .ok paths
            ∧ ∀ k, k ∈ routePaths
                  ((cachedRouter.afterInitRoutes (sampleInitEnv expiredPageEnv)).Routes.filter
                    Route.isPage) ↔
                ∃ p ∈ paths,
                  k = getRoutePathFromFile (sampleInitEnv expiredPageEnv).load.os p
                    (sampleInitEnv expiredPageEnv).load.cfg.AppDir) :=
  ⟨by decide,
    (InitRoutes_reload_of_stale cachedRouter
      (cachedRouter.afterInitRoutes (sampleInitEnv expiredPageEnv))
      (sampleInitEnv expiredPageEnv) rfl).2 (by decide)⟩

/-! ## C19: dispatch and the order of the table -/

/-- C19 (counterexample): over one content root with the pages
`/blog/[slug]` and `/[section]/[id]`, `InitRoutes` builds, for the two orders in
which `range` may run over the template map, two tables with the same routes in
different orders, and the request `/blog/x` is dispatched to `/[section]/[id]`
in one and to `/blog/[slug]` in the other. -/
theorem ServeHTTP_depends_on_range_order :
    ((sampleRouter []).InitRoutes (sampleInitEnv blogEnv)).map
        (fun res => (routePaths res.1.Routes, (res.1.ServeHTTP "/blog/x".toList).2.servedPath,
          res.2))
      = .ok (["/static/".toList, "/blog/[slug]".toList, "/[section]/[id]".toList,
              "/api/users".toList, "/api/users/[id]".toList, "/api/test".toList],
            some "/blog/[slug]".toList, none)
      ∧ ((sampleRouter []).InitRoutes (reversedInitEnv blogEnv)).map
        (fun res => (routePaths res.1.Routes, (res.1.ServeHTTP "/blog/x".toList).2.servedPath,
          res.2))
      = .ok (["/static/".toList, "/[section]/[id]".toList, "/blog/[slug]".toList,
              "/api/users".toList, "/api/users/[id]".toList, "/api/test".toList],
            some "/[section]/[id]".toList, none) := by
  decide

theorem find?_eq_head?_filter {α : Type} (f : α → Bool) (l : List α) :
    l.find? f = (l.filter f).head? := by
  induction l with
  | nil => rfl
  | cons a rest ih =>
    cases hf : f a with
    | true => rw [List.find?_cons_of_pos _ hf, List.filter_cons_of_pos hf]; rfl
    | false =>
      rw [List.find?_cons_of_neg _ (by simp [hf]), List.filter_cons_of_neg (by simp [hf]), ih]

/-- The first element passing a test is the same in two orders of a list in
which at most one element passes it. -/
theorem find?_perm_unique {α : Type} (f : α → Bool) (l1 l2 : List α) (hp : l1.Perm l2)
    (hu : (l1.filter f).length ≤ 1) : l1.find? f = l2.find? f := by
  have hperm : (l1.filter f).Perm (l2.filter f) := hp.filter f
  rw [find?_eq_head?_filter, find?_eq_head?_filter]
  cases hl : l1.filter f with
  | nil =>
    rw [hl] at hperm
    rw [hperm.symm.eq_nil]
  | cons a rest =>
    rw [hl] at hu hperm
    cases rest with
    | nil => rw [List.perm_singleton.1 hperm.symm]
    | cons b rest2 => simp at hu

/-- C19 (amended): for two route tables holding the same routes in different
orders (with the same global chain) and a request path for which, in each of the
four loops of `ServeHTTP` (static, API, exact page, parameterized page), at most
one route of the table passes the test of the loop, `ServeHTTP` dispatches to the
same route with the same composed handler in both. -/
theorem ServeHTTP_perm_of_unique {H T : Type} (r1 r2 : Router H T) (p : Str)
    (hperm : r1.Routes.Perm r2.Routes)
    (hglobal : r1.GlobalMiddleware = r2.GlobalMiddleware)
    (hstatic : (r1.Routes.filter (fun route => route.IsStatic)).length ≤ 1)
    (hapi : (r1.Routes.filter (Route.servesAPI (normalizePath p))).length ≤ 1)
    (hexact : (r1.Routes.filter (Route.servesExact (normalizePath p))).length ≤ 1)
    (hparam : (r1.Routes.filter (Route.servesParam (normalizePath p))).length ≤ 1) :
    (r1.ServeHTTP p).2 = (r2.ServeHTTP p).2 := by
  unfold Router.ServeHTTP
  simp only
  rw [find?_perm_unique _ _ _ hperm hstatic, find?_perm_unique _ _ _ hperm hapi,
    find?_perm_unique _ _ _ hperm hexact, find?_perm_unique _ _ _ hperm hparam, hglobal]
  split
  · split <;> rfl
  · rfl

theorem ServeHTTP_perm_of_unique_witness :
    ((sampleRouter [sampleRoute "/blog/[slug]".toList false,
        sampleRoute "/about".toList false]).ServeHTTP "/blog/x".toList).2
      = ((sampleRouter [sampleRoute "/about".toList false,
          sampleRoute "/blog/[slug]".toList false]).ServeHTTP "/blog/x".toList).2 :=
  ServeHTTP_perm_of_unique
    (sampleRouter [sampleRoute "/blog/[slug]".toList false, sampleRoute "/about".toList false])
    (sampleRouter [sampleRoute "/about".toList false, sampleRoute "/blog/[slug]".toList false])
    "/blog/x".toList (List.Perm.swap _ _ _) rfl (by decide) (by decide) (by decide) (by decide)

/-! ## C15: the page count -/

theorem floorLog2Loop_spec (fuel n : Nat) (hn : 0 < n) (hf : n ≤ fuel) :
    2 ^ floorLog2Loop fuel n ≤ n ∧ n < 2 ^ (floorLog2Loop fuel n + 1) := by
  induction fuel generalizing n with
  | zero => omega
  | succ fuel ih =>
    unfold floorLog2Loop
    by_cases h2 : n < 2
    · rw [if_pos h2]
      simp only [pow_zero, zero_add, pow_one]
      omega
    · rw [if_neg h2]
      have ih' := ih (n / 2) (by omega) (by omega)
      rw [pow_succ] at ih' ⊢
      rw [pow_succ (2 : Nat) (floorLog2Loop fuel (n / 2) + 1), pow_succ]
      omega

theorem floorLog2_le (n : Nat) (hn : 0 < n) : 2 ^ floorLog2 n ≤ n :=
  (floorLog2Loop_spec n n hn (Nat.le_refl n)).1

theorem lt_floorLog2 (n : Nat) (hn : 0 < n) : n < 2 ^ (floorLog2 n + 1) :=
  (floorLog2Loop_spec n n hn (Nat.le_refl n)).2

theorem scale_exponents (num den : Nat) :
    floorLog2 num + ((52 + floorLog2 den) - floorLog2 num)
      = 52 + floorLog2 den + Float64.scaleDown num den := by
  unfold Float64.scaleDown
  omega

/-- The scaled quotient of `Float64.round` is at least `2 ^ 52`. -/
theorem scale_lower (num den : Nat) (hn : 0 < num) (hd : 0 < den) :
    2 ^ 52 * (den * 2 ^ Float64.scaleDown num den) ≤ num * 2 ^ Float64.scaleUp num den := by
  unfold Float64.scaleUp
  simp only
  split
  · have h1 := floorLog2_le num hn
    have h2 := lt_floorLog2 den hd
    have h3 := scale_exponents num den
    calc 2 ^ 52 * (den * 2 ^ Float64.scaleDown num den)
        ≤ 2 ^ 52 * (2 ^ (floorLog2 den + 1) * 2 ^ Float64.scaleDown num den) :=
          Nat.mul_le_mul_left _ (Nat.mul_le_mul_right _ (Nat.le_of_lt h2))
      _ = 2 ^ floorLog2 num * 2 ^ ((52 + floorLog2 den) - floorLog2 num + 1) := by
          rw [← pow_add, ← pow_add, ← pow_add]
          congr 1
          omega
      _ ≤ num * 2 ^ ((52 + floorLog2 den) - floorLog2 num + 1) :=
          Nat.mul_le_mul_right _ h1
  · rename_i h
    have hpos : 0 < den * 2 ^ Float64.scaleDown num den :=
      Nat.mul_pos hd (Nat.pow_pos (by decide))
    exact (Nat.le_div_iff_mul_le hpos).1 (Nat.le_of_not_lt h)

/-- The scaled quotient of `Float64.round` is below `2 ^ 53`. -/
theorem scale_upper (num den : Nat) (hn : 0 < num) (hd : 0 < den) :
    num * 2 ^ Float64.scaleUp num den < 2 ^ 53 * (den * 2 ^ Float64.scaleDown num den) := by
  unfold Float64.scaleUp
  simp only
  have hpos : 0 < den * 2 ^ Float64.scaleDown num den :=
    Nat.mul_pos hd (Nat.pow_pos (by decide))
  split
  · rename_i h
    have h' := (Nat.div_lt_iff_lt_mul hpos).1 h
    rw [pow_succ, ← Nat.mul_assoc]
    calc num * 2 ^ ((52 + floorLog2 den) - floorLog2 num) * 2
        < 2 ^ 52 * (den * 2 ^ Float64.scaleDown num den) * 2 := by omega
      _ = 2 ^ 53 * (den * 2 ^ Float64.scaleDown num den) := by
          rw [show (2 : Nat) ^ 53 = 2 ^ 52 * 2 from rfl]
          ring
  · have h1 := lt_floorLog2 num hn
    have h2 := floorLog2_le den hd
    have h3 := scale_exponents num den
    calc num * 2 ^ ((52 + floorLog2 den) - floorLog2 num)
        < 2 ^ (floorLog2 num + 1) * 2 ^ ((52 + floorLog2 den) - floorLog2 num) :=
          Nat.mul_lt_mul_of_pos_right h1 (Nat.pow_pos (by decide))
      _ = 2 ^ 53 * (2 ^ floorLog2 den * 2 ^ Float64.scaleDown num den) := by
          rw [← pow_add, ← pow_add, ← pow_add]
          congr 1
          omega
      _ ≤ 2 ^ 53 * (den * 2 ^ Float64.scaleDown num den) :=
          Nat.mul_le_mul_left _ (Nat.mul_le_mul_right _ h2)

theorem roundHalfEven_eq (num den : Nat) :
    roundHalfEven num den
      = if den < 2 * (num % den) ∨ (2 * (num % den) = den ∧ num / den % 2 = 1)
        then num / den + 1 else num / den := by
  unfold roundHalfEven
  simp only [Bool.or_eq_true, decide_eq_true_eq, Bool.and_eq_true, beq_iff_eq]

theorem roundHalfEven_ge (num den : Nat) : num / den ≤ roundHalfEven num den := by
  rw [roundHalfEven_eq]
  split <;> omega

theorem roundHalfEven_up (num den : Nat) (h : den < 2 * (num % den)) :
    roundHalfEven num den = num / den + 1 := by
  rw [roundHalfEven_eq, if_pos (Or.inl h)]

theorem roundHalfEven_exact (m den : Nat) (hd : 0 < den) :
    roundHalfEven (m * den) den = m := by
  rw [roundHalfEven_eq, Nat.mul_mod_left, Nat.mul_div_cancel _ hd, if_neg (by omega)]

theorem roundHalfEven_le (num den m : Nat) (hd : 0 < den) (h : num ≤ m * den) :
    roundHalfEven num den ≤ m := by
  rw [roundHalfEven_eq]
  have hq : num / den ≤ m := Nat.div_le_of_le_mul (by rw [Nat.mul_comm]; exact h)
  split
  · rename_i hc
    have hr : 0 < num % den := by omega
    rcases Nat.lt_or_ge (num / den) m with hlt | hge
    · omega
    · exfalso
      have hqm : num / den = m := Nat.le_antisymm hq hge
      have hdm := Nat.div_add_mod num den
      rw [hqm, Nat.mul_comm] at hdm
      omega
  · exact hq

theorem roundHalfEven_scale (x y g : Nat) (hg : 0 < g) :
    roundHalfEven (x * g) (y * g) = roundHalfEven x y := by
  rw [roundHalfEven_eq, roundHalfEven_eq, Nat.mul_div_mul_right x y hg, Nat.mul_mod_mul_right]
  have h1 : y * g < 2 * (x % y * g) ↔ y < 2 * (x % y) := by
    rw [← Nat.mul_assoc]
    exact Nat.mul_lt_mul_right hg
  have h2 : 2 * (x % y * g) = y * g ↔ 2 * (x % y) = y := by
    rw [← Nat.mul_assoc]
    exact Nat.mul_left_inj (Nat.pos_iff_ne_zero.1 hg)
  simp only [h1, h2]

/-- The rounded scaled quotient of `a / b` for `a < 2 ^ 53`: the quotient itself
when the division is exact, and otherwise strictly between the two neighbouring
integers or equal to the upper one. -/
theorem round_quotient (a b t : Nat) (hb : 0 < b) (ha : a < 2 ^ 53)
    (hnorm : 2 ^ 52 * b ≤ a * 2 ^ t) :
    (a % b = 0 → roundHalfEven (a * 2 ^ t) b = a / b * 2 ^ t)
      ∧ (0 < a % b → a / b * 2 ^ t < roundHalfEven (a * 2 ^ t) b
          ∧ roundHalfEven (a * 2 ^ t) b ≤ (a / b + 1) * 2 ^ t) := by
  have hdm := Nat.div_add_mod a b
  have hP : 0 < 2 ^ t := Nat.pow_pos (by decide)
  generalize hPd : 2 ^ t = P at *
  generalize hk : a / b = k at *
  generalize hr : a % b = r at *
  constructor
  · intro h0
    have ha' : a * P = k * P * b := by
      rw [← hdm, h0]
      ring
    rw [ha', roundHalfEven_exact _ _ hb]
  · intro hpos
    have hrb : r < b := by rw [← hr]; exact Nat.mod_lt _ hb
    constructor
    · have hexp : a * P = k * P * b + r * P := by
        rw [← hdm]
        ring
      have hge := roundHalfEven_ge (a * P) b
      have hq : k * P ≤ a * P / b := by
        rw [Nat.le_div_iff_mul_le hb, hexp]
        exact Nat.le_add_right _ _
      rcases Nat.lt_or_ge (k * P) (a * P / b) with hlt | hle
      · omega
      · have hqe : a * P / b = k * P := Nat.le_antisymm hle hq
        have hmod : a * P % b = r * P := by
          have h := Nat.div_add_mod (a * P) b
          rw [hqe, Nat.mul_comm b (k * P)] at h
          omega
        have h52 : 2 ^ 52 ≤ k * P := by
          rw [← hqe, Nat.le_div_iff_mul_le hb]
          exact hnorm
        have hkb : k * b ≤ a := by
          rw [← hdm, Nat.mul_comm]
          exact Nat.le_add_right _ _
        have hk2 : k * b < k * (2 * P) := by
          have : k * (2 * P) = 2 * (k * P) := by ring
          omega
        have hb2 : b < 2 * P := Nat.lt_of_mul_lt_mul_left hk2
        have hrP : P ≤ r * P := Nat.le_mul_of_pos_left P hpos
        rw [roundHalfEven_up _ _ (by rw [hmod]; omega), hqe]
        omega
    · apply roundHalfEven_le _ _ _ hb
      have hle : a ≤ (k + 1) * b := by
        rw [← hdm]
        have : (k + 1) * b = b * k + b := by ring
        omega
      calc a * P ≤ (k + 1) * b * P := Nat.mul_le_mul_right _ hle
        _ = (k + 1) * P * b := by ring

/-- The result of `Float64.round` on a quotient `a / b` below `2 ^ 53`, given
with a common factor `c`: the quotient scaled by `2 ^ t` to 53 bits, rounded,
over `2 ^ t`, both possibly times a common power of two. -/
theorem round_of_scaled (neg : Bool) (a b c : Nat) (ha : 0 < a) (hb : 0 < b) (hc : 0 < c)
    (hlt : a < 2 ^ 53 * b) :
    ∃ d t, 2 ^ 52 * b ≤ a * 2 ^ t
      ∧ Float64.round neg (a * c) (b * c)
        = ⟨neg, roundHalfEven (a * 2 ^ t) b * 2 ^ d, 2 ^ t * 2 ^ d⟩ := by
  have hN : 0 < a * c := Nat.mul_pos ha hc
  have hD : 0 < b * c := Nat.mul_pos hb hc
  have hlow := scale_lower (a * c) (b * c) hN hD
  unfold Float64.round
  rw [if_neg (by omega)]
  generalize Float64.scaleDown (a * c) (b * c) = d at *
  generalize Float64.scaleUp (a * c) (b * c) = u at *
  have hdu : d ≤ u := by
    by_contra hcon
    have hud : u + 1 ≤ d := by omega
    have hpow : 2 ^ (u + 1) ≤ 2 ^ d := Nat.pow_le_pow_right (by decide) hud
    have h1 : a * c * 2 ^ u < 2 ^ 53 * b * c * 2 ^ u :=
      Nat.mul_lt_mul_of_pos_right (Nat.mul_lt_mul_of_pos_right hlt hc) (Nat.pow_pos (by decide))
    have h2 : 2 ^ 53 * b * c * 2 ^ u ≤ 2 ^ 52 * (b * c * 2 ^ d) := by
      calc 2 ^ 53 * b * c * 2 ^ u = 2 ^ 52 * (b * c * 2 ^ (u + 1)) := by ring
        _ ≤ 2 ^ 52 * (b * c * 2 ^ d) :=
            Nat.mul_le_mul_left _ (Nat.mul_le_mul_left _ hpow)
    omega
  obtain ⟨t, rfl⟩ : ∃ t, u = t + d := ⟨u - d, by omega⟩
  have hg : 0 < c * 2 ^ d := Nat.mul_pos hc (Nat.pow_pos (by decide))
  have e1 : a * c * 2 ^ (t + d) = a * 2 ^ t * (c * 2 ^ d) := by
    rw [pow_add]
    ring
  have e2 : b * c * 2 ^ d = b * (c * 2 ^ d) := by ring
  refine ⟨d, t, ?_, ?_⟩
  · rw [e1, e2, ← Nat.mul_assoc] at hlow
    exact Nat.le_of_mul_le_mul_right hlow hg
  · rw [e1, e2, roundHalfEven_scale _ _ _ hg, pow_add]

theorem ofInt_natCast (a : Nat) : Float64.ofInt (a : Int) = Float64.round false a 1 := by
  unfold Float64.ofInt
  have h : ¬ ((a : Int) < 0) := by omega
  simp only [h, decide_False, Int.natAbs_ofNat]

/-- An `int` below `2 ^ 53` converts to `float64` exactly. -/
theorem ofInt_small (a : Nat) (ha : a < 2 ^ 53) :
    ∃ c, 0 < c ∧ Float64.ofInt (a : Int) = ⟨false, a * c, c⟩ := by
  rw [ofInt_natCast]
  rcases Nat.eq_zero_or_pos a with h0 | hpos
  · subst h0
    exact ⟨1, by decide, rfl⟩
  · rcases round_of_scaled false a 1 1 hpos (by decide) (by decide) (by omega)
      with ⟨d, t, _, hr⟩
    have hx : roundHalfEven (a * 2 ^ t) 1 = a * 2 ^ t := by
      have h := roundHalfEven_exact (a * 2 ^ t) 1 (by decide)
      rwa [Nat.mul_one] at h
    rw [Nat.mul_one, Nat.mul_one, hx] at hr
    refine ⟨2 ^ t * 2 ^ d, Nat.mul_pos (Nat.pow_pos (by decide)) (Nat.pow_pos (by decide)), ?_⟩
    rw [hr, Nat.mul_assoc]

/-- An `int` from `2 ^ 53` on converts to a `float64` that is at least `2 ^ 53`. -/
theorem ofInt_large (b : Nat) (hb : 2 ^ 53 ≤ b) :
    ∃ num den, Float64.ofInt (b : Int) = ⟨false, num, den⟩ ∧ 0 < den ∧ 2 ^ 53 * den ≤ num := by
  rw [ofInt_natCast]
  have hpos : 0 < b := by omega
  have hlow := scale_lower b 1 hpos (by decide)
  have hupp := scale_upper b 1 hpos (by decide)
  unfold Float64.round
  rw [if_neg (by omega)]
  generalize Float64.scaleDown b 1 = d at *
  generalize Float64.scaleUp b 1 = u at *
  rw [Nat.one_mul] at hlow hupp ⊢
  refine ⟨_, _, rfl, Nat.pow_pos (by decide), ?_⟩
  have hud : u < d := by
    by_contra hcon
    have hpow : 2 ^ d ≤ 2 ^ u := Nat.pow_le_pow_right (by decide) (by omega)
    have h1 : 2 ^ 53 * 2 ^ u ≤ b * 2 ^ u := Nat.mul_le_mul_right _ hb
    have h2 : 2 ^ 53 * 2 ^ d ≤ 2 ^ 53 * 2 ^ u := Nat.mul_le_mul_left _ hpow
    omega
  have hpow : 2 ^ (u + 1) ≤ 2 ^ d := Nat.pow_le_pow_right (by decide) hud
  have hq : 2 ^ 52 ≤ b * 2 ^ u / 2 ^ d := by
    rw [Nat.le_div_iff_mul_le (Nat.pow_pos (by decide))]
    exact hlow
  have hm := Nat.le_trans hq (roundHalfEven_ge (b * 2 ^ u) (2 ^ d))
  calc 2 ^ 53 * 2 ^ u = 2 ^ 52 * 2 ^ (u + 1) := by ring
    _ ≤ 2 ^ 52 * 2 ^ d := Nat.mul_le_mul_left _ hpow
    _ ≤ roundHalfEven (b * 2 ^ u) (2 ^ d) * 2 ^ d := Nat.mul_le_mul_right _ hm

theorem ceil_of_bounds (num den l : Nat) (h1 : l * den < num) (h2 : num ≤ (l + 1) * den) :
    (num + den - 1) / den = l + 1 := by
  apply Nat.div_eq_of_lt_le
  · have : (l + 1) * den = l * den + den := by ring
    omega
  · have : (l + 1 + 1) * den = (l + 1) * den + den := by ring
    have hd : 0 < den := by
      rcases Nat.eq_zero_or_pos den with h | h
      · subst h
        simp at h2
        omega
      · exact h
    omega

theorem ceil_of_exact (den l : Nat) (hd : 0 < den) : (l * den + den - 1) / den = l := by
  apply Nat.div_eq_of_lt_le
  · omega
  · have : (l + 1) * den = l * den + den := by ring
    omega

/-- The value `math.Ceil(float64(a) / float64(b))` for `a < 2 ^ 53` and `0 < b`
is the integer ceiling of `a / b`. -/
theorem ceil_quotient (a b : Nat) (hb : 0 < b) (ha : a < 2 ^ 53) :
    ∃ q pages, (Float64.ofInt (a : Int)).div (Float64.ofInt (b : Int)) = some q
      ∧ q.Ceil = ⟨false, pages, 1⟩ ∧ a ≤ pages * b ∧ pages * b < a + b := by
  rcases ofInt_small a ha with ⟨cA, hcA, hA⟩
  rw [hA]
  rcases Nat.eq_zero_or_pos a with h0 | hpos
  · subst h0
    have hB : ∃ nB dB, Float64.ofInt (b : Int) = ⟨false, nB, dB⟩ ∧ nB ≠ 0 := by
      rcases Nat.lt_or_ge b (2 ^ 53) with hlt | hge
      · rcases ofInt_small b hlt with ⟨cB, hcB, hB⟩
        exact ⟨_, _, hB, Nat.pos_iff_ne_zero.1 (Nat.mul_pos hb hcB)⟩
      · rcases ofInt_large b hge with ⟨nB, dB, hB, hdB, hnB⟩
        exact ⟨_, _, hB, by omega⟩
    rcases hB with ⟨nB, dB, hB, hnB⟩
    rw [hB]
    refine ⟨⟨false, 0, 1⟩, 0, ?_, rfl, by omega, by omega⟩
    unfold Float64.div
    simp only
    rw [if_neg hnB]
    simp [Float64.round]
  · rcases Nat.lt_or_ge b (2 ^ 53) with hlt | hge
    · rcases ofInt_small b hlt with ⟨cB, hcB, hB⟩
      rw [hB]
      unfold Float64.div
      simp only
      rw [if_neg (Nat.pos_iff_ne_zero.1 (Nat.mul_pos hb hcB))]
      have e1 : a * cA * cB = a * (cA * cB) := by ring
      have e2 : cA * (b * cB) = b * (cA * cB) := by ring
      rw [e1, e2]
      rcases round_of_scaled (false != false) a b (cA * cB) hpos hb (Nat.mul_pos hcA hcB)
        (by have := Nat.le_mul_of_pos_right (2 ^ 53) hb; omega) with ⟨d, t, hnorm, hr⟩
      rw [hr]
      rcases round_quotient a b t hb ha hnorm with ⟨hex, hin⟩
      have hdm := Nat.div_add_mod a b
      have hden : 0 < 2 ^ t * 2 ^ d :=
        Nat.mul_pos (Nat.pow_pos (by decide)) (Nat.pow_pos (by decide))
      rcases Nat.eq_zero_or_pos (a % b) with hr0 | hrpos
      · refine ⟨_, a / b, rfl, ?_, ?_, ?_⟩
        · unfold Float64.Ceil
          simp only [bne_self_eq_false, Bool.false_eq_true, if_false]
          rw [hex hr0, Nat.mul_assoc, ceil_of_exact _ _ hden]
        · rw [Nat.mul_comm]; omega
        · rw [Nat.mul_comm]; omega
      · have hmod := Nat.mod_lt a hb
        refine ⟨_, a / b + 1, rfl, ?_, ?_, ?_⟩
        · unfold Float64.Ceil
          simp only [bne_self_eq_false, Bool.false_eq_true, if_false]
          rw [ceil_of_bounds _ _ (a / b)]
          · rw [← Nat.mul_assoc]
            exact Nat.mul_lt_mul_of_pos_right (hin hrpos).1 (Nat.pow_pos (by decide))
          · rw [← Nat.mul_assoc]
            exact Nat.mul_le_mul_right _ (hin hrpos).2
        · have : (a / b + 1) * b = b * (a / b) + b := by ring
          omega
        · have : (a / b + 1) * b = b * (a / b) + b := by ring
          omega
    · rcases ofInt_large b hge with ⟨nB, dB, hB, hdB, hnB⟩
      rw [hB]
      unfold Float64.div
      simp only
      rw [if_neg (by omega)]
      have hA' : 0 < a * cA * dB := Nat.mul_pos (Nat.mul_pos hpos hcA) hdB
      have hB' : 0 < cA * nB := Nat.mul_pos hcA (by omega)
      have hAB : a * cA * dB ≤ cA * nB := by
        calc a * cA * dB ≤ 2 ^ 53 * cA * dB :=
              Nat.mul_le_mul_right _ (Nat.mul_le_mul_right _ (Nat.le_of_lt ha))
          _ = cA * (2 ^ 53 * dB) := by ring
          _ ≤ cA * nB := Nat.mul_le_mul_left _ hnB
      have hr := round_of_scaled (false != false) (a * cA * dB) (cA * nB) 1 hA' hB' (by decide)
        (by have := Nat.le_mul_of_pos_left (cA * nB) (show 0 < 2 ^ 53 by decide); omega)
      rw [Nat.mul_one, Nat.mul_one] at hr
      rcases hr with ⟨d, t, hnorm, hr⟩
      rw [hr]
      have hq : 2 ^ 52 ≤ a * cA * dB * 2 ^ t / (cA * nB) := by
        rw [Nat.le_div_iff_mul_le hB']
        exact hnorm
      have hm := Nat.le_trans hq (roundHalfEven_ge _ _)
      have hle : roundHalfEven (a * cA * dB * 2 ^ t) (cA * nB) ≤ 2 ^ t := by
        apply roundHalfEven_le _ _ _ hB'
        rw [Nat.mul_comm (2 ^ t)]
        exact Nat.mul_le_mul_right _ hAB
      refine ⟨_, 1, rfl, ?_, by omega, by omega⟩
      unfold Float64.Ceil
      simp only [bne_self_eq_false, Bool.false_eq_true, if_false]
      rw [ceil_of_bounds _ _ 0]
      · rw [Nat.zero_mul]
        exact Nat.mul_pos (by omega) (Nat.pow_pos (by decide))
      · rw [Nat.zero_add, Nat.one_mul]
        exact Nat.mul_le_mul_right _ hle

set_option maxRecDepth 100000 in
/-- C15 (counterexample): for `totalItems = 2 ^ 53 + 1` and `perPage = 1` the
conversion `float64(totalItems)` rounds to `2 ^ 53`, and `NewPaginationMeta`
returns `TotalPages = 2 ^ 53`, one less than the integer ceiling `2 ^ 53 + 1`
of `totalItems / perPage`. -/
theorem NewPaginationMeta_not_exact :
    Float64.ofInt 9007199254740993 = ⟨false, 9007199254740992, 1⟩
      ∧ NewPaginationMeta 1 1 9007199254740993
        = some ⟨1, 1, 9007199254740993, 9007199254740992, true, false⟩
      ∧ ¬ ((9007199254740993 : Int) ≤ 9007199254740992 * 1) := by
  decide

/-- The page count for a total below `2 ^ 53`: the integer ceiling. -/
theorem newPaginationMeta_small (currentPage perPage totalItems : Int)
    (hper : 0 < perPage) (h0 : 0 ≤ totalItems) (h53 : totalItems < 2 ^ 53) :
    ∃ totalPages,
      NewPaginationMeta currentPage perPage totalItems
          = some ⟨currentPage, perPage, totalItems, totalPages,
              decide (currentPage < totalPages), decide (currentPage > 1)⟩
        ∧ (totalPages - 1) * perPage < totalItems ∧ totalItems ≤ totalPages * perPage := by
  obtain ⟨a, rfl⟩ := Int.eq_ofNat_of_zero_le h0
  obtain ⟨b, rfl⟩ := Int.eq_ofNat_of_zero_le (Int.le_of_lt hper)
  have hb : 0 < b := by omega
  have ha : a < 2 ^ 53 := by omega
  rcases ceil_quotient a b hb ha with ⟨q, pages, hq, hc, h1, h2⟩
  have hpa : pages ≤ a := by
    cases pages with
    | zero => omega
    | succ p =>
      have e : (p + 1) * b = p * b + b := by ring
      have hp : p ≤ p * b := Nat.le_mul_of_pos_right p hb
      omega
  refine ⟨(pages : Int), ?_, ?_, ?_⟩
  · unfold NewPaginationMeta
    rw [hq]
    simp only [hc, Float64.toInt, Bool.false_eq_true, if_false, Nat.div_one]
    rw [if_pos (by constructor <;> omega)]
  · have e : ((pages : Int) - 1) * (b : Int) = ((pages * b : Nat) : Int) - (b : Int) := by
      push_cast
      ring
    rw [e]
    omega
  · have e : (pages : Int) * (b : Int) = ((pages * b : Nat) : Int) := by push_cast; rfl
    rw [e]
    omega

/-- C15 (amended): for every `currentPage`, every `perPage > 0` and every
`totalItems` with `0 ≤ totalItems < 2 ^ 53`, `NewPaginationMeta` returns the
three inputs unchanged, `TotalPages` equal to the exact integer ceiling of
`totalItems / perPage` (the integer `t` with
`(t - 1) * perPage < totalItems ≤ t * perPage`), `HasNextPage` true exactly when
`currentPage < TotalPages` and `HasPrevPage` true exactly when
`currentPage > 1`. -/
theorem NewPaginationMeta_exact_below_2_53 (currentPage perPage totalItems : Int)
    (hper : 0 < perPage) (h0 : 0 ≤ totalItems) (h53 : totalItems < 2 ^ 53) :
    ∃ totalPages,
      NewPaginationMeta currentPage perPage totalItems
          = some ⟨currentPage, perPage, totalItems, totalPages,
              decide (currentPage < totalPages), decide (currentPage > 1)⟩
        ∧ (totalPages - 1) * perPage < totalItems ∧ totalItems ≤ totalPages * perPage :=
  newPaginationMeta_small currentPage perPage totalItems hper h0 h53

theorem NewPaginationMeta_exact_below_2_53_witness :
    ∃ totalPages,
      NewPaginationMeta 3 10 25
          = some ⟨3, 10, 25, totalPages, decide (3 < totalPages), decide ((3 : Int) > 1)⟩
        ∧ (totalPages - 1) * 10 < 25 ∧ 25 ≤ totalPages * 10 :=
  NewPaginationMeta_exact_below_2_53 3 10 25 (by decide) (by decide) (by decide)

/-! ## C16 and C17: the user handlers -/

/-! ## C20: dynamic segments of API routes -/

theorem builtinAPIRoutes_users {H T : Type} (env : InitEnv H T)
    (hbase : ∀ err, env.stat (env.join env.load.cfg.AppDir "api".toList) = some err →
      err.notExist = false)
    (husers : env.stat (env.join (env.join env.load.cfg.AppDir "api".toList) "users".toList)
      = none) :
    ∃ rest, builtinAPIRoutes env
      = apiRoute env.handlers "/api/users".toList .users
        :: apiRoute env.handlers "/api/users/[id]".toList .userById :: rest := by
  unfold builtinAPIRoutes
  simp only [husers]
  have hm : (match env.stat (env.join env.load.cfg.AppDir "api".toList) with
      | some err => err.notExist
      | none => false) = false := by
    cases hs : env.stat (env.join env.load.cfg.AppDir "api".toList) with
    | none => rfl
    | some err => exact hbase err hs
  rw [hm]
  exact ⟨_, rfl⟩

/-- A route that `Router.ServeHTTP` serves passed the test of the loop it was
found in. -/
theorem ServeHTTP_serve_cases {H T : Type} (r : Router H T) (reqPath : Str) (route : Route H)
    (handler : H) (h : (r.ServeHTTP reqPath).2 = .serve route handler) :
    route.IsStatic = true
      ∨ r.Routes.find? (Route.servesAPI (normalizePath reqPath)) = some route
      ∨ route.servesExact (normalizePath reqPath) = true
      ∨ route.servesParam (normalizePath reqPath) = true := by
  have key : ∀ d : Dispatch H,
      d = (if hasPrefix (normalizePath reqPath) "/api".toList then
          match r.Routes.find? (Route.servesAPI (normalizePath reqPath)) with
          | some route =>
            .serve route ((r.GlobalMiddleware.getD (NewMiddlewareChain H)).Then
              (route.chain.Then route.Handler))
          | none => .httpError "API endpoint not found".toList 404
        else
          match r.Routes.find? (Route.servesExact (normalizePath reqPath)) with
          | some route =>
            .serve route ((r.GlobalMiddleware.getD (NewMiddlewareChain H)).Then
              (route.chain.Then route.Handler))
          | none =>
            match r.Routes.find? (Route.servesParam (normalizePath reqPath)) with
            | some route =>
              .serve route ((r.GlobalMiddleware.getD (NewMiddlewareChain H)).Then
                (route.chain.Then route.Handler))
            | none => .errorPage 404) →
      d = .serve route handler →
      r.Routes.find? (Route.servesAPI (normalizePath reqPath)) = some route
        ∨ route.servesExact (normalizePath reqPath) = true
        ∨ route.servesParam (normalizePath reqPath) = true := by
    intro d hd hserve
    rw [hserve] at hd
    split at hd
    · cases hf : r.Routes.find? (Route.servesAPI (normalizePath reqPath)) with
      | none => rw [hf] at hd; cases hd
      | some x =>
        rw [hf] at hd
        simp only at hd
        injection hd with h1 _
        left
        rw [h1]
    · cases hf : r.Routes.find? (Route.servesExact (normalizePath reqPath)) with
      | some x =>
        rw [hf] at hd
        simp only at hd
        injection hd with h1 _
        right; left
        rw [h1]
        exact (find?_some_holds _ _ _ hf).1
      | none =>
        rw [hf] at hd
        simp only at hd
        cases hg : r.Routes.find? (Route.servesParam (normalizePath reqPath)) with
        | some x =>
          rw [hg] at hd
          simp only at hd
          injection hd with h1 _
          right; right
          rw [h1]
          exact (find?_some_holds _ _ _ hg).1
        | none => rw [hg] at hd; cases hd
  unfold Router.ServeHTTP at h
  simp only at h
  split at h
  · split at h
    · rename_i x hx
      injection h with h1 _
      left
      rw [← h1]
      exact (find?_some_holds _ _ _ hx).1
    · exact Or.inr (key _ rfl h)
  · exact Or.inr (key _ rfl h)

/-- On the table of a successful `InitRoutes` that registered the user routes,
every route before the API routes fails the API test, and `/api/users` is the
first API route. -/
theorem initRoutes_users_first {H T : Type} (r r' : Router H T) (env : InitEnv H T)
    (h : r.InitRoutes env = .ok (r', none))
    (hbase : ∀ err, env.stat (env.join env.load.cfg.AppDir "api".toList) = some err →
      err.notExist = false)
    (husers : env.stat (env.join (env.join env.load.cfg.AppDir "api".toList) "users".toList)
      = none) :
    r'.GlobalMiddleware = r.GlobalMiddleware
      ∧ ∃ pre post, r'.Routes = pre ++ apiRoute env.handlers "/api/users".toList .users :: post
          ∧ ∀ x ∈ pre, x.IsAPI = false := by
  rcases InitRoutes_ok_shape r r' env h with ⟨_, _, hg, pages, hr, _, hall⟩
  rcases builtinAPIRoutes_users env hbase husers with ⟨rest, hb⟩
  refine ⟨hg, staticRoute env.handlers r.StaticDir :: pages,
    apiRoute env.handlers "/api/users/[id]".toList .userById :: rest, ?_, ?_⟩
  · rw [hr, hb]
  · intro x hx
    rcases List.mem_cons.1 hx with e | e
    · rw [e]; rfl
    · exact (hall x e).2

/-- C20: on the route table that `InitRoutes` builds with the built-in user
routes (registered by `loadAPIRoutes` in the order `/api/users`,
`/api/users/[id]`), every request whose normalized path begins with
`/api/users/` is dispatched to the route `/api/users` and its handler (first
prefix match); no request at all is dispatched to the route `/api/users/[id]`;
and the handler of `/api/users` binds no parameters and runs the collection
closure, which answers PUT and DELETE (as on `/api/users/5`) with 405 and GET
with the listing. -/
theorem api_dynamic_route_shadowed {H T : Type} (r r' : Router H T) (env : InitEnv H T)
    (h : r.InitRoutes env = .ok (r', none))
    (hbase : ∀ err, env.stat (env.join env.load.cfg.AppDir "api".toList) = some err →
      err.notExist = false)
    (husers : env.stat (env.join (env.join env.load.cfg.AppDir "api".toList) "users".toList)
      = none) :
    (∀ reqPath, hasPrefix (normalizePath reqPath) "/api/users/".toList = true →
        (r'.ServeHTTP reqPath).2
          = .serve (apiRoute env.handlers "/api/users".toList .users)
              ((r.GlobalMiddleware.getD (NewMiddlewareChain H)).Then
                ((NewMiddlewareChain H).Then (env.handlers.api "/api/users".toList .users))))
      ∧ (∀ reqPath handler, (r'.ServeHTTP reqPath).2
          ≠ .serve (apiRoute env.handlers "/api/users/[id]".toList .userById) handler)
      ∧ (∀ users req,
          wrappedHandler "/api/users".toList .users users req = APIFunc.users.call users [] req
            ∧ (req.Method = "PUT".toList ∨ req.Method = "DELETE".toList →
                wrappedHandler "/api/users".toList .users users req
                  = .ok (users, RenderError "Method not allowed".toList 405))
            ∧ (req.Method = "GET".toList →
                wrappedHandler "/api/users".toList .users users req
                  = (handleUsersGet users req).map (fun response => (users, response)))) := by
  rcases initRoutes_users_first r r' env h hbase husers with ⟨hg, pre, post, hr, hpre⟩
  have husersAPI : ∀ path : Str, "/api/users/".toList <+: path →
      (apiRoute env.handlers "/api/users".toList .users).servesAPI path = true := by
    intro path hp
    rw [servesAPI_iff]
    exact ⟨rfl, Or.inr hp⟩
  have hfind : ∀ path : Str, "/api/users/".toList <+: path →
      r'.Routes.find? (Route.servesAPI path)
        = some (apiRoute env.handlers "/api/users".toList .users) := by
    intro path hp
    rw [hr]
    apply find?_first
    · intro x hx
      simp [Route.servesAPI, hpre x hx]
    · exact husersAPI path hp
  refine ⟨?_, ?_, ?_⟩
  · intro reqPath hp
    have hp' := (hasPrefix_iff _ _).1 hp
    have hapi : hasPrefix (normalizePath reqPath) "/api".toList = true := by
      rw [hasPrefix_iff]
      exact List.IsPrefix.trans (by decide) hp'
    rw [ServeHTTP_not_static _ _ (not_static_of_api _ hapi), if_pos hapi, hfind _ hp', hg]
    rfl
  · intro reqPath handler hserve
    rcases ServeHTTP_serve_cases r' reqPath _ handler hserve with hs | hs | hs | hs
    · exact absurd hs (by simp [apiRoute])
    · have hpass := (find?_some_holds _ _ _ hs).1
      rw [servesAPI_iff] at hpass
      have hp : "/api/users/".toList <+: normalizePath reqPath := by
        rcases hpass.2 with e | e
        · rw [e]
          exact ⟨"[id]".toList, rfl⟩
        · exact List.IsPrefix.trans ⟨"[id]/".toList, rfl⟩ e
      rw [hfind _ hp] at hs
      have hpath : "/api/users".toList = "/api/users/[id]".toList :=
        congrArg Route.Path (Option.some.inj hs)
      exact absurd hpath (by decide)
    · simp [Route.servesExact, apiRoute] at hs
    · simp [Route.servesParam, apiRoute] at hs
  · intro users req
    have hw : wrappedHandler "/api/users".toList .users users req
        = APIFunc.users.call users [] req := rfl
    refine ⟨hw, ?_, ?_⟩
    · intro hm
      rw [hw]
      unfold APIFunc.call
      rcases hm with hm | hm <;> rw [hm] <;> rfl
    · intro hm
      rw [hw]
      unfold APIFunc.call
      rw [hm]
      rfl

theorem api_dynamic_route_shadowed_witness :
    (((sampleRouter []).afterInitRoutes (sampleInitEnv siblingEnv)).ServeHTTP
          "/api/users/5".toList).2
        = .serve (apiRoute labelHandlers "/api/users".toList .users)
            (((sampleRouter []).GlobalMiddleware.getD (NewMiddlewareChain String)).Then
              ((NewMiddlewareChain String).Then
                (labelHandlers.api "/api/users".toList .users)))
      ∧ wrappedHandler "/api/users".toList .users initialUsers
          (apiRequest "DELETE" "/api/users/5" [] .invalid)
        = .ok (initialUsers, RenderError "Method not allowed".toList 405) :=
  ⟨(api_dynamic_route_shadowed (sampleRouter [])
      ((sampleRouter []).afterInitRoutes (sampleInitEnv siblingEnv)) (sampleInitEnv siblingEnv)
      rfl (fun _ hs => nomatch hs) rfl).1 "/api/users/5".toList (by decide),
    ((api_dynamic_route_shadowed (sampleRouter [])
      ((sampleRouter []).afterInitRoutes (sampleInitEnv siblingEnv)) (sampleInitEnv siblingEnv)
      rfl (fun _ hs => nomatch hs) rfl).2.2 initialUsers
        (apiRequest "DELETE" "/api/users/5" [] .invalid)).2.1 (Or.inr (by decide))⟩

/-! ## C16 and C17: the user handlers -/

set_option maxRecDepth 100000 in
/-- C16 (failing input): for the three initial users and the request
`GET /api/users?page=4611686018427387905&per_page=2`, `GetPaginationParams`
returns `page = 2 ^ 62 + 1` and `perPage = 2`; `(page - 1) * perPage` wraps to
`-2 ^ 63`, which is below the number of users, and the slice expression
`users[startIndex:endIndex]` panics instead of the handler answering 200 with
the empty list. -/
theorem handleUsersGet_slice_out_of_range :
    GetPaginationParams overflowRequest 10 = (4611686018427387905, 2)
      ∧ wrapInt ((4611686018427387905 - 1) * 2) = -9223372036854775808
      ∧ handleUsersGet initialUsers overflowRequest
        = .error (.sliceBounds (-9223372036854775808) (-9223372036854775806))
      ∧ wrappedHandler "/api/users".toList .users initialUsers overflowRequest
        = .error (.sliceBounds (-9223372036854775808) (-9223372036854775806)) := by
  decide

set_option maxRecDepth 100000 in
/-- C17 (failing input): from the three initial users, the by-id handler with
`DELETE /api/users/1` removes the user with id 1 and leaves the ids 2 and 3; the
create handler with a valid body then answers 201 with a record whose id is
`len(users) + 1 = 3`, the id of a user stored before the call. -/
theorem handleUsersPost_reuses_id :
    (wrappedHandler "/api/users/[id]".toList .userById initialUsers
          (apiRequest "DELETE" "/api/users/1" [] .invalid)).map
        (fun res => (userIds res.1, res.2.status))
      = .ok ([some (.int 2), some (.int 3)], 204)
      ∧ ((wrappedHandler "/api/users/[id]".toList .userById initialUsers
            (apiRequest "DELETE" "/api/users/1" [] .invalid)).bind
          (fun res => handleUsersPost res.1 (apiRequest "POST" "/api/users" [] carolBody))).map
        (fun res => (userIds res.1, res.2.status, res.2.body.Success, res.2.body.Data.userId))
      = .ok ([some (.int 2), some (.int 3), some (.int 3)], 201, true, some (.int 3)) := by
  decide

theorem wrapInt_of_range (x : Int) (h1 : -(2 ^ 63) ≤ x) (h2 : x < 2 ^ 63) : wrapInt x = x := by
  unfold wrapInt
  omega

/-- The listing handler where the arithmetic does not wrap: for the page `p` and
size `s` read from the request with `p * s < 2 ^ 63`, the response is 200 with
the users at the indices `(p - 1) * s` up to `min (p * s) n`, and the
pagination data of `p`, `s` and the number of users. -/
theorem handleUsersGet_in_range (users : List UserMap) (req : Request) (p s : Int)
    (hparams : GetPaginationParams req 10 = (p, s)) (hp : 1 ≤ p) (hs : 1 ≤ s)
    (hno : p * s < 2 ^ 63) (hn : (users.length : Int) < 2 ^ 53) :
    ∃ pageMeta, NewPaginationMeta p s users.length = some pageMeta
      ∧ handleUsersGet users req
        = .ok (RenderPaginated
            (.users ((users.drop ((p - 1) * s).toNat).take s.toNat)) pageMeta 200) := by
  rcases newPaginationMeta_small p s users.length (by omega) (by omega) hn
    with ⟨totalPages, hmeta, _, _⟩
  refine ⟨_, hmeta, ?_⟩
  have e : (p - 1) * s = p * s - s := by ring
  have h0 : 0 ≤ (p - 1) * s := Int.mul_nonneg (by omega) (by omega)
  have hstart : wrapInt ((p - 1) * s) = (p - 1) * s :=
    wrapInt_of_range _ (by omega) (by omega)
  have hend : wrapInt ((p - 1) * s + s) = p * s := by
    rw [wrapInt_of_range _ (by omega) (by omega)]
    omega
  unfold handleUsersGet
  rw [hparams]
  simp only [hstart, hend, hmeta]
  generalize hA : (p - 1) * s = start at *
  generalize hB : p * s = stop at *
  by_cases hge : start ≥ (users.length : Int)
  · rw [if_pos hge]
    have hd : users.drop start.toNat = [] := List.drop_eq_nil_of_le (by omega)
    rw [hd, List.take_nil]
  · rw [if_neg hge]
    by_cases hgt : stop > (users.length : Int)
    · rw [if_pos hgt]
      unfold goSlice
      rw [if_pos ⟨h0, by omega, by omega⟩]
      simp only [Int.toNat_ofNat, List.take_length]
      have ht : (users.drop start.toNat).take s.toNat = users.drop start.toNat :=
        List.take_of_length_le (by rw [List.length_drop]; omega)
      rw [ht]
    · rw [if_neg hgt]
      unfold goSlice
      rw [if_pos ⟨h0, by omega, by omega⟩]
      simp only
      rw [List.drop_take]
      have hsub : stop.toNat - start.toNat = s.toNat := by omega
      rw [hsub]

set_option maxRecDepth 100000 in
/-- The listing of 25 users in pages of 10: pages 1 and 2 carry 10 users, page 3
carries 5 and page 4 none, each with `TotalPages = 3`. -/
theorem handleUsersGet_pages_of_25 :
    listingSummary (handleUsersGet (usersUpTo 25)
        (apiRequest "GET" "/api/users" [("page", "1")] .invalid))
      = .ok (200, 10, some ⟨1, 10, 25, 3, true, false⟩)
      ∧ listingSummary (handleUsersGet (usersUpTo 25)
        (apiRequest "GET" "/api/users" [("page", "2")] .invalid))
      = .ok (200, 10, some ⟨2, 10, 25, 3, true, true⟩)
      ∧ listingSummary (handleUsersGet (usersUpTo 25)
        (apiRequest "GET" "/api/users" [("page", "3")] .invalid))
      = .ok (200, 5, some ⟨3, 10, 25, 3, false, true⟩)
      ∧ listingSummary (handleUsersGet (usersUpTo 25)
        (apiRequest "GET" "/api/users" [("page", "4")] .invalid))
      = .ok (200, 0, some ⟨4, 10, 25, 3, false, true⟩) := by
  decide

/-! ## C18: the debounce of the watch loop -/

/-- A burst handled from a state whose timer, if set, is not yet due at the
first event: no reload happens during the burst, and the timer is left set to
the timeout after the last event. -/
theorem watchLoop_burst (first : FsEvent) (rest : List FsEvent) (fw : FileWatcher)
    (hpending : ∀ deadline, fw.debounceTimer = some deadline → first.time < deadline)
    (hops : ∀ e ∈ first :: rest,
      (e.Has .write || e.Has .create || e.Has .remove) = true)
    (hgap : List.Chain (fun a b => a.time ≤ b.time ∧ b.time < a.time + debounceTimeout)
      first rest) :
    fw.watchLoop (first :: rest)
      = { debounceTimer :=
            some (((first :: rest).getLast (List.cons_ne_nil _ _)).time + debounceTimeout)
          reloads := fw.reloads } := by
  induction rest generalizing first fw with
  | nil =>
    have h1 : fw.elapse first.time = fw := by
      unfold FileWatcher.elapse
      cases hd : fw.debounceTimer with
      | none => rfl
      | some deadline =>
        have := hpending deadline hd
        simp only
        rw [if_neg (by omega)]
    simp only [FileWatcher.watchLoop, List.foldl, FileWatcher.handle, h1,
      hops first (List.mem_cons_self _ _), if_true, List.getLast_singleton]
  | cons second rest ih =>
    have h1 : fw.elapse first.time = fw := by
      unfold FileWatcher.elapse
      cases hd : fw.debounceTimer with
      | none => rfl
      | some deadline =>
        have := hpending deadline hd
        simp only
        rw [if_neg (by omega)]
    rcases List.chain_cons.1 hgap with ⟨hfs, hrest⟩
    have hstep : fw.handle first
        = { debounceTimer := some (first.time + debounceTimeout), reloads := fw.reloads } := by
      simp only [FileWatcher.handle, h1, hops first (List.mem_cons_self _ _), if_true]
    have := ih second (fw.handle first)
      (by
        intro deadline hd
        rw [hstep] at hd
        simp only [Option.some.injEq] at hd
        omega)
      (fun e he => hops e (List.mem_cons_of_mem _ he)) hrest
    unfold FileWatcher.watchLoop at this ⊢
    rw [List.foldl_cons, this, hstep, List.getLast_cons (List.cons_ne_nil _ _)]

/-- C18: for every burst of one or more write, create or remove events, each
received less than 100 ms after the one before, handled by a watcher with no
timer set, no `InitRoutes` call starts during the burst and exactly one starts
once the events have stopped, at the deadline of the last timer, 100 ms after
the last event of the burst. -/
theorem watchLoop_debounce (first : FsEvent) (rest : List FsEvent)
    (hops : ∀ e ∈ first :: rest,
      (e.Has .write || e.Has .create || e.Has .remove) = true)
    (hgap : List.Chain (fun a b => a.time ≤ b.time ∧ b.time < a.time + 100) first rest) :
    (NewFileWatcher.watchLoop (first :: rest)).reloads = []
      ∧ ((NewFileWatcher.watchLoop (first :: rest)).settle).reloads
        = [((first :: rest).getLast (List.cons_ne_nil _ _)).time + 100] := by
  have h := watchLoop_burst first rest NewFileWatcher (fun _ hd => nomatch hd) hops hgap
  rw [h]
  exact ⟨rfl, rfl⟩

theorem watchLoop_debounce_witness :
    (NewFileWatcher.watchLoop
        [writeAt 0, writeAt 10, writeAt 20, writeAt 30, writeAt 40]).reloads = []
      ∧ ((NewFileWatcher.watchLoop
          [writeAt 0, writeAt 10, writeAt 20, writeAt 30, writeAt 40]).settle).reloads
        = [([writeAt 0, writeAt 10, writeAt 20, writeAt 30, writeAt 40].getLast
            (List.cons_ne_nil _ _)).time + 100] :=
  watchLoop_debounce (writeAt 0) [writeAt 10, writeAt 20, writeAt 30, writeAt 40]
    (by decide) (by simp [writeAt])

/-! ## C21: page routes under `/static` and `/api` -/

/-- C21 (the code at the failing input): over a content root with the pages
`app/api?/[id].html` and `app/static*/[id].html`, `InitRoutes` succeeds and
registers the page routes `/api?/[id]` and `/static*/[id]`, whose paths begin
with `/api` and `/static`.  Their patterns are built from the raw path text, so
the request `/ap/5`, which begins with neither `/static` nor `/api`, reaches the
parameterized-page loop and is served by the template handler of `/api?/[id]`,
and the request `/stati/5` by that of `/static*/[id]`. -/
theorem ServeHTTP_serves_page_under_prefix :
    ((sampleRouter []).InitRoutes (sampleInitEnv specialDirEnv)).map
        (fun res =>
          (routePaths (res.1.Routes.filter Route.isPage),
            (res.1.Routes.filter Route.isPage).map
              (fun route => hasPrefix route.Path "/static".toList
                || hasPrefix route.Path "/api".toList),
            res.2))
      = .ok (["/static*/[id]".toList, "/api?/[id]".toList], [true, true], none)
      ∧ ((sampleRouter []).InitRoutes (sampleInitEnv specialDirEnv)).map
        (fun res =>
          ((res.1.ServeHTTP "/ap/5".toList).2.servedPath,
            (res.1.ServeHTTP "/ap/5".toList).2.servedHandler))
      = .ok (some "/api?/[id]".toList, some "log(/api?/[id])")
      ∧ ((sampleRouter []).InitRoutes (sampleInitEnv specialDirEnv)).map
        (fun res =>
          ((res.1.ServeHTTP "/stati/5".toList).2.servedPath,
            (res.1.ServeHTTP "/stati/5".toList).2.servedHandler))
      = .ok (some "/static*/[id]".toList, some "log(/static*/[id])")
      ∧ labelHandlers.template "/api?/[id]".toList = "/api?/[id]"
      ∧ hasPrefix (normalizePath "/ap/5".toList) "/api".toList = false
      ∧ hasPrefix (normalizePath "/stati/5".toList) "/static".toList = false := by
  decide

/-- A page route that `Router.ServeHTTP` serves is in the table and passed the
test of one of the two page loops, which are reached only by a path that does
not begin with `/api` and, when the table has a static route, does not begin
with `/static`. -/
theorem ServeHTTP_page_cases {H T : Type} (r : Router H T) (reqPath : Str) (route : Route H)
    (handler : H) (h : (r.ServeHTTP reqPath).2 = .serve route handler)
    (hstatic : route.IsStatic = false) (hapi : route.IsAPI = false) :
    route ∈ r.Routes
      ∧ hasPrefix (normalizePath reqPath) "/api".toList = false
      ∧ (hasPrefix (normalizePath reqPath) "/static".toList = false
          ∨ r.Routes.find? (fun route => route.IsStatic) = none)
      ∧ (route.servesExact (normalizePath reqPath) = true
          ∨ route.servesParam (normalizePath reqPath) = true) := by
  have key : ∀ d : Dispatch H,
      d = (if hasPrefix (normalizePath reqPath) "/api".toList then
          match r.Routes.find? (Route.servesAPI (normalizePath reqPath)) with
          | some route =>
            .serve route ((r.GlobalMiddleware.getD (NewMiddlewareChain H)).Then
              (route.chain.Then route.Handler))
          | none => .httpError "API endpoint not found".toList 404
        else
          match r.Routes.find? (Route.servesExact (normalizePath reqPath)) with
          | some route =>
            .serve route ((r.GlobalMiddleware.getD (NewMiddlewareChain H)).Then
              (route.chain.Then route.Handler))
          | none =>
            match r.Routes.find? (Route.servesParam (normalizePath reqPath)) with
            | some route =>
              .serve route ((r.GlobalMiddleware.getD (NewMiddlewareChain H)).Then
                (route.chain.Then route.Handler))
            | none => .errorPage 404) →
      d = .serve route handler →
      route ∈ r.Routes
        ∧ hasPrefix (normalizePath reqPath) "/api".toList = false
        ∧ (route.servesExact (normalizePath reqPath) = true
            ∨ route.servesParam (normalizePath reqPath) = true) := by
    intro d hd hserve
    rw [hserve] at hd
    split at hd
    · exfalso
      cases hf : r.Routes.find? (Route.servesAPI (normalizePath reqPath)) with
      | none => rw [hf] at hd; cases hd
      | some x =>
        rw [hf] at hd
        simp only at hd
        injection hd with h1 _
        have hx := (find?_some_holds _ _ _ hf).1
        rw [← h1, servesAPI_iff] at hx
        rw [hapi] at hx
        exact absurd hx.1 (by decide)
    · rename_i hnapi
      have hnapi' : hasPrefix (normalizePath reqPath) "/api".toList = false := by
        simpa using hnapi
      cases hf : r.Routes.find? (Route.servesExact (normalizePath reqPath)) with
      | some x =>
        rw [hf] at hd
        simp only at hd
        injection hd with h1 _
        rw [h1]
        exact ⟨(find?_some_holds _ _ _ hf).2, hnapi', Or.inl (find?_some_holds _ _ _ hf).1⟩
      | none =>
        rw [hf] at hd
        simp only at hd
        cases hg : r.Routes.find? (Route.servesParam (normalizePath reqPath)) with
        | some x =>
          rw [hg] at hd
          simp only at hd
          injection hd with h1 _
          rw [h1]
          exact ⟨(find?_some_holds _ _ _ hg).2, hnapi', Or.inr (find?_some_holds _ _ _ hg).1⟩
        | none => rw [hg] at hd; cases hd
  unfold Router.ServeHTTP at h
  simp only at h
  split at h
  · split at h
    · rename_i x hx
      exfalso
      injection h with h1 _
      have hsx : x.IsStatic = true := (find?_some_holds _ _ _ hx).1
      rw [← h1] at hstatic
      rw [hstatic] at hsx
      exact absurd hsx (by decide)
    · rename_i hnone
      rcases key _ rfl h with ⟨h1, h2, h3⟩
      exact ⟨h1, h2, Or.inr hnone, h3⟩
  · rename_i hns
    rcases key _ rfl h with ⟨h1, h2, h3⟩
    exact ⟨h1, h2, Or.inl (by simpa using hns), h3⟩

/-- The pattern of a route added by `Router.addPageRoute` is the matcher of its
path. -/
theorem addPageRoute_pattern {H T : Type} (hs : HandlerSet H) (r r' : Router H T)
    (routePath : Str) (h : r.addPageRoute hs routePath = .ok r')
    (hinv : ∀ x ∈ r.Routes, ∀ re, x.Pattern = some re → compileMatcher x.Path = .ok re) :
    ∀ x ∈ r'.Routes, ∀ re, x.Pattern = some re → compileMatcher x.Path = .ok re := by
  unfold Router.addPageRoute at h
  simp only at h
  split at h
  · exact absurd h (by simp)
  · rename_i pattern hpat
    have h' := Except.ok.inj h
    subst h'
    intro x hx re hre
    rcases List.mem_append.1 hx with hx | hx
    · exact hinv x hx re hre
    · rw [List.mem_singleton] at hx
      subst hx
      simp only at hre ⊢
      subst hre
      split at hpat
      · split at hpat
        · rename_i p hp
          have e := Except.ok.inj hpat
          rw [hp, Option.some.inj e]
        · exact absurd hpat (by simp)
      · exact absurd (Except.ok.inj hpat) (by simp)

theorem addPageRoutes_pattern {H T : Type} (hs : HandlerSet H) (entries : List (Str × T))
    (r r' : Router H T) (h : Router.addPageRoutes hs r entries = .ok r')
    (hinv : ∀ x ∈ r.Routes, ∀ re, x.Pattern = some re → compileMatcher x.Path = .ok re) :
    ∀ x ∈ r'.Routes, ∀ re, x.Pattern = some re → compileMatcher x.Path = .ok re := by
  induction entries generalizing r with
  | nil =>
    have h' := Except.ok.inj h
    subst h'
    exact hinv
  | cons entry rest ih =>
    unfold Router.addPageRoutes at h
    cases h1 : r.addPageRoute hs entry.1 with
    | error e => rw [h1] at h; exact absurd h (by simp)
    | ok r1 =>
      rw [h1] at h
      simp only at h
      exact ih r1 h (addPageRoute_pattern hs r r1 entry.1 h1 hinv)

/-- On the table of a successful `InitRoutes`, a route with a pattern has the
matcher of its path. -/
theorem InitRoutes_ok_patterns {H T : Type} (r r' : Router H T) (env : InitEnv H T)
    (h : r.InitRoutes env = .ok (r', none)) :
    ∀ x ∈ r'.Routes, ∀ re, x.Pattern = some re → compileMatcher x.Path = .ok re := by
  unfold Router.InitRoutes at h
  simp only at h
  rcases hl : r.Marley.LoadTemplates env.load with ⟨m, lerr⟩
  rw [hl] at h
  cases lerr with
  | some e => simp at h
  | none =>
    simp only at h
    split at h
    · exact absurd h (by simp)
    · rename_i r1 hpages
      have hinv1 := addPageRoutes_pattern _ _ _ _ hpages (by
        intro x hx re hre
        simp only [Router.AddStaticRoute, List.nil_append, List.mem_singleton] at hx
        subst hx
        exact absurd hre (by simp))
      rcases loadAPIRoutes_shape r1 env with ⟨herr, _, _, hr2⟩
      rcases hq : r1.loadAPIRoutes env with ⟨r2, cnt, aerr⟩
      rw [hq] at h herr hr2
      simp only at herr hr2
      subst herr
      simp only at h
      have h' := (Prod.mk.inj (Except.ok.inj h)).1
      subst h'
      intro x hx re hre
      rw [hr2] at hx
      rcases List.mem_append.1 hx with hx | hx
      · exact hinv1 x hx re hre
      · exfalso
        unfold builtinAPIRoutes at hx
        simp only at hx
        split at hx
        · cases hx
        · rcases List.mem_append.1 hx with hx | hx
          · split at hx
            · simp only [List.mem_cons, List.mem_singleton, List.not_mem_nil, or_false] at hx
              rcases hx with rfl | rfl <;> exact absurd hre (by simp [apiRoute])
            · cases hx
          · split at hx
            · simp only [List.mem_singleton] at hx
              subst hx
              exact absurd hre (by simp [apiRoute])
            · cases hx

/-- A text without `/` that begins a segment followed by the rest of a path
begins the segment. -/
theorem prefix_of_prefix_segment (w text rest : Str) (hw : '/' ∉ w)
    (hrest : rest = [] ∨ ∃ t, rest = '/' :: t) (hp : w <+: text ++ rest) : w <+: text := by
  induction w generalizing text with
  | nil => exact List.nil_prefix
  | cons c w ih =>
    have hc : c ≠ '/' := fun e => hw (by rw [e]; exact List.mem_cons_self _ _)
    have hw' : '/' ∉ w := fun hm => hw (List.mem_cons_of_mem _ hm)
    cases text with
    | nil =>
      exfalso
      rw [List.nil_append] at hp
      rcases hrest with e | ⟨t, e⟩
      · rw [e] at hp
        exact absurd (List.prefix_nil.1 hp) (by simp)
      · rw [e] at hp
        exact hc (List.cons_prefix_cons.1 hp).1
    | cons d text =>
      rw [List.cons_append] at hp
      rcases List.cons_prefix_cons.1 hp with ⟨e, hp'⟩
      exact List.cons_prefix_cons.2 ⟨e, ih text hw' hp'⟩

/-- A request path with the same segments as a route path of valid segments
begins with the literal text the route path begins with. -/
theorem prefix_requestOf (w : Str) (hw0 : w ≠ []) (hw : ∀ c ∈ w, c ≠ '/' ∧ c ≠ '[')
    (segs segs' : List Seg) (hv : ∀ seg ∈ segs, seg.Valid)
    (hmap : segs'.map Seg.routeText = segs.map Seg.routeText)
    (hp : ('/' :: w) <+: routeOf segs) : ('/' :: w) <+: requestOf segs' := by
  have hslash : '/' ∉ w := fun hm => (hw _ hm).1 rfl
  cases segs with
  | nil =>
    exfalso
    exact absurd (List.prefix_nil.1 hp) (by simp)
  | cons first rest =>
    cases segs' with
    | nil => simp at hmap
    | cons first' rest' =>
      simp only [List.map_cons, List.cons.injEq] at hmap
      unfold routeOf at hp
      unfold requestOf
      simp only [List.map_cons, dirPath] at hp ⊢
      have hp' := (List.cons_prefix_cons.1 hp).2
      have hpre := prefix_of_prefix_segment w _ _ hslash (dirPath_nil_or_slash _) hp'
      have hfirst := hv first (List.mem_cons_self _ _)
      apply List.cons_prefix_cons.2 ⟨rfl, ?_⟩
      cases first with
      | param name value =>
        exfalso
        cases w with
        | nil => exact hw0 rfl
        | cons c w =>
          have e := (List.cons_prefix_cons.1 hpre).1
          exact (hw c (List.mem_cons_self _ _)).2 e
      | lit text =>
        cases first' with
        | lit text' =>
          have e : text' = text := hmap.1
          rw [e]
          exact List.IsPrefix.trans hpre (List.prefix_append _ _)
        | param name value =>
          exfalso
          have e : '[' :: name ++ [']'] = text := hmap.1
          exact lit_no_bracket hfirst '[' (by rw [← e]; exact List.mem_cons_self _ _) rfl

/-- Where no pattern holds text special to `regexp`: on the table of a
successful `InitRoutes`, a page route whose path begins with `/static` or `/api`
and which is not parameterized, or whose path is made of valid segments, is
served for no request. -/
theorem page_under_prefix_not_served {H T : Type} (r r' : Router H T) (env : InitEnv H T)
    (h : r.InitRoutes env = .ok (r', none)) (route : Route H)
    (hstatic : route.IsStatic = false) (hapi : route.IsAPI = false)
    (hunder : hasPrefix route.Path "/static".toList = true
      ∨ hasPrefix route.Path "/api".toList = true)
    (hclean : route.IsParam = false
      ∨ ∃ segs, (∀ seg ∈ segs, seg.Valid) ∧ route.Path = routeOf segs)
    (reqPath : Str) (handler : H) :
    (r'.ServeHTTP reqPath).2 ≠ .serve route handler := by
  intro hserve
  rcases ServeHTTP_page_cases r' reqPath route handler hserve hstatic hapi
    with ⟨hmem, hnapi, hnstatic, hcase⟩
  rcases InitRoutes_ok_shape r r' env h with ⟨_, _, _, pages, hr, _, _⟩
  have hns : hasPrefix (normalizePath reqPath) "/static".toList = false := by
    rcases hnstatic with e | e
    · exact e
    · rw [hr] at e
      simp [List.find?, staticRoute] at e
  have key : ∀ w : Str, w ≠ [] → (∀ c ∈ w, c ≠ '/' ∧ c ≠ '[') →
      ('/' :: w) <+: route.Path → ('/' :: w) <+: normalizePath reqPath := by
    intro w hw0 hw hp
    rcases hcase with hex | hpar
    · have e : normalizePath reqPath = route.Path := by
        simp only [Route.servesExact, Bool.and_eq_true, beq_iff_eq] at hex
        exact hex.2
      rw [e]
      exact hp
    · unfold Route.servesParam at hpar
      rcases hclean with hnp | ⟨segs, hv, hpath⟩
      · rw [hnp] at hpar
        exact absurd hpar (by simp)
      · cases hpat : route.Pattern with
        | none =>
          rw [hpat] at hpar
          exact absurd hpar (by simp)
        | some re =>
          rw [hpat] at hpar
          simp only [Bool.and_eq_true] at hpar
          have hc := InitRoutes_ok_patterns r r' env h route hmem re hpat
          rcases compileMatcher_accepts_iff segs hv (normalizePath reqPath)
            with ⟨re', hre', hiff⟩
          rw [hpath, hre'] at hc
          have e := Except.ok.inj hc
          subst e
          rcases hiff.1 hpar.2 with ⟨segs', _, hmap, hq⟩
          rw [hq]
          rw [hpath] at hp
          exact prefix_requestOf w hw0 hw segs segs' hv hmap hp
  rcases hunder with hp | hp
  · have hq : hasPrefix (normalizePath reqPath) "/static".toList = true :=
      (hasPrefix_iff _ _).2
        (key "static".toList (by decide) (by decide) ((hasPrefix_iff _ _).1 hp))
    rw [hns] at hq
    exact absurd hq (by decide)
  · have hq : hasPrefix (normalizePath reqPath) "/api".toList = true :=
      (hasPrefix_iff _ _).2
        (key "api".toList (by decide) (by decide) ((hasPrefix_iff _ _).1 hp))
    rw [hnapi] at hq
    exact absurd hq (by decide)

end GoOnAirplanes
